import Mathlib

/-!
Shallow embedding of core components of the ethereumjs monorepo
(Common parameter/hardfork resolver, typed-transaction codec, EVM
message dispatch, precompile table, EIP-1559 base-fee calculation),
with theorems checking the natural-language specification against it.

Bytes are modelled as `List Nat` (each element a byte value), unbounded
integers (`bigint` in the source) as `Nat` (all quantities involved are
non-negative), fallible code as `Except String`.  External collaborators
(keccak/sha-256/KZG, the interpreter loop, precompile bodies) are
parameters of the embedding, exactly as they are external inputs of the
code under analysis.
-/

deriving instance DecidableEq for Except

namespace EthJS

/-- Fuelled helper of `natToBE` (so that the definition reduces inside the
kernel; `natToBEAux_congr` shows the fuel is irrelevant once sufficient). -/
def natToBEAux : Nat → Nat → List Nat
  | 0, _ => []
  | fuel + 1, n => if n = 0 then [] else natToBEAux fuel (n / 256) ++ [n % 256]

/-- Minimal big-endian byte representation of a natural number
(`bigIntToUnpaddedBytes` in `@ethereumjs/util`): no leading zero bytes,
`0` maps to the empty byte string. -/
def natToBE (n : Nat) : List Nat :=
  natToBEAux n n

/-- Big-endian interpretation of a byte string (`bytesToBigInt`):
the empty string maps to `0`. -/
def beToNat (bs : List Nat) : Nat :=
  bs.foldl (fun acc b => acc * 256 + b) 0

/-- Big-endian byte representation padded on the left with zero bytes to
exactly `w` bytes (used for the 8-byte activation encoding of fork hashes). -/
def natToBEPad (w : Nat) (n : Nat) : List Nat :=
  let bs := natToBE n
  List.replicate (w - bs.length) 0 ++ bs

/-- `intToBytes` of `@ethereumjs/util`: the hex digits of `n`, left-padded
to an even count, read as bytes.  Equivalently the minimal big-endian
bytes, except that `0` maps to the single byte `0x00`. -/
def intToBytesModel (n : Nat) : List Nat :=
  if n = 0 then [0] else natToBE n

/- ----------------------------------------------------------------
## EIP-1559 base fee (packages/block/src/header.ts, calcNextBaseFee)
----------------------------------------------------------------- -/

/-- The header fields that `BlockHeader.calcNextBaseFee` reads. -/
structure BaseFeeHeader where
  gasLimit : Nat
  gasUsed : Nat
  baseFeePerGas : Nat
  deriving Repr, DecidableEq

/-- `BlockHeader.calcNextBaseFee` (packages/block/src/header.ts).  The two
`common.param` lookups (`elasticityMultiplier`,
`baseFeeMaxChangeDenominator`) and the EIP-1559 activation flag are passed
in as arguments; everything else mirrors the source line by line.  All
quantities are non-negative so `bigint` arithmetic coincides with `Nat`
arithmetic (the one signed subtraction is guarded by the source itself). -/
def calcNextBaseFee (eip1559Active : Bool) (elasticity denom : Nat)
    (h : BaseFeeHeader) : Except String Nat :=
  if eip1559Active = false then
    .error "calcNextBaseFee can only be called with EIP1559 being activated"
  else
    let parentGasTarget := h.gasLimit / elasticity
    if parentGasTarget = h.gasUsed then
      .ok h.baseFeePerGas
    else if h.gasUsed > parentGasTarget then
      let gasUsedDelta := h.gasUsed - parentGasTarget
      let calculatedDelta := h.baseFeePerGas * gasUsedDelta / parentGasTarget / denom
      .ok ((if calculatedDelta > 1 then calculatedDelta else 1) + h.baseFeePerGas)
    else
      let gasUsedDelta := parentGasTarget - h.gasUsed
      let calculatedDelta := h.baseFeePerGas * gasUsedDelta / parentGasTarget / denom
      .ok (if h.baseFeePerGas - calculatedDelta > 0 then h.baseFeePerGas - calculatedDelta else 0)

/- ----------------------------------------------------------------
## Precompile table (packages/evm/src/precompiles/index.ts)
----------------------------------------------------------------- -/

/-- `PrecompileAvailabilityCheck` together with its parameter: an entry is
gated either on a hardfork (via `common.gteHardfork`) or on an EIP
(via `common.isActivatedEIP`). -/
inductive PrecompAvail where
  | hardfork (param : String)
  | eip (param : Nat)
  deriving Repr, DecidableEq

/-- One `PrecompileEntry`.  The precompile body is an opaque value of an
arbitrary type `F` (`PrecompileFunc` in the source); addresses are the
unprefixed 40-character hex strings the source uses as keys. -/
structure PrecompEntry (F : Type) where
  address : String
  check : PrecompAvail
  precompile : F
  deriving Repr, DecidableEq

/-- The `precompileEntries` table.  The nineteen imported precompile
functions `precompile01 .. precompile14` are abstracted as `funcs 0x01 ..
funcs 0x14` for an arbitrary assignment `funcs`. -/
def precompileEntries {F : Type} (funcs : Nat → F) : List (PrecompEntry F) :=
  [ ⟨"0000000000000000000000000000000000000001", .hardfork "chainstart", funcs 0x01⟩,
    ⟨"0000000000000000000000000000000000000002", .hardfork "chainstart", funcs 0x02⟩,
    ⟨"0000000000000000000000000000000000000003", .hardfork "chainstart", funcs 0x03⟩,
    ⟨"0000000000000000000000000000000000000004", .hardfork "chainstart", funcs 0x04⟩,
    ⟨"0000000000000000000000000000000000000005", .hardfork "byzantium", funcs 0x05⟩,
    ⟨"0000000000000000000000000000000000000006", .hardfork "byzantium", funcs 0x06⟩,
    ⟨"0000000000000000000000000000000000000007", .hardfork "byzantium", funcs 0x07⟩,
    ⟨"0000000000000000000000000000000000000008", .hardfork "byzantium", funcs 0x08⟩,
    ⟨"0000000000000000000000000000000000000009", .hardfork "istanbul", funcs 0x09⟩,
    ⟨"000000000000000000000000000000000000000a", .eip 4844, funcs 0x0a⟩,
    ⟨"000000000000000000000000000000000000000c", .eip 2537, funcs 0x0c⟩,
    ⟨"000000000000000000000000000000000000000d", .eip 2537, funcs 0x0d⟩,
    ⟨"000000000000000000000000000000000000000e", .eip 2537, funcs 0x0e⟩,
    ⟨"000000000000000000000000000000000000000f", .eip 2537, funcs 0x0f⟩,
    ⟨"0000000000000000000000000000000000000010", .eip 2537, funcs 0x10⟩,
    ⟨"0000000000000000000000000000000000000011", .eip 2537, funcs 0x11⟩,
    ⟨"0000000000000000000000000000000000000012", .eip 2537, funcs 0x12⟩,
    ⟨"0000000000000000000000000000000000000013", .eip 2537, funcs 0x13⟩,
    ⟨"0000000000000000000000000000000000000014", .eip 2537, funcs 0x14⟩ ]

/-- A `CustomPrecompile`: an `AddPrecompile` (address plus function) or a
`DeletePrecompile` (address only). -/
inductive CustomPrecomp (F : Type) where
  | add (address : String) (f : F)
  | del (address : String)
  deriving Repr, DecidableEq

/-- The address field of a custom precompile. -/
def CustomPrecomp.address {F : Type} : CustomPrecomp F → String
  | .add a _ => a
  | .del a => a

/-- A JavaScript `Map` whose values may be `undefined` (the source stores
`undefined` for deleted custom precompiles), modelled as an insertion-order
association list with replace-on-set semantics. -/
def JsMap (F : Type) := List (String × Option F)

/-- `Map.set`: replace the value at the key if present, else append. -/
def jsMapSet {F : Type} (m : JsMap F) (k : String) (v : Option F) : JsMap F :=
  match m with
  | [] => [(k, v)]
  | (k', v') :: rest =>
      if k' = k then (k', v) :: rest else (k', v') :: jsMapSet rest k v

/-- `Map.has`: key present (even when the stored value is `undefined`). -/
def jsMapHas {F : Type} : JsMap F → String → Bool
  | [], _ => false
  | (k', _) :: rest, k => decide (k' = k) || jsMapHas rest k

/-- `Map.get`: the stored value, flattened (`undefined` both for an absent
key and for a key deleted by a custom precompile). -/
def jsMapGet {F : Type} (m : JsMap F) (k : String) : Option F :=
  match m with
  | [] => none
  | (k', v') :: rest => if k' = k then v' else jsMapGet rest k

/-- Availability predicate of one table entry, given the `Common` queries
`gteHardfork` and `isActivatedEIP` it consults. -/
def precompAvailable (gteHardfork : String → Bool) (isActivatedEIP : Nat → Bool) :
    PrecompAvail → Bool
  | .hardfork hf => gteHardfork hf
  | .eip e => isActivatedEIP e

/-- The first loop body of `getActivePrecompiles`: write one custom
precompile into the map (`undefined`, i.e. `none`, for a delete). -/
def customStep {F : Type} (m : JsMap F) (c : CustomPrecomp F) : JsMap F :=
  match c with
  | .add a f => jsMapSet m a (some f)
  | .del a => jsMapSet m a none

/-- The second loop body of `getActivePrecompiles`: skip addresses already
present, insert a built-in entry when its availability check passes. -/
def entryStep {F : Type} (gteHardfork : String → Bool) (isActivatedEIP : Nat → Bool)
    (m : JsMap F) (entry : PrecompEntry F) : JsMap F :=
  if jsMapHas m entry.address then m
  else if precompAvailable gteHardfork isActivatedEIP entry.check then
    jsMapSet m entry.address (some entry.precompile)
  else m

/-- `getActivePrecompiles` (packages/evm/src/precompiles/index.ts): first
all custom precompiles are written into the map (deletes as `undefined`
values), then every built-in entry whose address is not already present and
whose availability check passes. -/
def getActivePrecompiles {F : Type} (gteHardfork : String → Bool)
    (isActivatedEIP : Nat → Bool) (funcs : Nat → F)
    (customPrecompiles : Option (List (CustomPrecomp F))) : JsMap F :=
  let m0 : JsMap F :=
    match customPrecompiles with
    | none => []
    | some cs => cs.foldl customStep []
  (precompileEntries funcs).foldl (entryStep gteHardfork isActivatedEIP) m0

/-- Last custom precompile naming a given address, if any (later entries of
the custom list overwrite earlier ones in the map). -/
def lastCustomAt {F : Type} : List (CustomPrecomp F) → String → Option (CustomPrecomp F)
  | [], _ => none
  | c :: cs, a =>
      match lastCustomAt cs a with
      | some c' => some c'
      | none => if c.address = a then some c else none

/-- The function a custom precompile installs: `some f` for an add,
`none` for a delete. -/
def CustomPrecomp.installed {F : Type} : CustomPrecomp F → Option F
  | .add _ f => some f
  | .del _ => none

/-- Specification-side description of the active-precompile map at one
address: the last custom precompile naming the address takes precedence (an
add installs its function, a delete leaves nothing callable); otherwise the
first built-in table entry at the address whose availability predicate
holds. -/
def activePrecompSpec {F : Type} (gteHardfork : String → Bool)
    (isActivatedEIP : Nat → Bool) (funcs : Nat → F)
    (customPrecompiles : Option (List (CustomPrecomp F))) (a : String) : Option F :=
  match lastCustomAt (customPrecompiles.getD []) a with
  | some c => c.installed
  | none =>
      ((precompileEntries funcs).find?
        (fun e => decide (e.address = a) &&
                  precompAvailable gteHardfork isActivatedEIP e.check)).map
        (fun e => e.precompile)

/- ----------------------------------------------------------------
## Common parameter resolution (src/unnamed/part_001, Common.param)
----------------------------------------------------------------- -/

/-- One EIP configuration file (`eips/index.js` data): its parameter topics
as nested association lists `topic -> name -> value`.  (The
`minimumHardfork` / `requiredEIPs` fields only matter for `setEIPs` and are
omitted here.) -/
structure EIPSpec where
  topics : List (String × List (String × Nat))
  deriving Repr, DecidableEq

/-- One hardfork configuration file (`hardforks/index.js` data): either an
EIP-referencing file (e.g. `berlin.json`, carrying an `eips` list) or a
parameter-inlining file (e.g. `istanbul.json`). -/
inductive HFSpec where
  | eips (eips : List Nat)
  | params (topics : List (String × List (String × Nat)))
  deriving Repr, DecidableEq

/-- The EIP database, keyed by EIP number. -/
def EIPTable := List (Nat × EIPSpec)

/-- `Common.paramByEIP`: errors when the EIP is unknown or the topic is not
defined for it; `ok none` when the topic does not carry the name;
`ok (some v)` otherwise. -/
def paramByEIP (table : EIPTable) (topic name : String) (eip : Nat) :
    Except String (Option Nat) :=
  match table.lookup eip with
  | none => .error "eip not supported"
  | some sp =>
      match sp.topics.lookup topic with
      | none => .error "Topic not defined"
      | some entries => .ok (entries.lookup name)

/-- The per-hardfork update of the tracked `value` in
`Common.paramByHardfork`: an EIP-referencing file folds `paramByEIP` over
its EIP list keeping the last defined value, a parameter-inlining file
keeps its own entry when present (and errors when the topic is missing). -/
def hfStepValue (table : EIPTable) (topic name : String) (sp : HFSpec)
    (value : Option Nat) : Except String (Option Nat) :=
  match sp with
  | .eips es =>
      es.foldlM
        (fun acc e => do
          let r ← paramByEIP table topic name e
          pure (match r with | some v => some v | none => acc))
        value
  | .params topics =>
      match topics.lookup topic with
      | none => .error "Topic not defined"
      | some entries =>
          .ok (match entries.lookup name with
               | some v => some v
               | none => value)

/-- `Common.paramByHardfork`: walk `HARDFORK_CHANGES` in order, updating the
tracked value at every file, and stop after the file whose name is the
requested hardfork; the result defaults to `0`. -/
def paramByHardfork (changes : List (String × HFSpec)) (table : EIPTable)
    (topic name : String) (hardfork : String) : Except String Nat :=
  let rec go : List (String × HFSpec) → Option Nat → Except String Nat
    | [], value => .ok (value.getD 0)
    | (hfName, sp) :: rest, value => do
        let value' ← hfStepValue table topic name sp value
        if hfName = hardfork then .ok (value'.getD 0) else go rest value'
  go changes none

/-- `Common.param`: active EIPs first (in the user-supplied order), then
the hardfork fallback. -/
def commonParam (eipsActive : List Nat) (changes : List (String × HFSpec))
    (table : EIPTable) (hardfork : String) (topic name : String) :
    Except String Nat :=
  let rec go : List Nat → Except String Nat
    | [] => paramByHardfork changes table topic name hardfork
    | e :: rest => do
        let r ← paramByEIP table topic name e
        match r with
        | some v => .ok v
        | none => go rest
  go eipsActive

/-- Pure (error-free) EIP lookup, used for the specification-side
description: the value the EIP defines for the parameter, if any. -/
def eipValue (table : EIPTable) (topic name : String) (eip : Nat) : Option Nat :=
  (table.lookup eip).bind fun sp => (sp.topics.lookup topic).bind fun es => es.lookup name

/-- Specification-side value of one hardfork file: the value it sets for
the parameter, if it changes it (for an EIP-referencing file, the last of
its EIPs defining the parameter). -/
def hfSpecValue (table : EIPTable) (topic name : String) : HFSpec → Option Nat
  | .eips es => (es.filterMap (eipValue table topic name)).getLast?
  | .params topics => (topics.lookup topic).bind fun es => es.lookup name

/-- The prefix of the hardfork files up to and including the first file
carrying the given name (the whole list when the name never occurs). -/
def takeThrough (changes : List (String × HFSpec)) (hardfork : String) :
    List (String × HFSpec) :=
  match changes with
  | [] => []
  | (n, sp) :: rest =>
      if n = hardfork then [(n, sp)] else (n, sp) :: takeThrough rest hardfork

/-- Specification-side parameter resolution, following the spec text: the
first active EIP (in user-supplied order) defining the parameter wins;
otherwise the value set by the latest hardfork up to and including the
current one that changes the parameter; otherwise `0`. -/
def specParamResolution (eipsActive : List Nat) (changes : List (String × HFSpec))
    (table : EIPTable) (hardfork : String) (topic name : String) : Nat :=
  match eipsActive.findSome? (eipValue table topic name) with
  | some v => v
  | none =>
      (((takeThrough changes hardfork).filterMap
          (fun p => hfSpecValue table topic name p.2)).getLast?).getD 0

/- ----------------------------------------------------------------
## Hardfork schedule and fork hash (src/unnamed/part_001)
----------------------------------------------------------------- -/

/-- One entry of a chain configuration's `hardforks` array
(`HardforkConfig`): `block` is `none` for JSON `null`, `timestamp` and
`ttd` are `none` when absent, `forkHash` holds a cached fork hash (as
bytes) when the configuration ships one. -/
structure HardforkConfig where
  name : String
  block : Option Nat
  timestamp : Option Nat
  ttd : Option Nat
  forkHash : Option (List Nat)
  deriving Repr, DecidableEq

/-- One step of the bitwise CRC-32 (IEEE 802.3, reflected polynomial
`0xEDB88320`) over a single byte, as computed by the `crc/crc32` package. -/
def crc32Byte (crc b : Nat) : Nat :=
  let c0 := (crc ^^^ b) % 4294967296
  let step := fun (c : Nat) =>
    if c % 2 = 1 then (c / 2) ^^^ 0xEDB88320 else c / 2
  step (step (step (step (step (step (step (step c0)))))))

/-- CRC-32 of a byte string (already unsigned, so the `>>> 0` of the source
is a no-op here). -/
def crc32 (bs : List Nat) : Nat :=
  (bs.foldl crc32Byte 0xFFFFFFFF) ^^^ 0xFFFFFFFF

/-- `Common._getHardfork`: the first configured hardfork with the given
name. -/
def getHardforkData (hfs : List HardforkConfig) (hardfork : String) :
    Option HardforkConfig :=
  hfs.find? (fun hf => hf.name = hardfork)

/-- The `timestamp ?? block` activation point a hardfork contributes to the
fork-hash input. -/
def blockOrTime (hf : HardforkConfig) : Option Nat :=
  hf.timestamp <|> hf.block

/-- The activation bytes `Common._calcForkHash` accumulates: walk the
configured hardforks, appending the 8-byte big-endian activation of every
hardfork whose activation is known, non-zero, different from the previously
appended one and not the merge (`paris`) hardfork, stopping after the
requested hardfork. -/
def calcForkHashActivations (hfs : List HardforkConfig) (hardfork : String) :
    List Nat :=
  let rec go : List HardforkConfig → Nat → List Nat
    | [], _ => []
    | hf :: rest, prev =>
        match blockOrTime hf with
        | some a =>
            if a ≠ 0 ∧ a ≠ prev ∧ hf.name ≠ "paris" then
              natToBEPad 8 a ++ (if hf.name = hardfork then [] else go rest a)
            else
              if hf.name = hardfork then [] else go rest prev
        | none => if hf.name = hardfork then [] else go rest prev
  go hfs 0

/-- `Common._calcForkHash`: CRC-32 of the genesis hash followed by the
activation bytes, rendered through `intToBytes` (minimal hex, so usually 4
bytes but fewer when the top byte of the CRC is zero). -/
def calcForkHash (hfs : List HardforkConfig) (hardfork : String)
    (genesisHash : List Nat) : List Nat :=
  intToBytesModel (crc32 (genesisHash ++ calcForkHashActivations hfs hardfork))

/-- `Common.forkHash`: errors for an unknown or unscheduled hardfork,
returns a cached configuration fork hash verbatim when one is present,
errors without a genesis hash, and otherwise computes `_calcForkHash`. -/
def forkHash (hfs : List HardforkConfig) (hardfork : String)
    (genesisHash : Option (List Nat)) : Except String (List Nat) :=
  match getHardforkData hfs hardfork with
  | none => .error "No fork hash calculation possible for future hardfork"
  | some data =>
      if data.block = none ∧ data.timestamp = none ∧ data.ttd = none then
        .error "No fork hash calculation possible for future hardfork"
      else
        match data.forkHash with
        | some cached => .ok cached
        | none =>
            match genesisHash with
            | none => .error "genesisHash required for forkHash calculation"
            | some g => .ok (calcForkHash hfs hardfork g)

/-- The configured hardforks up to and including the first one with the
given name (all of them when the name never occurs). -/
def hardforksThrough (hfs : List HardforkConfig) (hardfork : String) :
    List HardforkConfig :=
  match hfs with
  | [] => []
  | hf :: rest =>
      if hf.name = hardfork then [hf] else hf :: hardforksThrough rest hardfork

/-- Specification-side selection of the activation points fed into the fork
hash: among the activations of the scheduled non-merge hardforks up to the
requested one, keep those that are non-zero and differ from the previously
kept one. -/
def dedupActivations : List Nat → Nat → List Nat
  | [], _ => []
  | a :: rest, prev =>
      if a = 0 ∨ a = prev then dedupActivations rest prev
      else a :: dedupActivations rest a

/-- Specification-side fork-hash input bytes, per the spec text: the
genesis hash concatenated with the 8-byte big-endian activation of every
scheduled hardfork up to the requested one whose activation is strictly
after genesis, skipping the merge hardfork and activations equal to the
previously included one. -/
def specForkHashInput (hfs : List HardforkConfig) (hardfork : String)
    (genesisHash : List Nat) : List Nat :=
  let acts :=
    ((hardforksThrough hfs hardfork).filter (fun hf => hf.name ≠ "paris")).filterMap
      blockOrTime
  genesisHash ++ (dedupActivations acts 0).flatMap (natToBEPad 8)

/- ----------------------------------------------------------------
## RLP codec (@ethereumjs/rlp, external collaborator of the tx codec)
----------------------------------------------------------------- -/

/-- An RLP item: a byte string or a list of items. -/
inductive Rlp where
  | str (bs : List Nat)
  | list (items : List Rlp)

/-- RLP length header: a single byte for payloads shorter than 56 bytes,
otherwise a marker byte carrying the byte-count of the big-endian length
followed by that length. -/
def rlpEncodeLength (len offset : Nat) : List Nat :=
  if len < 56 then [offset + len]
  else
    let lb := natToBE len
    (offset + 55 + lb.length) :: lb

mutual

/-- RLP encoding: a single byte below `0x80` stands for itself, other byte
strings get a `0x80`-offset header, lists a `0xc0`-offset header over the
concatenated item encodings. -/
def rlpEncode : Rlp → List Nat
  | .str bs =>
      if bs.length = 1 ∧ bs.headD 0 < 128 then bs
      else rlpEncodeLength bs.length 128 ++ bs
  | .list items =>
      let payload := rlpEncodeList items
      rlpEncodeLength payload.length 192 ++ payload

/-- Concatenated RLP encodings of a list of items. -/
def rlpEncodeList : List Rlp → List Nat
  | [] => []
  | r :: rest => rlpEncode r ++ rlpEncodeList rest

end

mutual

/-- Fuel-indexed RLP item parser, returning the item and the unconsumed
tail.  (The parser accepts a superset of the canonical library decoder: it
does not reject non-minimally encoded inputs; on encoder outputs the two
agree.) -/
def rlpDecodeItem : Nat → List Nat → Option (Rlp × List Nat)
  | 0, _ => none
  | _ + 1, [] => none
  | fuel + 1, b :: rest =>
      if b < 128 then some (.str [b], rest)
      else if b < 184 then
        let len := b - 128
        if rest.length < len then none
        else some (.str (rest.take len), rest.drop len)
      else if b < 192 then
        let ll := b - 183
        if rest.length < ll then none
        else
          let len := beToNat (rest.take ll)
          let rest' := rest.drop ll
          if rest'.length < len then none
          else some (.str (rest'.take len), rest'.drop len)
      else if b < 248 then
        let len := b - 192
        if rest.length < len then none
        else
          match rlpDecodeSeq fuel (rest.take len) with
          | none => none
          | some items => some (.list items, rest.drop len)
      else
        let ll := b - 247
        if rest.length < ll then none
        else
          let len := beToNat (rest.take ll)
          let rest' := rest.drop ll
          if rest'.length < len then none
          else
            match rlpDecodeSeq fuel (rest'.take len) with
            | none => none
            | some items => some (.list items, rest'.drop len)

/-- Fuel-indexed parser for a juxtaposition of RLP items filling the whole
input. -/
def rlpDecodeSeq : Nat → List Nat → Option (List Rlp)
  | 0, bs => if bs.isEmpty then some [] else none
  | fuel + 1, bs =>
      if bs.isEmpty then some []
      else
        match rlpDecodeItem fuel bs with
        | none => none
        | some (r, rest) =>
            match rlpDecodeSeq fuel rest with
            | none => none
            | some items => some (r :: items)

end

/-- `RLP.decode` (non-streaming): parse one item consuming the entire
input. -/
def rlpDecode (bs : List Nat) : Option Rlp :=
  match rlpDecodeItem (2 * bs.length + 1) bs with
  | some (r, []) => some r
  | _ => none

mutual

/-- Fuel needed by the parser on the encoding of an item. -/
def rlpSize : Rlp → Nat
  | .str _ => 1
  | .list items => rlpSizeList items + 1

/-- Fuel needed by the parser on the concatenated encodings of a list. -/
def rlpSizeList : List Rlp → Nat
  | [] => 1
  | r :: rest => rlpSize r + rlpSizeList rest

end

mutual

/-- Every payload length along the item is below `2^64`, so that the
long-form length headers stay in their marker range. -/
def rlpGoodLens : Rlp → Bool
  | .str bs => bs.length < 2 ^ 64
  | .list items => decide ((rlpEncodeList items).length < 2 ^ 64) && rlpGoodLensList items

/-- `rlpGoodLens` for every item of a list. -/
def rlpGoodLensList : List Rlp → Bool
  | [] => true
  | r :: rest => rlpGoodLens r && rlpGoodLensList rest

end

/- ----------------------------------------------------------------
## Blob transaction (packages/tx/src/eip4844Transaction.ts)
----------------------------------------------------------------- -/

/-- `MAX_INTEGER`: `2^256 - 1`. -/
def MAX_INTEGER : Nat := 2 ^ 256 - 1

/-- `SECP256K1_ORDER_DIV_2`: half the secp256k1 group order, the high-s
bound of EIP-2. -/
def SECP256K1_ORDER_DIV_2 : Nat :=
  0x7fffffffffffffffffffffffffffffff5d576e7357a4501ddfe92f46681b20a0

/-- The `Common`-derived inputs of the blob-transaction constructor:
activation flags, the `sharding.blobCommitmentVersionKzg` parameter, the
chain id and `LIMIT_BLOBS_PER_TX` (from `constants.js`, outside `src/`). -/
structure BlobTxParams where
  eip1559Active : Bool
  eip4844Active : Bool
  blobCommitmentVersionKzg : Nat
  chainId : Nat
  limitBlobsPerTx : Nat
  deriving Repr, DecidableEq

/-- A constructed `BlobEIP4844Transaction`: the fields the constructor
stores.  Absent `to`/`v`/`r`/`s` are `none`; `blobs`, `kzgCommitments` and
`kzgProofs` are only populated for the network-wrapper format. -/
structure BlobTx where
  chainId : Nat
  nonce : Nat
  maxPriorityFeePerGas : Nat
  maxFeePerGas : Nat
  gasLimit : Nat
  «to» : Option (List Nat)
  value : Nat
  data : List Nat
  accessList : List (List Nat × List (List Nat))
  maxFeePerDataGas : Nat
  versionedHashes : List (List Nat)
  v : Option Nat
  r : Option Nat
  s : Option Nat
  blobs : Option (List (List Nat))
  kzgCommitments : Option (List (List Nat))
  kzgProofs : Option (List (List Nat))
  deriving Repr, DecidableEq

/-- The constructor's raw inputs (the `TxData` fields as they arrive from
`fromValuesArray`): numeric fields as big-endian byte strings, `v` already
converted to a number there, `to` as a possibly empty byte string. -/
structure BlobTxInput where
  chainId : Nat
  nonce : List Nat
  maxPriorityFeePerGas : List Nat
  maxFeePerGas : List Nat
  gasLimit : List Nat
  «to» : List Nat
  value : List Nat
  data : List Nat
  accessList : List (List Nat × List (List Nat))
  maxFeePerDataGas : List Nat
  versionedHashes : List (List Nat)
  v : Option Nat
  r : List Nat
  s : List Nat
  blobs : Option (List (List Nat))
  kzgCommitments : Option (List (List Nat))
  kzgProofs : Option (List (List Nat))
  deriving Repr, DecidableEq

/-- An error guard: `if c then throw s` as a first-class step. -/
def eguard (c : Prop) [Decidable c] (s : String) : Except String Unit :=
  if c then .error s else .ok ()

/-- Storage-slot loop of `AccessLists.verifyAccessList`. -/
def verifySlots : List (List Nat) → Except String Unit
  | [] => .ok ()
  | k :: rest =>
      if k.length ≠ 32 then
        .error "Invalid EIP-2930 transaction: storage slot length should be 32 bytes"
      else verifySlots rest

/-- `AccessLists.verifyAccessList`.  Modelled from the spec: access-list
addresses are 20 bytes, storage slots 32 bytes (§4.2). -/
def verifyAccessList : List (List Nat × List (List Nat)) → Except String Unit
  | [] => .ok ()
  | (a, ks) :: rest =>
      if a.length ≠ 20 then
        .error "Invalid EIP-2930 transaction: address length should be 20 bytes"
      else verifySlots ks >>= fun _ => verifyAccessList rest

/-- `_validateYParity` failure condition: a present `v` other than 0 or 1.
Modelled from the spec: `y_parity ∈ {0,1}` (§3). -/
def yParityInvalid : Option Nat → Bool
  | some vv => vv ≠ 0 && vv ≠ 1
  | none => false

/-- `_validateHighS` failure condition: a present `s` above half the
secp256k1 order.  Modelled from the spec: `s ≤ n/2` (§3). -/
def highS : Option Nat → Bool
  | some sv => decide (sv > SECP256K1_ORDER_DIV_2)
  | none => false

/-- The versioned-hash loop of the blob-transaction constructor: each hash
must be 32 bytes and begin with the KZG commitment version byte. -/
def validateVersionedHashes (version : Nat) : List (List Nat) → Except String Unit
  | [] => .ok ()
  | hash :: rest =>
      if hash.length ≠ 32 then .error "versioned hash is invalid length"
      else if hash.headD 0 ≠ version ∨ hash.isEmpty then
        .error "versioned hash does not start with KZG commitment version"
      else validateVersionedHashes version rest

/-- The optional big-endian signature value stored for `r`/`s`: absent for
an empty byte string. -/
def sigValue (bs : List Nat) : Option Nat :=
  if bs.isEmpty then none else some (beToNat bs)

/-- The stored `to`: absent for an empty byte string. -/
def toValue (bs : List Nat) : Option (List Nat) :=
  if bs.isEmpty then none else some bs

/-- The `BlobEIP4844Transaction` constructor.  The `BaseTransaction` part
(nonce/gasLimit/to/value/data/v/r/s decoding and their `2^256-1` bounds,
the y-parity and high-s checks) is modelled from the spec (§3 invariants:
all integer fields fit in u256, `y_parity ∈ {0,1}`, `s ≤ n/2`, addresses
20 bytes); the remainder mirrors the constructor body in
`eip4844Transaction.ts` in source order. -/
def blobTxConstructor (P : BlobTxParams) (inp : BlobTxInput) : Except String BlobTx :=
  eguard (¬(inp.«to».isEmpty ∨ inp.«to».length = 20)) "Invalid address length" >>= fun _ =>
  eguard (beToNat inp.nonce > MAX_INTEGER ∨ beToNat inp.gasLimit > MAX_INTEGER ∨
      beToNat inp.value > MAX_INTEGER ∨ (sigValue inp.r).getD 0 > MAX_INTEGER ∨
      (sigValue inp.s).getD 0 > MAX_INTEGER)
    "value cannot exceed MAX_INTEGER" >>= fun _ =>
  eguard (P.eip1559Active = false) "EIP-1559 not enabled on Common" >>= fun _ =>
  eguard (P.eip4844Active = false) "EIP-4844 not enabled on Common" >>= fun _ =>
  verifyAccessList inp.accessList >>= fun _ =>
  eguard (beToNat inp.maxFeePerGas > MAX_INTEGER ∨
      beToNat inp.maxPriorityFeePerGas > MAX_INTEGER)
    "value cannot exceed MAX_INTEGER" >>= fun _ =>
  eguard (beToNat inp.gasLimit * beToNat inp.maxFeePerGas > MAX_INTEGER)
    "gasLimit * maxFeePerGas cannot exceed MAX_INTEGER" >>= fun _ =>
  eguard (beToNat inp.maxFeePerGas < beToNat inp.maxPriorityFeePerGas)
    "maxFeePerGas cannot be less than maxPriorityFeePerGas" >>= fun _ =>
  eguard (yParityInvalid inp.v = true)
    "The y-parity of the transaction should either be 0 or 1" >>= fun _ =>
  eguard (highS (sigValue inp.s) = true)
    "Invalid Signature: s-values greater than secp256k1n div 2 are considered invalid" >>= fun _ =>
  validateVersionedHashes P.blobCommitmentVersionKzg inp.versionedHashes >>= fun _ =>
  eguard (inp.versionedHashes.length > P.limitBlobsPerTx)
    "tx can contain at most limit blobs" >>= fun _ =>
  .ok
    { chainId := P.chainId
      nonce := beToNat inp.nonce
      maxPriorityFeePerGas := beToNat inp.maxPriorityFeePerGas
      maxFeePerGas := beToNat inp.maxFeePerGas
      gasLimit := beToNat inp.gasLimit
      «to» := toValue inp.«to»
      value := beToNat inp.value
      data := inp.data
      accessList := inp.accessList
      maxFeePerDataGas := beToNat inp.maxFeePerDataGas
      versionedHashes := inp.versionedHashes
      v := inp.v
      r := sigValue inp.r
      s := sigValue inp.s
      blobs := inp.blobs
      kzgCommitments := inp.kzgCommitments
      kzgProofs := inp.kzgProofs }

/-- `validateNoLeadingZeroes` for one field: a non-empty byte string must
not begin with a zero byte. -/
def noLeadingZero (bs : List Nat) : Bool :=
  match bs with
  | [] => true
  | b :: _ => b ≠ 0

/-- Read one RLP value expected to be a byte string. -/
def rlpAsStr : Rlp → Except String (List Nat)
  | .str bs => .ok bs
  | .list _ => .error "unexpected list value"

/-- Read a list of RLP values as byte strings. -/
def rlpStrs : List Rlp → Except String (List (List Nat))
  | [] => .ok []
  | r :: rest =>
      rlpAsStr r >>= fun bs => rlpStrs rest >>= fun l => .ok (bs :: l)

/-- Read one RLP access-list item: an `[address, [slot, ...]]` pair. -/
def rlpAccessItem : Rlp → Except String (List Nat × List (List Nat))
  | .list [.str a, .list ks] => rlpStrs ks >>= fun kbs => .ok (a, kbs)
  | _ => .error "invalid access list shape"

/-- Read RLP access-list items. -/
def rlpAccessItems : List Rlp → Except String (List (List Nat × List (List Nat)))
  | [] => .ok []
  | item :: rest =>
      rlpAccessItem item >>= fun p => rlpAccessItems rest >>= fun l => .ok (p :: l)

/-- Read an RLP access list: a list of `[address, [slot, ...]]` pairs. -/
def rlpAsAccessList (r : Rlp) : Except String (List (List Nat × List (List Nat))) :=
  match r with
  | .str _ => .error "unexpected string value"
  | .list items => rlpAccessItems items

/-- Read an RLP list of byte strings. -/
def rlpAsStrList (r : Rlp) : Except String (List (List Nat)) :=
  match r with
  | .str _ => .error "unexpected string value"
  | .list items => rlpStrs items

/-- `BlobEIP4844Transaction.fromValuesArray`: expects 11 (unsigned) or 14
(signed) values, rejects leading zeros on the numeric fields, converts `v`
to a number when present (`bytesToBigInt` of an empty byte string is `0`)
and invokes the constructor. -/
def fromValuesArray (P : BlobTxParams) (values : List Rlp) : Except String BlobTx :=
  eguard (values.length ≠ 11 ∧ values.length ≠ 14)
    "Invalid EIP-4844 transaction. Only expecting 11 values (for unsigned tx) or 14 values (for signed tx)." >>= fun _ =>
  rlpAsStr (values.getD 0 (.str [])) >>= fun chainId =>
  rlpAsStr (values.getD 1 (.str [])) >>= fun nonce =>
  rlpAsStr (values.getD 2 (.str [])) >>= fun maxPriorityFeePerGas =>
  rlpAsStr (values.getD 3 (.str [])) >>= fun maxFeePerGas =>
  rlpAsStr (values.getD 4 (.str [])) >>= fun gasLimit =>
  rlpAsStr (values.getD 5 (.str [])) >>= fun «to» =>
  rlpAsStr (values.getD 6 (.str [])) >>= fun value =>
  rlpAsStr (values.getD 7 (.str [])) >>= fun data =>
  rlpAsAccessList (values.getD 8 (.list [])) >>= fun accessList =>
  rlpAsStr (values.getD 9 (.str [])) >>= fun maxFeePerDataGas =>
  rlpAsStrList (values.getD 10 (.list [])) >>= fun versionedHashes =>
  (if values.length = 14 then rlpAsStr (values.getD 11 (.str [])) else .ok []) >>= fun vBytes =>
  (if values.length = 14 then rlpAsStr (values.getD 12 (.str [])) else .ok []) >>= fun rBytes =>
  (if values.length = 14 then rlpAsStr (values.getD 13 (.str [])) else .ok []) >>= fun sBytes =>
  eguard (!(noLeadingZero nonce && noLeadingZero maxPriorityFeePerGas &&
       noLeadingZero maxFeePerGas && noLeadingZero gasLimit && noLeadingZero value &&
       noLeadingZero maxFeePerDataGas && noLeadingZero vBytes && noLeadingZero rBytes &&
       noLeadingZero sBytes) = true)
    "values provided have leading zeros" >>= fun _ =>
  blobTxConstructor P
    { chainId := beToNat chainId
      nonce, maxPriorityFeePerGas, maxFeePerGas, gasLimit, «to», value, data
      accessList, maxFeePerDataGas, versionedHashes
      v := if values.length = 14 then some (beToNat vBytes) else none
      r := rBytes
      s := sBytes
      blobs := none, kzgCommitments := none, kzgProofs := none }

/-- `bigIntToUnpaddedBytes` of an optional field: an absent value renders
as the empty byte string (`v !== undefined ? bigIntToUnpaddedBytes(v) :
new Uint8Array()`). -/
def optBE : Option Nat → List Nat
  | some x => natToBE x
  | none => []

/-- `BlobEIP4844Transaction.raw`: the 14 RLP values, with empty byte
strings for an absent `to` and absent signature fields. -/
def blobTxRaw (tx : BlobTx) : List Rlp :=
  [ .str (natToBE tx.chainId),
    .str (natToBE tx.nonce),
    .str (natToBE tx.maxPriorityFeePerGas),
    .str (natToBE tx.maxFeePerGas),
    .str (natToBE tx.gasLimit),
    .str (tx.«to».getD []),
    .str (natToBE tx.value),
    .str tx.data,
    .list (tx.accessList.map fun p => .list [.str p.1, .list (p.2.map .str)]),
    .str (natToBE tx.maxFeePerDataGas),
    .list (tx.versionedHashes.map .str),
    .str (optBE tx.v),
    .str (optBE tx.r),
    .str (optBE tx.s) ]

/-- `BlobEIP4844Transaction.serialize`: the type byte `0x03` followed by
the RLP encoding of `raw()`. -/
def blobTxSerialize (tx : BlobTx) : List Nat :=
  3 :: rlpEncode (.list (blobTxRaw tx))

/-- `BlobEIP4844Transaction.fromSerializedTx`: check the type byte, RLP
decode the remainder (which must be a list) and delegate to
`fromValuesArray`. -/
def fromSerializedTx (P : BlobTxParams) (serialized : List Nat) : Except String BlobTx :=
  match serialized with
  | [] => .error "Invalid serialized tx input: not an EIP-4844 transaction"
  | b :: rest =>
      if b ≠ 3 then .error "Invalid serialized tx input: not an EIP-4844 transaction" else
      match rlpDecode rest with
      | none => .error "invalid RLP"
      | some (.str _) => .error "Invalid serialized tx input: must be array"
      | some (.list values) => fromValuesArray P values

/-- The versioned-hash comparison loop of
`validateBlobTransactionNetworkWrapper`: index `x` runs over the declared
versioned hashes, comparing each against `computeVersionedHash` of the
commitment at the same index. -/
def checkCommitmentHashes (computeVersionedHash : List Nat → Nat → List Nat)
    (commitments versionedHashes : List (List Nat)) (version : Nat) :
    Nat → Nat → Except String Unit
  | _, 0 => .ok ()
  | x, n + 1 =>
      if computeVersionedHash (commitments.getD x []) version = versionedHashes.getD x [] then
        checkCommitmentHashes computeVersionedHash commitments versionedHashes version
          (x + 1) n
      else .error "commitment for blob does not match versionedHash"

/-- `validateBlobTransactionNetworkWrapper`: the three lengths it compares
(versioned hashes, blobs, commitments), the non-emptiness check, the KZG
batch verification (an external oracle that may itself fail) and the
per-index versioned-hash comparison against the `computeVersionedHash`
oracle.  Note the proofs list's length is not among the compared lengths. -/
def validateBlobTransactionNetworkWrapper
    (kzgVerify : List (List Nat) → List (List Nat) → List (List Nat) → Except String Bool)
    (computeVersionedHash : List Nat → Nat → List Nat)
    (versionedHashes blobs commitments kzgProofs : List (List Nat))
    (version : Nat) : Except String Unit :=
  eguard (¬(versionedHashes.length = blobs.length ∧ blobs.length = commitments.length))
    "Number of versionedHashes, blobs, and commitments not all equal" >>= fun _ =>
  eguard (versionedHashes.length = 0) "Invalid transaction with empty blobs" >>= fun _ =>
  kzgVerify blobs commitments kzgProofs >>= fun isValid =>
  eguard (¬isValid = true) "KZG proof cannot be verified from blobs commitments" >>= fun _ =>
  checkCommitmentHashes computeVersionedHash commitments versionedHashes version
    0 versionedHashes.length

/-- The body of `fromSerializedBlobTxNetworkWrapper` after the RLP layer:
exactly four network values, a list-shaped tx payload, the three sidecar
lists, the inner transaction decode, the `to` requirement, the wrapper
validation and the sidecar attachment. -/
def fromNetworkValues (P : BlobTxParams)
    (kzgVerify : List (List Nat) → List (List Nat) → List (List Nat) → Except String Bool)
    (computeVersionedHash : List Nat → Nat → List Nat)
    (networkTxValues : List Rlp) : Except String BlobTx :=
  eguard (networkTxValues.length ≠ 4)
    "Expected 4 values in the deserialized network transaction" >>= fun _ =>
  (match networkTxValues.getD 0 (.str []) with
   | .str _ => .error "invalid network wrapper shape"
   | .list txValues => .ok txValues) >>= fun txValues =>
  rlpAsStrList (networkTxValues.getD 1 (.str [])) >>= fun blobs =>
  rlpAsStrList (networkTxValues.getD 2 (.str [])) >>= fun kzgCommitments =>
  rlpAsStrList (networkTxValues.getD 3 (.str [])) >>= fun kzgProofs =>
  fromValuesArray P txValues >>= fun decodedTx =>
  eguard (decodedTx.«to» = none)
    "BlobEIP4844Transaction can not be send without a valid to" >>= fun _ =>
  validateBlobTransactionNetworkWrapper kzgVerify computeVersionedHash
    decodedTx.versionedHashes blobs kzgCommitments kzgProofs
    P.blobCommitmentVersionKzg >>= fun _ =>
  .ok { decodedTx with
          blobs := some blobs
          kzgCommitments := some kzgCommitments
          kzgProofs := some kzgProofs }

/-- `BlobEIP4844Transaction.fromSerializedBlobTxNetworkWrapper`: type byte,
RLP decode into a list of network values, then `fromNetworkValues`. -/
def fromSerializedBlobTxNetworkWrapper (P : BlobTxParams)
    (kzgVerify : List (List Nat) → List (List Nat) → List (List Nat) → Except String Bool)
    (computeVersionedHash : List Nat → Nat → List Nat)
    (serialized : List Nat) : Except String BlobTx :=
  match serialized with
  | [] => .error "Invalid serialized tx input: not an EIP-4844 transaction"
  | b :: rest =>
      if b ≠ 3 then .error "Invalid serialized tx input: not an EIP-4844 transaction" else
      match rlpDecode rest with
      | none => .error "invalid RLP"
      | some (.str _) => .error "Expected 4 values in the deserialized network transaction"
      | some (.list networkTxValues) =>
          fromNetworkValues P kzgVerify computeVersionedHash networkTxValues

/-- A stored `to` survives the codec: absent, or a 20-byte address. -/
def toFieldOk : Option (List Nat) → Bool
  | none => true
  | some a => decide (a.length = 20)

/-- A stored `v` survives the codec and the y-parity check. -/
def vFieldOk : Option Nat → Bool
  | none => true
  | some vv => decide (vv = 0) || decide (vv = 1)

/-- A stored signature value survives the codec (non-zero, else its empty
rendering reads back as absent) and the given bound. -/
def sigFieldOk (bound : Nat) : Option Nat → Bool
  | none => true
  | some x => decide (0 < x) && decide (x ≤ bound)

/-- Access-list shape accepted by `AccessLists.verifyAccessList`. -/
def accessListOk (al : List (List Nat × List (List Nat))) : Bool :=
  al.all fun p => decide (p.1.length = 20) && p.2.all fun k => decide (k.length = 32)

/-- Versioned-hash shape accepted by the constructor's hash loop. -/
def hashListOk (version : Nat) (hs : List (List Nat)) : Bool :=
  hs.all fun h => decide (h.length = 32) && decide (h.headD 0 = version)

/-- The conditions under which a stored blob transaction survives the
serialize/deserialize round trip: its fields satisfy every constructor
check re-run by `fromValuesArray`, its optional fields are renderable
without loss (a zero `r`/`s` or an empty `to` would read back as absent),
the chain id matches the `Common` the decoder is handed, no network-format
sidecar fields are populated, and every RLP payload length stays below
`2^64`. -/
def txRoundTripReady (P : BlobTxParams) (tx : BlobTx) : Bool :=
  decide (tx.chainId = P.chainId) && P.eip1559Active && P.eip4844Active &&
  toFieldOk tx.«to» &&
  decide (tx.nonce ≤ MAX_INTEGER) && decide (tx.gasLimit ≤ MAX_INTEGER) &&
  decide (tx.value ≤ MAX_INTEGER) &&
  decide (tx.maxFeePerGas ≤ MAX_INTEGER) &&
  decide (tx.maxPriorityFeePerGas ≤ MAX_INTEGER) &&
  decide (tx.gasLimit * tx.maxFeePerGas ≤ MAX_INTEGER) &&
  decide (tx.maxPriorityFeePerGas ≤ tx.maxFeePerGas) &&
  vFieldOk tx.v && sigFieldOk MAX_INTEGER tx.r &&
  sigFieldOk SECP256K1_ORDER_DIV_2 tx.s &&
  accessListOk tx.accessList &&
  hashListOk P.blobCommitmentVersionKzg tx.versionedHashes &&
  decide (tx.versionedHashes.length ≤ P.limitBlobsPerTx) &&
  decide (tx.blobs = none) && decide (tx.kzgCommitments = none) &&
  decide (tx.kzgProofs = none) &&
  rlpGoodLens (.list (blobTxRaw tx))

/- ----------------------------------------------------------------
## EVM message dispatch (src/unnamed/part_003, EVM.runCall and friends)
----------------------------------------------------------------- -/

/-- Addresses, abstracted to natural numbers. -/
abbrev Addr := Nat

/-- An account as the EVM reads it: nonce, balance and code hash (the
storage root plays no role in the embedded paths). -/
structure Account where
  nonce : Nat := 0
  balance : Nat := 0
  codeHash : List Nat := []
  deriving Repr, DecidableEq

/-- The state-manager contents the embedded paths touch: accounts and
contract code, as finite association maps, plus the EIP-2929 warm-address
set.  Modelled from the spec: state manager interface (§6), journal warm
sets (§4.3). -/
structure EvmState where
  accounts : List (Addr × Account) := []
  codes : List (Addr × List Nat) := []
  warm : List Addr := []
  deriving Repr, DecidableEq

/-- Association-map update (replace or append). -/
def assocSet {α β : Type} [DecidableEq α] (m : List (α × β)) (k : α) (v : β) :
    List (α × β) :=
  match m with
  | [] => [(k, v)]
  | (k', v') :: rest => if k' = k then (k', v) :: rest else (k', v') :: assocSet rest k v

/-- The world a `runCall` manipulates: the current state, the journal
checkpoint stack (each checkpoint a state snapshot: per spec §4.3 a revert
restores every value written since the matching checkpoint, a commit keeps
them) and the transient-storage checkpoint depth (its contents are
irrelevant to the embedded claims, only the bracket structure of §4.4). -/
structure World where
  state : EvmState
  stateCps : List EvmState := []
  tDepth : Nat := 0
  deriving Repr, DecidableEq

/-- `stateManager.getAccount`. -/
def World.getAccount (w : World) (a : Addr) : Option Account :=
  w.state.accounts.lookup a

/-- `journal.putAccount` (write-through to the state manager). -/
def World.putAccount (w : World) (a : Addr) (acct : Account) : World :=
  { w with state := { w.state with accounts := assocSet w.state.accounts a acct } }

/-- `stateManager.putContractCode`. -/
def World.putCode (w : World) (a : Addr) (code : List Nat) : World :=
  { w with state := { w.state with codes := assocSet w.state.codes a code } }

/-- `stateManager.getContractCode` (empty bytes for a missing account). -/
def World.getCode (w : World) (a : Addr) : List Nat :=
  (w.state.codes.lookup a).getD []

/-- `journal.addWarmedAddress`. -/
def World.addWarm (w : World) (a : Addr) : World :=
  { w with state := { w.state with warm := a :: w.state.warm } }

/-- `journal.checkpoint`: push a snapshot of the current state. -/
def World.checkpoint (w : World) : World :=
  { w with stateCps := w.state :: w.stateCps }

/-- `journal.commit`: drop the innermost checkpoint, keeping the current
state. -/
def World.commit (w : World) : World :=
  { w with stateCps := w.stateCps.tail }

/-- `journal.revert`: restore the innermost checkpoint. -/
def World.revert (w : World) : World :=
  { w with state := w.stateCps.headD w.state, stateCps := w.stateCps.tail }

/-- `transientStorage.checkpoint`. -/
def World.tCheckpoint (w : World) : World :=
  { w with tDepth := w.tDepth + 1 }

/-- `transientStorage.commit` / `transientStorage.revert` (indistinguishable
here since transient contents are not modelled). -/
def World.tPop (w : World) : World :=
  { w with tDepth := w.tDepth - 1 }

/-- The EVM exception kinds reaching the embedded paths.  Modelled from the
spec: error taxonomy of §7 (`exceptions.ts` is outside `src/`). -/
inductive EvmErr where
  | OUT_OF_GAS
  | CODESTORE_OUT_OF_GAS
  | REVERT
  | INVALID_EOF_FORMAT
  | INVALID_BYTECODE_RESULT
  | CODESIZE_EXCEEDS_MAXIMUM
  | INITCODE_SIZE_VIOLATION
  | CREATE_COLLISION
  | INSUFFICIENT_BALANCE
  | VALUE_OVERFLOW
  | STACK_UNDERFLOW
  | INVALID_OPCODE
  deriving Repr, DecidableEq

/-- `ExecResult` (logs abstracted to opaque tokens). -/
structure ExecResult where
  exceptionError : Option EvmErr := none
  executionGasUsed : Nat := 0
  returnValue : List Nat := []
  logs : List Nat := []
  selfdestruct : List Addr := []
  createdAddresses : List Addr := []
  gasRefund : Nat := 0
  gas : Option Nat := none
  deriving Repr, DecidableEq

/-- `OOGResult`. -/
def OOGResult (gasLimit : Nat) (r : ExecResult) : ExecResult :=
  { r with returnValue := [], executionGasUsed := gasLimit,
           exceptionError := some .OUT_OF_GAS }

/-- `COOGResult` (code-deposit out of gas, Frontier only). -/
def COOGResult (gasUsedCreateCode : Nat) (r : ExecResult) : ExecResult :=
  { r with returnValue := [], executionGasUsed := gasUsedCreateCode,
           exceptionError := some .CODESTORE_OUT_OF_GAS }

/-- `INVALID_BYTECODE_RESULT`. -/
def INVALID_BYTECODE_RESULT (gasLimit : Nat) (r : ExecResult) : ExecResult :=
  { r with returnValue := [], executionGasUsed := gasLimit,
           exceptionError := some .INVALID_BYTECODE_RESULT }

/-- `INVALID_EOF_RESULT`. -/
def INVALID_EOF_RESULT (gasLimit : Nat) (r : ExecResult) : ExecResult :=
  { r with returnValue := [], executionGasUsed := gasLimit,
           exceptionError := some .INVALID_EOF_FORMAT }

/-- `CodesizeExceedsMaximumError`. -/
def CodesizeExceedsMaximumError (gasUsed : Nat) (r : ExecResult) : ExecResult :=
  { r with returnValue := [], executionGasUsed := gasUsed,
           exceptionError := some .CODESIZE_EXCEEDS_MAXIMUM }

/-- The code attached to a message: plain bytes or a precompile (opaque
token). -/
inductive MsgCode where
  | bytes (bs : List Nat)
  | precompiled (token : Nat)
  deriving Repr, DecidableEq

/-- A `Message`. -/
structure Msg where
  caller : Addr
  «to» : Option Addr := none
  value : Nat := 0
  gasLimit : Nat
  data : List Nat := []
  code : Option MsgCode := none
  depth : Nat := 0
  isStatic : Bool := false
  delegatecall : Bool := false
  salt : Option (List Nat) := none
  selfdestruct : List Addr := []
  createdAddresses : List Addr := []
  gasRefund : Nat := 0
  isCompiled : Bool := false
  authcallOrigin : Option Addr := none
  deriving Repr, DecidableEq

/-- What the interpreter loop reports back (`interpreter.run` plus the
fields of `interpreter._result` that `runInterpreter` reads). -/
structure InterpOutcome where
  gasLeft : Nat
  exceptionError : Option EvmErr := none
  logs : List Nat := []
  selfdestruct : List Addr := []
  createdAddresses : List Addr := []
  gasRefund : Nat := 0
  returnValue : List Nat := []
  deriving Repr, DecidableEq

/-- `EVMResult`. -/
structure EVMRes where
  createdAddress : Option Addr := none
  execResult : ExecResult
  deriving Repr, DecidableEq

/-- The `Common` queries, gas parameters and external collaborators
`runCall` consults: activation flags and hardfork queries, the interpreter
loop, precompile bodies, the address-generation hash and the EOF helpers
(`eof.js` is outside `src/`).  All are inputs of the embedding. -/
structure EvmParams where
  hardfork : String
  gteHomestead : Bool
  gteSpuriousDragon : Bool
  eip1153 : Bool
  eip2929 : Bool
  eip3860 : Bool
  eip6780 : Bool
  eip3541 : Bool
  eip3540 : Bool
  eip3670 : Bool
  allowUnlimitedInitCodeSize : Bool := false
  allowUnlimitedContractSize : Bool := false
  maxInitCodeSize : Nat
  maxCodeSize : Nat
  createDataGas : Nat
  keccakNull : List Nat
  precompiles : List (Addr × Nat)
  runPrecompile : Nat → List Nat → Nat → ExecResult
  interp : Msg → World → InterpOutcome × World
  genAddr : Addr → Nat → Option (List Nat) → List Nat → Addr
  getEOFCode : List Nat → List Nat
  eofCodeAnalysis : List Nat → Option (Nat × Nat)
  validOpcodes : List Nat → Bool

/-- `message.codeAddress`: the explicitly set code address, else `to`. -/
def Msg.codeAddress (m : Msg) : Addr :=
  m.«to».getD 0

/-- `EVM._reduceSenderBalance`: subtract the value, throwing
`INSUFFICIENT_BALANCE` when it exceeds the balance, else write the account
back through the journal. -/
def reduceSenderBalance (acct : Account) (m : Msg) (w : World) :
    Except EvmErr World :=
  if acct.balance < m.value then .error .INSUFFICIENT_BALANCE
  else .ok (w.putAccount (m.authcallOrigin.getD m.caller)
              { acct with balance := acct.balance - m.value })

/-- `EVM._addToBalance`: add the value, throwing `VALUE_OVERFLOW` above
`MAX_INTEGER`, else write the account back through the journal. -/
def addToBalance (toAcct : Account) (toAddr : Addr) (m : Msg) (w : World) :
    Except EvmErr World :=
  if toAcct.balance + m.value > MAX_INTEGER then .error .VALUE_OVERFLOW
  else .ok (w.putAccount toAddr { toAcct with balance := toAcct.balance + m.value })

/-- `EVM.runInterpreter`: run the interpreter loop, charge the full gas
limit on any exception other than `REVERT` and `INVALID_EOF_FORMAT`, and
clear logs, selfdestruct set and created-addresses set on any exception. -/
def runInterpreter (P : EvmParams) (m : Msg) (w : World) : ExecResult × World :=
  let (o, w') := P.interp m w
  let gasUsed :=
    match o.exceptionError with
    | some e =>
        if e ≠ .REVERT ∧ e ≠ .INVALID_EOF_FORMAT then m.gasLimit
        else m.gasLimit - o.gasLeft
    | none => m.gasLimit - o.gasLeft
  let cleared := o.exceptionError.isSome
  ({ exceptionError := o.exceptionError
     executionGasUsed := gasUsed
     returnValue := o.returnValue
     logs := if cleared then [] else o.logs
     selfdestruct := if cleared then [] else o.selfdestruct
     createdAddresses := if cleared then [] else o.createdAddresses
     gasRefund := o.gasRefund
     gas := some o.gasLeft }, w')

/-- `EVM._loadCode`: a precompile at the code address takes precedence,
else the contract code is fetched (through `getEOFCode` when EIP-3540 is
active). -/
def loadCode (P : EvmParams) (m : Msg) (w : World) : Msg :=
  match m.code with
  | some _ => m
  | none =>
      match P.precompiles.lookup m.codeAddress with
      | some token => { m with code := some (.precompiled token), isCompiled := true }
      | none =>
          let container := w.getCode m.codeAddress
          { m with
              isCompiled := false
              code := some (.bytes (if P.eip3540 then P.getEOFCode container else container)) }

/-- The byte contents of a message's code (empty for a precompile). -/
def MsgCode.asBytes : MsgCode → List Nat
  | .bytes bs => bs
  | .precompiled _ => []

/-- The two balance moves opening `EVM._executeCall` (skipped for a
delegatecall): reduce the sender's balance, then add to the callee's,
collecting the first thrown `EvmError` as the pending `errorMessage`. -/
def callBalanceSteps (m : Msg) (w : World) : Option EvmErr × World :=
  let acct := (w.getAccount (m.authcallOrigin.getD m.caller)).getD {}
  let (errorMessage, w1) :=
    if ¬m.delegatecall then
      match reduceSenderBalance acct m w with
      | .ok w' => ((none : Option EvmErr), w')
      | .error e => (some e, w)
    else (none, w)
  let toAcct := (w1.getAccount (m.«to».getD 0)).getD {}
  if ¬m.delegatecall then
    match addToBalance toAcct (m.«to».getD 0) m w1 with
    | .ok w' => (errorMessage, w')
    | .error e => (some e, w1)
  else (errorMessage, w1)

/-- The dispatch tail of `EVM._executeCall` after the balance moves, over
the loaded message `m1`: exit early (with gas used `0`) on empty non-compiled
code or a pending `errorMessage`, else run the precompile or the
interpreter.  (`postMessageCleanup` (depth 0, EIP-1153) empties the
transient contents but leaves its checkpoint stack alone, so it is a no-op
on the modelled components.) -/
def callExecTail (P : EvmParams) (m m1 : Msg) (errorMessage : Option EvmErr)
    (w2 : World) : EVMRes × World :=
  if (((m1.code.map MsgCode.asBytes).getD []).isEmpty ∧ ¬m1.isCompiled) ∨
      errorMessage.isSome then
    ({ execResult :=
         { gasRefund := m.gasRefund
           executionGasUsed := 0
           exceptionError := errorMessage
           returnValue := [] } }, w2)
  else
    match m1.code with
    | some (.precompiled token) =>
        ({ execResult :=
             { P.runPrecompile token m1.data m1.gasLimit with
                 gasRefund := m.gasRefund } }, w2)
    | _ =>
        ({ execResult := (runInterpreter P m1 w2).1 }, (runInterpreter P m1 w2).2)

/-- `EVM._executeCall`. -/
def executeCall (P : EvmParams) (m : Msg) (w : World) : EVMRes × World :=
  let (errorMessage, w2) := callBalanceSteps m w
  callExecTail P m (loadCode P m w2) errorMessage w2

/-- The pure result-fixup stage closing `EVM._executeCreate`: charge the
code-deposit fee, apply the EIP-3541/3540/3670 deposit checks and the
Spurious-Dragon code-size cap, falling back to `COOGResult` on Frontier;
the second component flags the Frontier code-store-out-of-gas case. -/
def createResult1 (P : EvmParams) (m2 : Msg) (result0 : ExecResult) :
    ExecResult × Bool :=
  let returnFee :=
    if result0.exceptionError = none then result0.returnValue.length * P.createDataGas
    else 0
  let totalGas := result0.executionGasUsed + returnFee
  let allowedCodeSize :=
    ¬(result0.exceptionError = none ∧ P.gteSpuriousDragon ∧
      result0.returnValue.length > P.maxCodeSize)
  if totalGas ≤ m2.gasLimit ∧ (P.allowUnlimitedContractSize ∨ allowedCodeSize) then
    if P.eip3541 ∧ result0.returnValue.headD 0 = 0xEF ∧ ¬result0.returnValue.isEmpty then
      let resultA :=
        if ¬P.eip3540 then INVALID_BYTECODE_RESULT m2.gasLimit result0 else result0
      match P.eofCodeAnalysis resultA.returnValue with
      | none => (INVALID_EOF_RESULT m2.gasLimit resultA, false)
      | some (codeSize, dataSize) =>
          if P.eip3670 then
            let codeStart := if dataSize > 0 then 10 else 7
            if ¬P.validOpcodes
                ((resultA.returnValue.drop codeStart).take codeSize) then
              (INVALID_EOF_RESULT m2.gasLimit resultA, false)
            else ({ resultA with executionGasUsed := totalGas }, false)
          else (resultA, false)
    else ({ result0 with executionGasUsed := totalGas }, false)
  else
    if P.gteHomestead then
      if ¬allowedCodeSize then (CodesizeExceedsMaximumError m2.gasLimit result0, false)
      else (OOGResult m2.gasLimit result0, false)
    else
      if totalGas - returnFee ≤ m2.gasLimit then
        (COOGResult (totalGas - returnFee) result0, true)
      else (OOGResult m2.gasLimit result0, false)

/-- The code-deposit stage of `EVM._executeCreate` after the interpreter
run: fix up the result and store the deposited code (or, for a Frontier
code-store-out-of-gas, re-write the empty account). -/
def createFinish (P : EvmParams) (m2 : Msg) (toAddr : Addr)
    (result0 : ExecResult) (w4 : World) : EVMRes × World :=
  ({ createdAddress := some toAddr, execResult := (createResult1 P m2 result0).1 },
   if (createResult1 P m2 result0).1.exceptionError = none ∧
       ¬(createResult1 P m2 result0).1.returnValue.isEmpty then
     w4.putCode toAddr (createResult1 P m2 result0).1.returnValue
   else if (createResult1 P m2 result0).2 ∧ ¬P.gteHomestead then
     w4.putAccount toAddr ((w4.getAccount toAddr).getD {})
   else w4)

/-- The dispatch tail of `EVM._executeCreate` after the balance moves: exit
early (gas used `0`) on empty init code or a pending `errorMessage`, else
run the interpreter and deposit the code. -/
def createTail (P : EvmParams) (m2 : Msg) (toAddr : Addr)
    (errorMessage : Option EvmErr) (w3 : World) : EVMRes × World :=
  if ((m2.code.map MsgCode.asBytes).getD []).isEmpty ∨ errorMessage.isSome then
    ({ createdAddress := some toAddr
       execResult :=
         { executionGasUsed := 0
           gasRefund := m2.gasRefund
           exceptionError := errorMessage
           returnValue := [] } }, w3)
  else
    createFinish P m2 toAddr (runInterpreter P m2 w3).1 (runInterpreter P m2 w3).2

/-- The to-account nonce bump of `EVM._executeCreate` (Spurious Dragon
onwards), applied to the account re-read after its journal write. -/
def createToAcct3 (P : EvmParams) (w2 : World) (toAddr : Addr) : Account :=
  if P.gteSpuriousDragon then
    { (w2.getAccount toAddr).getD {} with
        nonce := ((w2.getAccount toAddr).getD {}).nonce + 1 }
  else (w2.getAccount toAddr).getD {}

/-- `EVM._executeCreate` past the collision check: touch the new account
through the journal, add the value to it (collecting a thrown error as the
pending `errorMessage`) and run the tail. -/
def createAfterCollision (P : EvmParams) (m2 : Msg) (w1 : World)
    (toAddr : Addr) : EVMRes × World :=
  match addToBalance
      (createToAcct3 P (w1.putAccount toAddr ((w1.getAccount toAddr).getD {})) toAddr)
      toAddr m2 (w1.putAccount toAddr ((w1.getAccount toAddr).getD {})) with
  | .ok w3 => createTail P m2 toAddr none w3
  | .error e =>
      createTail P m2 toAddr (some e)
        (w1.putAccount toAddr ((w1.getAccount toAddr).getD {}))

/-- `EVM._executeCreate` with the generated address at hand (`m2base` is
the message with the init code already moved into `code`): the
`CREATE_COLLISION` check, then the post-collision path. -/
def createWithAddr (P : EvmParams) (m2base : Msg) (w1 : World)
    (toAddr : Addr) : EVMRes × World :=
  if ((w1.getAccount toAddr).getD {}).nonce > 0 ∨
      ((w1.getAccount toAddr).getD {}).codeHash ≠ P.keccakNull then
    ({ createdAddress := some toAddr
       execResult :=
         { returnValue := []
           exceptionError := some .CREATE_COLLISION
           executionGasUsed := m2base.gasLimit } }, w1)
  else
    createAfterCollision P
      { m2base with
          «to» := some toAddr
          createdAddresses :=
            if P.eip6780 then m2base.createdAddresses ++ [toAddr]
            else m2base.createdAddresses }
      w1 toAddr

/-- `EVM._executeCreate` after the sender-balance reduction: the EIP-3860
init-code-size check, then address generation (from the incremented caller
nonce, minus one) and the rest of the create path. -/
def createBody (P : EvmParams) (m : Msg) (w1 : World) : EVMRes × World :=
  if P.eip3860 ∧ m.data.length > P.maxInitCodeSize ∧ ¬P.allowUnlimitedInitCodeSize then
    ({ createdAddress := none
       execResult :=
         { returnValue := []
           exceptionError := some .INITCODE_SIZE_VIOLATION
           executionGasUsed := m.gasLimit } }, w1)
  else
    createWithAddr P { m with code := some (.bytes m.data), data := [] } w1
      (P.genAddr m.caller (((w1.getAccount m.caller).getD {}).nonce - 1) m.salt m.data)

/-- `EVM._executeCreate`.  Thrown `EvmError`s (the insufficient-balance
path of `_reduceSenderBalance`, which this function does not catch) are
propagated as `Except.error`; everything after the balance reduction is
pure. -/
def executeCreate (P : EvmParams) (m : Msg) (w : World) :
    Except EvmErr (EVMRes × World) := do
  let w1 ← reduceSenderBalance ((w.getAccount m.caller).getD {}) m w
  return createBody P m w1

/-- The part of `EVM.runCall` before the message checkpoint: the depth-0
caller nonce increment and the EIP-2929 warming of the created address. -/
def runCallSetup (P : EvmParams) (m : Msg) (w : World) : Msg × World :=
  let (m1, w1) :=
    if m.depth = 0 then
      let acct := (w.getAccount m.caller).getD {}
      (m, w.putAccount m.caller { acct with nonce := acct.nonce + 1 })
    else (m, w)
  if m1.«to» = none ∧ P.eip2929 then
    let m2 := { m1 with code := some (.bytes m1.data) }
    let callerNonce := ((w1.getAccount m1.caller).getD {}).nonce
    (m2, w1.addWarm (P.genAddr m1.caller (callerNonce - 1) m1.salt m1.data))
  else (m1, w1)

/-- The checkpointed execution inside `EVM.runCall`: push the journal (and,
with EIP-1153, the transient) checkpoint and dispatch on CALL vs CREATE. -/
def runCallExec (P : EvmParams) (m : Msg) (w : World) :
    Except EvmErr (EVMRes × World) :=
  let w1 := (if P.eip1153 then w.checkpoint.tCheckpoint else w.checkpoint)
  if m.«to».isSome then .ok (executeCall P m w1)
  else executeCreate P m w1

/-- The error-handling epilogue of `EVM.runCall` (lines 852-879 of the
source): forfeit refunds, selfdestructs and created addresses on any
exception other than `CODESTORE_OUT_OF_GAS`; clear logs and revert the
journal and transient checkpoints on any exception other than a
`CODESTORE_OUT_OF_GAS` on the `chainstart` hardfork; commit otherwise. -/
def runCallEpilogue (P : EvmParams) (res : EVMRes) (w : World) : EVMRes × World :=
  let r := res.execResult
  let r1 :=
    match r.exceptionError with
    | some e =>
        if e ≠ .CODESTORE_OUT_OF_GAS then
          { r with selfdestruct := [], createdAddresses := [], gasRefund := 0 }
        else r
    | none => r
  let takeRevert :=
    match r.exceptionError with
    | some e => decide (¬(P.hardfork = "chainstart" ∧ e = EvmErr.CODESTORE_OUT_OF_GAS))
    | none => false
  if takeRevert then
    ({ res with execResult := { r1 with logs := [] } },
     (if P.eip1153 then w.revert.tPop else w.revert))
  else
    ({ res with execResult := r1 },
     (if P.eip1153 then w.commit.tPop else w.commit))

/-- `EVM.runCall` over an explicitly provided message (the options path
only constructs such a message first): setup, checkpoint, dispatch,
error-handling epilogue. -/
def runCall (P : EvmParams) (m : Msg) (w : World) : Except EvmErr (EVMRes × World) := do
  let (m1, w1) := runCallSetup P m w
  let (res, w2) ← runCallExec P m1 w1
  return runCallEpilogue P res w2

/- ----------------------------------------------------------------
## Hardfork selection (src/unnamed/part_001, Common.getHardforkBy)
----------------------------------------------------------------- -/

/-- JavaScript `Array.findIndex`: the index of the first match, `-1` when
there is none. -/
def findIndexI {α : Type} (l : List α) (p : α → Bool) : Int :=
  match l.findIdx? p with
  | some i => (i : Int)
  | none => -1

/-- JavaScript array indexing: `none` outside the bounds (where the source
would fault on a property access of `undefined`). -/
def listGetI {α : Type} (l : List α) (i : Int) : Option α :=
  if h : 0 ≤ i ∧ i.toNat < l.length then some (l.get ⟨i.toNat, h.2⟩) else none

/-- Indexing that raises the `TypeError` a property access on `undefined`
would raise in the source. -/
def getElemE {α : Type} (l : List α) (i : Int) : Except String α :=
  match listGetI l i with
  | some a => .ok a
  | none => .error "TypeError"

/-- `Option` to `Except`. -/
def ofOption {α : Type} (o : Option α) (msg : String) : Except String α :=
  match o with
  | some a => .ok a
  | none => .error msg

/-- The loop advancing `hfIndex` to the last hardfork scheduled on the same
block and timestamp (fuelled; `hfs.length + 1` steps always suffice). -/
def advanceTies (hfs : List HardforkConfig) : Nat → Int → Except String Int
  | 0, i => .ok i
  | fuel + 1, i =>
      if i < (hfs.length : Int) - 1 then
        match listGetI hfs i, listGetI hfs (i + 1) with
        | some a, some b =>
            if a.block = b.block ∧ a.timestamp = b.timestamp then
              advanceTies hfs fuel (i + 1)
            else .ok i
        | _, _ => .error "TypeError"
      else .ok i

/-- The scheduled-hardfork filter opening `Common.getHardforkBy`: only
hardforks with a block, ttd or timestamp take part. -/
def schedHardforks (hfs0 : List HardforkConfig) : List HardforkConfig :=
  hfs0.filter fun hf => hf.block.isSome || hf.ttd.isSome || hf.timestamp.isSome

/-- The merge-hardfork index of `getHardforkBy`: the first scheduled
hardfork with a ttd, `-1` for none. -/
def mergeIdx (hfs : List HardforkConfig) : Int :=
  findIndexI hfs (fun hf => hf.ttd.isSome)

/-- The search predicate of `getHardforkBy`: a hardfork scheduled strictly
past the given block number or timestamp. -/
def ghbPredicate (blockNumber timestamp : Option Nat) (hf : HardforkConfig) : Bool :=
  (match blockNumber, hf.block with
   | some bn, some b => decide (b > bn)
   | _, _ => false) ||
  (match timestamp, hf.timestamp with
   | some ts, some t => decide (t > ts)
   | _, _ => false)

/-- `hfIndex` after the first assignment in `getHardforkBy`: the index of
the first hardfork past the inputs (the list length when none is), with
the `hfIndex == 0` error. -/
def ghbIndex1 (hfs : List HardforkConfig) (blockNumber timestamp : Option Nat) :
    Except String Int :=
  if findIndexI hfs (ghbPredicate blockNumber timestamp) = -1 then
    .ok (hfs.length : Int)
  else if findIndexI hfs (ghbPredicate blockNumber timestamp) = 0 then
    .error "Must have at least one hardfork at block 0"
  else .ok (findIndexI hfs (ghbPredicate blockNumber timestamp))

/-- The block-only step-back of `getHardforkBy`: without a timestamp
input, step back over the trailing timestamp-only hardforks to just past
the last block/ttd hardfork below `hfIndex`. -/
def ghbIndex2 (hfs : List HardforkConfig) (timestamp : Option Nat)
    (hfIndex1 : Int) : Int :=
  if timestamp = none then
    hfIndex1 -
      findIndexI ((hfs.take hfIndex1.toNat).reverse)
        (fun hf => hf.block.isSome || hf.ttd.isSome)
  else hfIndex1

/-- The merge resolution of `getHardforkBy`: a candidate hardfork with
neither block nor timestamp (the merge) is kept or skipped by the total
difficulty; otherwise the candidate is cross-checked against the merge
hardfork's ttd when a td is supplied. -/
def ghbIndex4 (hfs : List HardforkConfig) (td : Option Nat) (mergeIndex : Int)
    (hfIndex3 : Int) (hf3 : HardforkConfig) : Except String Int :=
  if hf3.block = none ∧ hf3.timestamp = none then
    match td with
    | none => .ok (hfIndex3 - 1)
    | some tdv =>
        ofOption hf3.ttd "TypeError" >>= fun ttd =>
        .ok (if ttd > tdv then hfIndex3 - 1 else hfIndex3)
  else
    (if mergeIndex ≥ 0 ∧ td ≠ none then
      getElemE hfs mergeIndex >>= fun mergeHf =>
      ofOption mergeHf.ttd "TypeError" >>= fun ttd =>
      if hfIndex3 ≥ mergeIndex ∧ ttd > td.getD 0 then
        .error "Maximum HF determined by total difficulty is lower than the block number HF"
      else if hfIndex3 < mergeIndex ∧ ttd ≤ td.getD 0 then
        .error "HF determined by block number is lower than the minimum total difficulty HF"
      else .ok ()
    else .ok ()) >>= fun _ =>
    .ok hfIndex3

/-- JavaScript `Array.slice(0, end)`: a negative end counts from the end
of the array. -/
def jsTake {α : Type} (l : List α) (e : Int) : List α :=
  if e < 0 then l.take (l.length - (-e).toNat) else l.take e.toNat

/-- The timestamp consistency checks closing `getHardforkBy` (skipped
without a timestamp input). -/
def ghbTimestampCheck (hfs : List HardforkConfig) (timestamp : Option Nat)
    (hfStartIndex hfIndex5 : Int) : Except String Unit :=
  match timestamp with
  | some ts =>
      if (jsTake hfs hfStartIndex).foldl
          (fun acc hf => max (hf.timestamp.getD 0) acc) 0 > ts then
        .error "Maximum HF determined by timestamp is lower than the block number or ttd HF"
      else if (hfs.drop (hfIndex5 + 1).toNat).foldl
          (fun acc hf => min (hf.timestamp.getD ts) acc) ts < ts then
        .error "Maximum HF determined by block number or ttd is lower than timestamp HF"
      else .ok ()
  | none => .ok ()

/-- `Common.getHardforkBy` (src/unnamed/part_001, lines 309-412), staged:
filter to scheduled hardforks, reject a second TTD hardfork, find the
first hardfork past the inputs, step back (skipping timestamp hardforks
when no timestamp was given), resolve the merge hardfork via the TTD,
advance over same-activation ties, check timestamp consistency, and read
the name. -/
def getHardforkBy (hfs0 : List HardforkConfig)
    (blockNumber timestamp td : Option Nat) : Except String String :=
  eguard (findIndexI ((schedHardforks hfs0).drop (mergeIdx (schedHardforks hfs0) + 1).toNat)
      (fun hf => hf.ttd.isSome) ≥ 0)
    "More than one merge hardforks found with ttd specified" >>= fun _ =>
  ghbIndex1 (schedHardforks hfs0) blockNumber timestamp >>= fun hfIndex1 =>
  getElemE (schedHardforks hfs0)
    (ghbIndex2 (schedHardforks hfs0) timestamp hfIndex1 - 1) >>= fun hf3 =>
  ghbIndex4 (schedHardforks hfs0) td (mergeIdx (schedHardforks hfs0))
    (ghbIndex2 (schedHardforks hfs0) timestamp hfIndex1 - 1) hf3 >>= fun hfIndex4 =>
  advanceTies (schedHardforks hfs0) ((schedHardforks hfs0).length + 1)
    hfIndex4 >>= fun hfIndex5 =>
  ghbTimestampCheck (schedHardforks hfs0) timestamp hfIndex4 hfIndex5 >>= fun _ =>
  getElemE (schedHardforks hfs0) hfIndex5 >>= fun hfFinal =>
  .ok hfFinal.name

/-- The last list position carrying a hardfork name, `-1` for none (the
loop of `hardforkGteHardfork` keeps overwriting the position). -/
def lastPosI (hfs : List HardforkConfig) (name : String) : Int :=
  hfs.enum.foldl (fun acc p => if p.2.name = name then (p.1 : Int) else acc) (-1)

/-- `Common.hardforkGteHardfork`: sequence-based comparison of two hardfork
names in the chain's configured order. -/
def hardforkGteHardfork (hfs : List HardforkConfig) (hf1 hf2 : String) : Bool :=
  lastPosI hfs hf1 ≥ lastPosI hfs hf2 && lastPosI hfs hf2 ≠ -1

/- ----------------------------------------------------------------
## Concrete sample data for witnesses and counterexamples
----------------------------------------------------------------- -/

/-- Sample `Common`-derived parameters: both EIPs active, KZG version byte
1, chain id 7, blob limit 6. -/
def txParamsW : BlobTxParams := ⟨true, true, 1, 7, 6⟩

/-- A well-formed versioned hash: version byte 1 followed by 31 bytes. -/
def vhW : List Nat := 1 :: List.replicate 31 0xAB

/-- A sample constructor input with a set `to` and one versioned hash. -/
def blobInputW : BlobTxInput :=
  { chainId := 7, nonce := [1], maxPriorityFeePerGas := [], maxFeePerGas := [2],
    gasLimit := [5], «to» := List.replicate 20 3, value := [], data := [],
    accessList := [], maxFeePerDataGas := [], versionedHashes := [vhW],
    v := some 1, r := [9], s := [8],
    blobs := none, kzgCommitments := none, kzgProofs := none }

/-- The transaction `blobTxConstructor txParamsW blobInputW` builds. -/
def blobTxW : BlobTx :=
  { chainId := 7, nonce := 1, maxPriorityFeePerGas := 0, maxFeePerGas := 2,
    gasLimit := 5, «to» := some (List.replicate 20 3), value := 0, data := [],
    accessList := [], maxFeePerDataGas := 0, versionedHashes := [vhW],
    v := some 1, r := some 9, s := some 8,
    blobs := none, kzgCommitments := none, kzgProofs := none }

/-- The inner (unsigned, 11-value) transaction payload of the sample
network wrappers. -/
def rawInnerW : List Rlp :=
  [ .str (natToBE 7), .str [], .str [], .str [], .str [],
    .str (List.replicate 20 0x11), .str [], .str [],
    .list [], .str [], .list [.str vhW] ]

/-- A serialized network wrapper whose proofs list is empty while it
carries one blob and one commitment. -/
def wrapperBytesNoProof : List Nat :=
  3 :: rlpEncode (.list [ .list rawInnerW, .list [.str [0x44, 0x44, 0x44]],
                          .list [.str (List.replicate 4 0x55)], .list [] ])

/-- A serialized network wrapper with one blob, commitment and proof. -/
def wrapperBytesW : List Nat :=
  3 :: rlpEncode (.list [ .list rawInnerW, .list [.str [0x44, 0x44, 0x44]],
                          .list [.str (List.replicate 4 0x55)],
                          .list [.str [0x66, 0x66]] ])

/-- A KZG batch-verification oracle accepting everything. -/
def kzgAcceptAll : List (List Nat) → List (List Nat) → List (List Nat) →
    Except String Bool :=
  fun _ _ _ => .ok true

/-- A versioned-hash oracle returning `vhW` for every commitment. -/
def cvhConstW : List Nat → Nat → List Nat := fun _ _ => vhW

/-- The transaction the sample network wrapper `wrapperBytesW` decodes
to. -/
def wrapTxW : BlobTx :=
  { chainId := 7, nonce := 0, maxPriorityFeePerGas := 0, maxFeePerGas := 0,
    gasLimit := 0, «to» := some (List.replicate 20 0x11), value := 0, data := [],
    accessList := [], maxFeePerDataGas := 0, versionedHashes := [vhW],
    v := none, r := none, s := none,
    blobs := some [[0x44, 0x44, 0x44]],
    kzgCommitments := some [List.replicate 4 0x55],
    kzgProofs := some [[0x66, 0x66]] }

/-- A two-hardfork chain configuration without cached fork hashes, whose
fork-hash CRC at Homestead has a zero top byte. -/
def hfsC5W : List HardforkConfig :=
  [⟨"chainstart", some 0, none, none, none⟩,
   ⟨"homestead", some 6, none, none, none⟩]

/-- A sample EIP database: EIP-2537 defining one gas parameter. -/
def eipTableW : EIPTable := [(2537, ⟨[("gasPrices", [("Bls12381G1AddGas", 600)])]⟩)]

/-- A sample `HARDFORK_CHANGES` list mixing parameter-inlining and
EIP-referencing files. -/
def changesW : List (String × HFSpec) :=
  [("chainstart", .params [("gasPrices", [("basefee", 2), ("Bls12381G1AddGas", 500)])]),
   ("berlin", .eips [2537]),
   ("london", .params [("gasPrices", [("basefee", 7)])])]

/-- Sample EVM parameters: a Shanghai-era configuration whose interpreter
loop consumes all gas and leaves the world untouched, with an address
generator that never returns a small address. -/
def evmParamsW : EvmParams :=
  { hardfork := "shanghai", gteHomestead := true, gteSpuriousDragon := true
    eip1153 := true, eip2929 := true, eip3860 := true, eip6780 := true
    eip3541 := true, eip3540 := false, eip3670 := false
    maxInitCodeSize := 49152, maxCodeSize := 24576, createDataGas := 200
    keccakNull := [], precompiles := []
    runPrecompile := fun _ _ _ => {}
    interp := fun _ w => ({ gasLeft := 0 }, w)
    genAddr := fun a n _ _ => 1000 + a + n
    getEOFCode := id, eofCodeAnalysis := fun _ => none
    validOpcodes := fun _ => true }

/-- A depth-0 message calling an empty account. -/
def msgCallW : Msg := { caller := 5, «to» := some 9, value := 0, gasLimit := 100 }

/-- A world whose caller account has nonce 4 and balance 50. -/
def worldCallW : World := { state := { accounts := [(5, { nonce := 4, balance := 50 })] } }

/-- What the sample call returns: an empty success result. -/
def resCallW : EVMRes := { execResult := {} }

/-- The world after the sample call: the caller's nonce bumped to 5 and
the (previously absent) callee created with zero balance. -/
def worldCallW' : World :=
  { state := { accounts := [(5, { nonce := 5, balance := 50 }), (9, {})] } }

/-- A depth-0 message sending more value than the caller holds. -/
def msgInsW : Msg := { caller := 5, «to» := some 9, value := 7, gasLimit := 100 }

/-- A world whose caller holds only 3 wei. -/
def worldInsW : World := { state := { accounts := [(5, { nonce := 0, balance := 3 })] } }

/-- A signed sample blob transaction for the codec round trip. -/
def txSignedW : BlobTx :=
  { chainId := 7, nonce := 1, maxPriorityFeePerGas := 1, maxFeePerGas := 2,
    gasLimit := 5, «to» := some (List.replicate 20 3), value := 4, data := [0xde],
    accessList := [(List.replicate 20 0x0a, [List.replicate 32 0x0b])],
    maxFeePerDataGas := 2, versionedHashes := [vhW],
    v := some 1, r := some 9, s := some 8,
    blobs := none, kzgCommitments := none, kzgProofs := none }

/-- The same sample blob transaction without its signature fields. -/
def txUnsignedW : BlobTx := { txSignedW with v := none, r := none, s := none }

/- ================================================================
# Theorems
================================================================ -/

/-- C8, counterexample: with elasticity 2, denominator 8, parent gas limit
1000, gas used `2·(1000/2) = 1000` and base fee 7, `calcNextBaseFee`
returns 8, while the claimed `b × (1 + 1/denominator)` is 7 under integer
arithmetic (`7 + 7/8 = 7·9/8 = 7`), so the claim's second equation is
false. -/
theorem c8_counterexample :
    calcNextBaseFee true 2 8 ⟨1000, 1000, 7⟩ = .ok 8 ∧
    7 + 7 / 8 = 7 ∧ 7 * (8 + 1) / 8 = 7 ∧ (8 : Nat) ≠ 7 := by
  decide

/-- C8 (amended): with EIP-1559 active and a positive parent gas target
`G/e`, a parent that used exactly its gas target keeps the base fee
unchanged, and a parent that used twice its gas target raises it by
`max (b / denominator) 1` — that is, by `b/denominator` rounded down but
always by at least 1. -/
theorem c8_calcNextBaseFee (e d G b : Nat) (htarget : 0 < G / e) :
    calcNextBaseFee true e d ⟨G, G / e, b⟩ = .ok b ∧
    calcNextBaseFee true e d ⟨G, 2 * (G / e), b⟩ = .ok (b + max (b / d) 1) := by
  constructor
  · simp [calcNextBaseFee]
  · have h1 : ¬(true = false) := by simp
    have hne : ¬(G / e = 2 * (G / e)) := by omega
    have hgt : 2 * (G / e) > G / e := by omega
    have hdelta : 2 * (G / e) - G / e = G / e := by omega
    have hcancel : b * (G / e) / (G / e) = b := Nat.mul_div_cancel b htarget
    simp only [calcNextBaseFee, if_neg h1, if_neg hne, if_pos hgt, hdelta, hcancel]
    rcases Nat.lt_or_ge 1 (b / d) with h | h
    · rw [if_pos h, Nat.max_eq_left (le_of_lt h)]
      exact congrArg Except.ok (Nat.add_comm _ _)
    · rw [if_neg (not_lt.mpr h), Nat.max_eq_right h]
      exact congrArg Except.ok (Nat.add_comm _ _)

/-- C8 witness: the amended theorem at elasticity 2, denominator 8, gas
limit 1000, base fee 7: unchanged at gas used 500, raised to 8 at gas used
1000. -/
theorem c8_witness :
    0 < 1000 / 2 ∧
    calcNextBaseFee true 2 8 ⟨1000, 1000 / 2, 7⟩ = .ok 7 ∧
    calcNextBaseFee true 2 8 ⟨1000, 2 * (1000 / 2), 7⟩ = .ok (7 + max (7 / 8) 1) :=
  ⟨by decide, (c8_calcNextBaseFee 2 8 1000 7 (by decide)).1,
   (c8_calcNextBaseFee 2 8 1000 7 (by decide)).2⟩

/-- `jsMapSet` then `jsMapGet` at the written key yields the value. -/
theorem jsMapGet_set_eq {F : Type} (m : JsMap F) (k : String) (v : Option F) :
    jsMapGet (jsMapSet m k v) k = v := by
  induction m with
  | nil => simp [jsMapSet, jsMapGet]
  | cons p rest ih =>
      obtain ⟨pk, pv⟩ := p
      by_cases h : pk = k
      · subst h
        simp [jsMapSet, jsMapGet]
      · simp [jsMapSet, jsMapGet, h, ih]

/-- `jsMapSet` leaves other keys alone. -/
theorem jsMapGet_set_ne {F : Type} (m : JsMap F) (k k' : String) (v : Option F)
    (h : k' ≠ k) : jsMapGet (jsMapSet m k v) k' = jsMapGet m k' := by
  induction m with
  | nil => simp [jsMapSet, jsMapGet, Ne.symm h]
  | cons p rest ih =>
      obtain ⟨pk, pv⟩ := p
      by_cases h1 : pk = k
      · subst h1
        simp [jsMapSet, jsMapGet, Ne.symm h]
      · by_cases h2 : pk = k'
        · subst h2
          simp [jsMapSet, jsMapGet, if_neg h1]
        · simp [jsMapSet, jsMapGet, h1, h2, ih]

/-- Key presence after `jsMapSet`. -/
theorem jsMapHas_set_iff {F : Type} (m : JsMap F) (k k' : String) (v : Option F) :
    jsMapHas (jsMapSet m k v) k' = true ↔ (k' = k ∨ jsMapHas m k' = true) := by
  induction m with
  | nil =>
      simp only [jsMapSet, jsMapHas, Bool.or_false, decide_eq_true_eq]
      constructor
      · intro h
        exact Or.inl h.symm
      · rintro (h | h)
        · exact h.symm
        · cases h
  | cons p rest ih =>
      obtain ⟨pk, pv⟩ := p
      by_cases h1 : pk = k
      · subst h1
        simp only [jsMapSet, if_pos rfl, jsMapHas, Bool.or_eq_true, decide_eq_true_eq]
        constructor
        · rintro (h | h)
          · exact Or.inl h.symm
          · exact Or.inr (Or.inr h)
        · rintro (h | h | h)
          · exact Or.inl h.symm
          · exact Or.inl h
          · exact Or.inr h
      · simp only [jsMapSet, if_neg h1, jsMapHas, Bool.or_eq_true, decide_eq_true_eq]
        constructor
        · rintro (h | h)
          · exact Or.inr (Or.inl h)
          · rcases ih.mp h with h' | h'
            · exact Or.inl h'
            · exact Or.inr (Or.inr h')
        · rintro (h | h | h)
          · exact Or.inr (ih.mpr (Or.inl h))
          · exact Or.inl h
          · exact Or.inr (ih.mpr (Or.inr h))

/-- An absent key reads as `none`. -/
theorem jsMapGet_eq_none_of_not_has {F : Type} (m : JsMap F) (a : String)
    (h : jsMapHas m a = false) : jsMapGet m a = none := by
  induction m with
  | nil => rfl
  | cons p rest ih =>
      obtain ⟨pk, pv⟩ := p
      simp only [jsMapHas, Bool.or_eq_false_iff, decide_eq_false_iff_not] at h
      simp only [jsMapGet, if_neg h.1]
      exact ih h.2

/-- The customs loop of `getActivePrecompiles` reads back as the last
custom written at the key (falling back to the initial map). -/
theorem customFold_get {F : Type} (cs : List (CustomPrecomp F)) (m : JsMap F)
    (a : String) :
    jsMapGet (cs.foldl customStep m) a =
      match lastCustomAt cs a with
      | some c => c.installed
      | none => jsMapGet m a := by
  induction cs generalizing m with
  | nil => rfl
  | cons c rest ih =>
      have hstep : customStep m c = jsMapSet m c.address c.installed := by
        cases c <;> rfl
      simp only [List.foldl_cons, ih, hstep, lastCustomAt]
      cases hl : lastCustomAt rest a with
      | some c' => rfl
      | none =>
          by_cases h : c.address = a
          · rw [if_pos h, h, jsMapGet_set_eq]
          · rw [if_neg h, jsMapGet_set_ne m _ _ _ (fun hh => h hh.symm)]

/-- Key presence after the customs loop: some custom named the key, or it
was present initially. -/
theorem customFold_has_iff {F : Type} (cs : List (CustomPrecomp F)) (m : JsMap F)
    (a : String) :
    jsMapHas (cs.foldl customStep m) a = true ↔
      ((lastCustomAt cs a).isSome ∨ jsMapHas m a = true) := by
  induction cs generalizing m with
  | nil => simp [lastCustomAt]
  | cons c rest ih =>
      have hstep : customStep m c = jsMapSet m c.address c.installed := by
        cases c <;> rfl
      simp only [List.foldl_cons, hstep, ih, jsMapHas_set_iff, lastCustomAt]
      cases hl : lastCustomAt rest a with
      | some c' => simp
      | none =>
          by_cases h : c.address = a
          · simp [h]
          · simp only [if_neg h, Option.isSome_none, false_or]
            constructor
            · rintro (h1 | h1 | h1)
              · cases h1
              · exact absurd h1.symm h
              · exact Or.inr h1
            · rintro (h1 | h1)
              · cases h1
              · exact Or.inr (Or.inr h1)

/-- The built-in entries loop reads back as the initial map where the key
is already present, else as the first available table entry at the key. -/
theorem entriesFold_get {F : Type} (gte : String → Bool) (eip : Nat → Bool)
    (entries : List (PrecompEntry F)) (m : JsMap F) (a : String) :
    jsMapGet (entries.foldl (entryStep gte eip) m) a =
      if jsMapHas m a = true then jsMapGet m a
      else
        (entries.find?
          (fun e => decide (e.address = a) && precompAvailable gte eip e.check)).map
          (fun e => e.precompile) := by
  induction entries generalizing m with
  | nil =>
      by_cases h : jsMapHas m a = true
      · simp [h]
      · have hf : jsMapHas m a = false := by revert h; cases jsMapHas m a <;> simp
        simp [hf, jsMapGet_eq_none_of_not_has m a hf]
  | cons e rest ih =>
      by_cases hhas : jsMapHas m e.address = true
      · have hstep : entryStep gte eip m e = m := by
          simp [entryStep, hhas]
        rw [List.foldl_cons, hstep, ih]
        by_cases hma : jsMapHas m a = true
        · simp [hma]
        · have hne : decide (e.address = a) = false := by
            by_cases hq : e.address = a
            · rw [hq] at hhas
              exact absurd hhas hma
            · simp [hq]
          simp only [if_neg hma, List.find?_cons, hne, Bool.false_and]
      · have hhasf : jsMapHas m e.address = false := by
          revert hhas; cases jsMapHas m e.address <;> simp
        by_cases havail : precompAvailable gte eip e.check = true
        · have hstep : entryStep gte eip m e =
              jsMapSet m e.address (some e.precompile) := by
            simp [entryStep, hhasf, havail]
          rw [List.foldl_cons, hstep, ih]
          by_cases heq : e.address = a
          · subst heq
            rw [if_pos ((jsMapHas_set_iff m _ _ _).mpr (Or.inl rfl)), jsMapGet_set_eq,
              if_neg (by rw [hhasf]; simp), List.find?_cons]
            simp [havail]
          · have hget := jsMapGet_set_ne m e.address a (some e.precompile)
              (fun hh => heq hh.symm)
            have hhs : jsMapHas (jsMapSet m e.address (some e.precompile)) a =
                jsMapHas m a := by
              by_cases hma : jsMapHas m a = true
              · rw [hma, ((jsMapHas_set_iff m _ _ _).mpr (Or.inr hma) : _)]
              · have hmaf : jsMapHas m a = false := by
                  revert hma; cases jsMapHas m a <;> simp
                rw [hmaf]
                by_contra hcon
                have : jsMapHas (jsMapSet m e.address (some e.precompile)) a = true := by
                  revert hcon
                  cases jsMapHas (jsMapSet m e.address (some e.precompile)) a <;> simp
                rcases (jsMapHas_set_iff m _ _ _).mp this with h1 | h1
                · exact heq h1.symm
                · rw [h1] at hmaf; cases hmaf
            rw [hhs, hget]
            by_cases hma : jsMapHas m a = true
            · simp [hma]
            · have hne : decide (e.address = a) = false := by simp [heq]
              simp only [if_neg hma, List.find?_cons, hne, Bool.false_and]
        · have havailf : precompAvailable gte eip e.check = false := by
            revert havail; cases precompAvailable gte eip e.check <;> simp
          have hstep : entryStep gte eip m e = m := by
            simp [entryStep, hhasf, havailf]
          rw [List.foldl_cons, hstep, ih]
          by_cases hma : jsMapHas m a = true
          · simp [hma]
          · simp only [if_neg hma, List.find?_cons, havailf, Bool.and_false]

/-- C9: for every `Common` query pair, every assignment of the built-in
precompile bodies and every custom-precompile list, the
`getActivePrecompiles` map reads, at every address, as the built-in entry
whose availability predicate (hardfork-gte or EIP-activated) holds, except
at addresses named by a custom precompile, where the last custom entry
takes precedence: an add installs its function and a delete leaves no
callable precompile even if a built-in would otherwise be active. -/
theorem c9_getActivePrecompiles {F : Type} (gteHardfork : String → Bool)
    (isActivatedEIP : Nat → Bool) (funcs : Nat → F)
    (customPrecompiles : Option (List (CustomPrecomp F))) (a : String) :
    jsMapGet (getActivePrecompiles gteHardfork isActivatedEIP funcs customPrecompiles) a =
      activePrecompSpec gteHardfork isActivatedEIP funcs customPrecompiles a := by
  have hm0 : (match customPrecompiles with
      | none => ([] : JsMap F)
      | some cs => cs.foldl customStep []) =
      (customPrecompiles.getD []).foldl customStep [] := by
    cases customPrecompiles <;> rfl
  unfold getActivePrecompiles activePrecompSpec
  rw [hm0, entriesFold_get]
  cases hl : lastCustomAt (customPrecompiles.getD []) a with
  | some c =>
      have hhas : jsMapHas ((customPrecompiles.getD []).foldl customStep []) a = true :=
        (customFold_has_iff _ _ _).mpr (Or.inl (by rw [hl]; rfl))
      rw [if_pos hhas, customFold_get, hl]
  | none =>
      have hhas : ¬ jsMapHas ((customPrecompiles.getD []).foldl customStep []) a = true := by
        intro hcon
        rcases (customFold_has_iff _ _ _).mp hcon with h1 | h1
        · rw [hl] at h1; cases h1
        · simp [jsMapHas] at h1
      rw [if_neg hhas]
/-- The fuel of `natToBEAux` is irrelevant once it dominates the value. -/
theorem natToBEAux_congr :
    ∀ {fuel fuel' n : Nat}, n ≤ fuel → n ≤ fuel' →
      natToBEAux fuel n = natToBEAux fuel' n := by
  intro fuel
  induction fuel with
  | zero =>
      intro fuel' n h h'
      have : n = 0 := by omega
      subst this
      cases fuel' <;> simp [natToBEAux]
  | succ f ih =>
      intro fuel' n h h'
      by_cases hn : n = 0
      · subst hn
        cases fuel' <;> simp [natToBEAux]
      · have hf' : ∃ f', fuel' = f' + 1 := ⟨fuel' - 1, by omega⟩
        obtain ⟨f', rfl⟩ := hf'
        have hdiv : n / 256 < n := Nat.div_lt_self (by omega) (by omega)
        simp only [natToBEAux, if_neg hn]
        rw [@ih f' (n / 256) (by omega) (by omega)]

/-- The defining recursion of `natToBE`. -/
theorem natToBE_eq (n : Nat) :
    natToBE n = if n = 0 then [] else natToBE (n / 256) ++ [n % 256] := by
  by_cases hn : n = 0
  · subst hn; rfl
  · unfold natToBE
    obtain ⟨m, rfl⟩ : ∃ m, n = m + 1 := ⟨n - 1, by omega⟩
    simp only [natToBEAux, if_neg hn]
    have hdiv : (m + 1) / 256 < m + 1 := Nat.div_lt_self (by omega) (by omega)
    rw [@natToBEAux_congr m ((m + 1) / 256) ((m + 1) / 256) (by omega) (by omega)]

/-- Success of a monadic bind in `Except`. -/
theorem ebind_ok {ε α β : Type} {e : Except ε α} {f : α → Except ε β} {v : β} :
    (e >>= f = Except.ok v) ↔ ∃ a, e = .ok a ∧ f a = .ok v := by
  cases e <;> simp [Bind.bind, Except.bind]

/-- Success of an error-guard `if`. -/
theorem eite_ok {ε α : Type} {c : Prop} [Decidable c] {s : ε} {e : Except ε α} {v : α} :
    ((if c then Except.error s else e) = .ok v) ↔ (¬c ∧ e = .ok v) := by
  split <;> simp_all

/-- Success of an `eguard` alone. -/
theorem eguard_ok_iff {c : Prop} [Decidable c] {s : String} :
    (eguard c s = .ok ()) ↔ ¬c := by
  unfold eguard
  split <;> simp_all

/-- Success of an `eguard` followed by a continuation. -/
theorem eguard_bind_ok {β : Type} {c : Prop} [Decidable c] {s : String}
    {f : Unit → Except String β} {v : β} :
    ((eguard c s >>= f) = .ok v) ↔ (¬c ∧ f () = .ok v) := by
  unfold eguard
  split <;> simp_all [Bind.bind, Except.bind]

/-- Success of a `Unit`-typed bind. -/
theorem ebind_unit_ok {β : Type} {e : Except String Unit} {f : Unit → Except String β}
    {v : β} : ((e >>= f) = .ok v) ↔ (e = .ok () ∧ f () = .ok v) := by
  cases e with
  | ok u => cases u; simp [Bind.bind, Except.bind]
  | error s => simp [Bind.bind, Except.bind]

/-- Reduction of a successful bind. -/
theorem ok_bind {α β : Type} {a : α} {f : α → Except String β} :
    ((Except.ok a >>= f) = f a) := rfl

/-- Eliminate an existential over `Unit`. -/
theorem exists_unit {p : Unit → Prop} : (∃ u : Unit, p u) ↔ p () :=
  ⟨fun ⟨u, h⟩ => by cases u; exact h, fun h => ⟨(), h⟩⟩

/-- Success of `pure` in `Except`. -/
theorem epure_ok {ε α : Type} {x v : α} :
    ((pure x : Except ε α) = .ok v) ↔ x = v := by
  simp [pure, Except.pure]

/-- C7, counterexample: the constructor accepts an input with no `to` and
an empty versioned-hash list (all-empty byte strings for the numeric
fields), contradicting the claim that every successfully constructed blob
transaction has `to` set and between 1 and LIMIT_BLOBS_PER_TX hashes. -/
theorem c7_counterexample :
    (blobTxConstructor ⟨true, true, 1, 7, 6⟩
        { chainId := 7, nonce := [], maxPriorityFeePerGas := [], maxFeePerGas := [],
          gasLimit := [], «to» := [], value := [], data := [], accessList := [],
          maxFeePerDataGas := [], versionedHashes := [], v := none, r := [], s := [],
          blobs := none, kzgCommitments := none, kzgProofs := none }).map
      (fun tx => (tx.«to», tx.versionedHashes.length)) = .ok (none, 0) := by
  decide

/-- C7 (amended): every successfully constructed blob transaction carries
at most `LIMIT_BLOBS_PER_TX` versioned hashes, each exactly 32 bytes long
and beginning with the `sharding.blobCommitmentVersionKzg` version byte
(the constructor throws when any hash violates this or the count exceeds
the bound); a set `to` and a non-zero hash count are *not* constructor
invariants — they are enforced only by the network-wrapper decoder. -/
theorem validateVersionedHashes_ok {version : Nat} {l : List (List Nat)}
    (h : validateVersionedHashes version l = .ok ()) :
    ∀ vh ∈ l, vh.length = 32 ∧ vh.headD 0 = version := by
  induction l with
  | nil => intro vh hm; cases hm
  | cons x rest ih =>
      unfold validateVersionedHashes at h
      split at h
      · exact Except.noConfusion h
      · split at h
        · exact Except.noConfusion h
        · intro vh hm
          rcases List.mem_cons.mp hm with rfl | hm
          · constructor
            · omega
            · rename_i hlen hhead
              rw [not_or] at hhead
              exact not_ne_iff.mp hhead.1
          · exact ih h vh hm

/-- C7 (amended): every successfully constructed blob transaction carries
at most `LIMIT_BLOBS_PER_TX` versioned hashes, each exactly 32 bytes long
and beginning with the `sharding.blobCommitmentVersionKzg` version byte
(the constructor throws when any hash violates this or the count exceeds
the limit); a set `to` and a non-zero hash count are *not* constructor
invariants — they are enforced only by the network-wrapper decoder. -/
theorem c7_blobTxConstructor (P : BlobTxParams) (inp : BlobTxInput) (tx : BlobTx)
    (h : blobTxConstructor P inp = .ok tx) :
    tx.versionedHashes.length ≤ P.limitBlobsPerTx ∧
    ∀ vh ∈ tx.versionedHashes,
      vh.length = 32 ∧ vh.headD 0 = P.blobCommitmentVersionKzg := by
  unfold blobTxConstructor at h
  simp only [eguard_bind_ok, ebind_unit_ok, eguard_ok_iff, Except.ok.injEq] at h
  obtain ⟨-, -, -, -, -, -, -, -, -, -, hvv, hlen, htx⟩ := h
  subst htx
  refine ⟨?_, ?_⟩
  · show inp.versionedHashes.length ≤ P.limitBlobsPerTx
    omega
  · show ∀ vh ∈ inp.versionedHashes,
      vh.length = 32 ∧ vh.headD 0 = P.blobCommitmentVersionKzg
    exact fun vh hm => validateVersionedHashes_ok hvv vh hm

/-- C7 witness: the amended constructor theorem at a concrete input with a
set `to` and one well-formed versioned hash. -/
theorem c7_witness :
    blobTxConstructor txParamsW blobInputW = .ok blobTxW ∧
    (blobTxW.versionedHashes.length ≤ txParamsW.limitBlobsPerTx ∧
     ∀ vh ∈ blobTxW.versionedHashes,
       vh.length = 32 ∧ vh.headD 0 = txParamsW.blobCommitmentVersionKzg) :=
  ⟨by decide, c7_blobTxConstructor txParamsW blobInputW blobTxW (by decide)⟩

/-- Success of the index loop comparing commitments to versioned hashes. -/
theorem checkCommitmentHashes_ok {cvh : List Nat → Nat → List Nat}
    {commitments versionedHashes : List (List Nat)} {version : Nat} :
    ∀ {n x : Nat},
      checkCommitmentHashes cvh commitments versionedHashes version x n = .ok () →
      ∀ k < n, cvh (commitments.getD (x + k) []) version =
        versionedHashes.getD (x + k) [] := by
  intro n
  induction n with
  | zero => intro x _ k hk; omega
  | succ m ih =>
      intro x h k hk
      unfold checkCommitmentHashes at h
      split at h
      · rename_i heq
        rcases Nat.eq_zero_or_pos k with rfl | hpos
        · simpa using heq
        · have := ih h (k - 1) (by omega)
          have hx : x + 1 + (k - 1) = x + k := by omega
          rwa [hx] at this
      · exact Except.noConfusion h

/-- C2, counterexample: a network wrapper carrying one blob, one
commitment, one declared versioned hash but an *empty* proofs list is
accepted (under oracles that validate it), so the four lists do not all
have equal non-zero lengths as the claim states: the proofs list length is
never compared. -/
theorem c2_counterexample :
    (fromSerializedBlobTxNetworkWrapper txParamsW kzgAcceptAll cvhConstW
        wrapperBytesNoProof).map
      (fun tx => (tx.blobs.map List.length, tx.kzgProofs.map List.length)) =
      .ok (some 1, some 0) ∧ (0 : Nat) ≠ 1 := by
  constructor
  · decide
  · decide

/-- C2 (amended): for every byte string the network-wrapper decoder
accepts, the versioned-hash, blob and commitment lists have equal non-zero
lengths (the proofs list length is constrained only through the KZG
batch-verification oracle), the batch verification returned `true`, the
computed versioned hash of commitment `i` equals declared hash `i` for
every index, and the decoded transaction has `to` set. -/
theorem c2_fromSerializedBlobTxNetworkWrapper (P : BlobTxParams)
    (kzgVerify : List (List Nat) → List (List Nat) → List (List Nat) → Except String Bool)
    (computeVersionedHash : List Nat → Nat → List Nat)
    (serialized : List Nat) (tx : BlobTx)
    (h : fromSerializedBlobTxNetworkWrapper P kzgVerify computeVersionedHash
          serialized = .ok tx) :
    ∃ blobs commitments proofs,
      tx.blobs = some blobs ∧ tx.kzgCommitments = some commitments ∧
      tx.kzgProofs = some proofs ∧
      tx.versionedHashes.length = blobs.length ∧
      blobs.length = commitments.length ∧
      tx.versionedHashes.length ≠ 0 ∧
      kzgVerify blobs commitments proofs = .ok true ∧
      (∀ i < tx.versionedHashes.length,
        computeVersionedHash (commitments.getD i []) P.blobCommitmentVersionKzg =
          tx.versionedHashes.getD i []) ∧
      tx.«to» ≠ none := by
  unfold fromSerializedBlobTxNetworkWrapper at h
  split at h
  · exact Except.noConfusion h
  · split at h
    · exact Except.noConfusion h
    · split at h
      · exact Except.noConfusion h
      · exact Except.noConfusion h
      · unfold fromNetworkValues validateBlobTransactionNetworkWrapper at h
        simp only [ebind_ok, exists_unit, eguard_ok_iff, not_not,
          Except.ok.injEq] at h
        obtain ⟨-, txValues, -, blobs, hblobs, commitments, hcomms, proofs, hproofs,
          decodedTx, hdec, hto,
          ⟨⟨hlen1, hlen2⟩, hnz, isValid, hkzg, hvalid, hloop⟩, htx⟩ := h
        subst htx
        subst hvalid
        refine ⟨blobs, commitments, proofs, rfl, rfl, rfl, hlen1, hlen2, hnz, hkzg,
          ?_, hto⟩
        intro i hi
        have := checkCommitmentHashes_ok hloop i hi
        simpa using this

/-- C2 witness: the amended network-wrapper theorem at a concrete wrapper
with one blob, one commitment, one proof and accepting oracles. -/
theorem c2_witness :
    fromSerializedBlobTxNetworkWrapper txParamsW kzgAcceptAll cvhConstW wrapperBytesW =
      .ok wrapTxW ∧
    (∃ blobs commitments proofs,
      wrapTxW.blobs = some blobs ∧ wrapTxW.kzgCommitments = some commitments ∧
      wrapTxW.kzgProofs = some proofs ∧
      wrapTxW.versionedHashes.length = blobs.length ∧
      blobs.length = commitments.length ∧
      wrapTxW.versionedHashes.length ≠ 0 ∧
      kzgAcceptAll blobs commitments proofs = .ok true ∧
      (∀ i < wrapTxW.versionedHashes.length,
        cvhConstW (commitments.getD i []) txParamsW.blobCommitmentVersionKzg =
          wrapTxW.versionedHashes.getD i []) ∧
      wrapTxW.«to» ≠ none) :=
  ⟨by decide,
   c2_fromSerializedBlobTxNetworkWrapper txParamsW kzgAcceptAll cvhConstW
     wrapperBytesW wrapTxW (by decide)⟩

/-- Big-endian read-back of append to a single byte. -/
theorem beToNat_append_one (bs : List Nat) (b : Nat) :
    beToNat (bs ++ [b]) = 256 * beToNat bs + b := by
  unfold beToNat
  rw [List.foldl_append]
  simp [Nat.mul_comm]

/-- `beToNat` inverts `natToBE`. -/
theorem beToNat_natToBE (n : Nat) : beToNat (natToBE n) = n := by
  induction n using Nat.strong_induction_on with
  | _ n ih =>
      rw [natToBE_eq]
      by_cases hn : n = 0
      · subst hn; simp [beToNat]
      · rw [if_neg hn, beToNat_append_one,
          ih (n / 256) (Nat.div_lt_self (by omega) (by omega))]
        omega

/-- `natToBE` is empty exactly at zero. -/
theorem natToBE_eq_nil_iff (n : Nat) : natToBE n = [] ↔ n = 0 := by
  constructor
  · intro h
    by_contra hn
    rw [natToBE_eq, if_neg hn] at h
    cases List.append_ne_nil_of_right_ne_nil (natToBE (n / 256)) (by simp) h
  · rintro rfl; rfl

/-- `natToBE` never begins with a zero byte. -/
theorem noLeadingZero_natToBE (n : Nat) : noLeadingZero (natToBE n) = true := by
  induction n using Nat.strong_induction_on with
  | _ n ih =>
      rw [natToBE_eq]
      by_cases hn : n = 0
      · subst hn; rfl
      · rw [if_neg hn]
        rcases hq : natToBE (n / 256) with _ | ⟨b, tl⟩
        · have h0 : n / 256 = 0 := (natToBE_eq_nil_iff _).mp hq
          have : n % 256 ≠ 0 := by
            intro hmod
            exact hn (by omega)
          simp [noLeadingZero, this]
        · have := ih (n / 256) (Nat.div_lt_self (by omega) (by omega))
          rw [hq] at this
          simpa [noLeadingZero] using this

/-- Digit-count bound for `natToBE`. -/
theorem natToBE_length_le (k : Nat) :
    ∀ n, n < 256 ^ k → (natToBE n).length ≤ k := by
  induction k with
  | zero =>
      intro n h
      have : n = 0 := by simpa using h
      subst this
      simp [natToBE, natToBEAux]
  | succ m ih =>
      intro n h
      rw [natToBE_eq]
      by_cases hn : n = 0
      · simp [hn]
      · rw [if_neg hn]
        have hdiv : n / 256 < 256 ^ m := by
          apply Nat.div_lt_of_lt_mul
          have hpow : 256 ^ (m + 1) = 256 * 256 ^ m := by ring
          omega
        simpa using ih (n / 256) hdiv

/-- RLP encodings are never empty. -/
theorem rlpEncode_ne_nil (r : Rlp) : rlpEncode r ≠ [] := by
  cases r with
  | str bs =>
      unfold rlpEncode
      split
      · rename_i h
        intro hc
        rw [hc] at h
        simp at h
      · unfold rlpEncodeLength
        split <;> simp
  | list items =>
      by_cases hlt : (rlpEncodeList items).length < 56 <;>
        simp [rlpEncode, rlpEncodeLength, hlt]

/-- Sizes are positive. -/
theorem rlpSize_pos (r : Rlp) : 1 ≤ rlpSize r := by
  cases r <;> simp [rlpSize]

/-- List sizes are positive. -/
theorem rlpSizeList_pos (rs : List Rlp) : 1 ≤ rlpSizeList rs := by
  cases rs with
  | nil => simp [rlpSizeList]
  | cons r rest =>
      have := rlpSize_pos r
      simp only [rlpSizeList]
      omega

/-- The round-trip of the RLP codec, strengthened over parser fuel and a
trailing byte string: decoding an encoding consumes exactly the encoding
and returns the item (and the same for juxtaposed encodings), provided all
payload lengths are below `2^64`. -/
theorem rlpDecode_roundtrip_aux : ∀ N : Nat,
    (∀ r : Rlp, rlpSize r ≤ N → rlpGoodLens r = true → ∀ fuel : Nat, rlpSize r ≤ fuel →
      ∀ rest : List Nat, rlpDecodeItem fuel (rlpEncode r ++ rest) = some (r, rest)) ∧
    (∀ rs : List Rlp, rlpSizeList rs ≤ N → rlpGoodLensList rs = true →
      ∀ fuel : Nat, rlpSizeList rs ≤ fuel →
      rlpDecodeSeq fuel (rlpEncodeList rs) = some rs) := by
  intro N
  induction N with
  | zero =>
      constructor
      · intro r hr
        have := rlpSize_pos r
        omega
      · intro rs hrs
        have := rlpSizeList_pos rs
        omega
  | succ N ih =>
      obtain ⟨ihItem, ihSeq⟩ := ih
      constructor
      · -- items
        intro r hr hgood fuel hfuel rest
        obtain ⟨f, rfl⟩ : ∃ f, fuel = f + 1 := by
          have := rlpSize_pos r
          exact ⟨fuel - 1, by omega⟩
        cases r with
        | str bs =>
            unfold rlpEncode
            split
            · -- single small byte
              rename_i hsingle
              obtain ⟨hlen1, hhead⟩ := hsingle
              rcases bs with _ | ⟨b, tl⟩
              · simp at hlen1
              · rcases tl with _ | _
                · simp only [List.cons_append, List.nil_append]
                  unfold rlpDecodeItem
                  rw [if_pos (by simpa [List.headD] using hhead)]
                · simp at hlen1
            · rename_i hsingle
              unfold rlpEncodeLength
              split
              · -- short string
                rename_i hshort
                simp only [List.cons_append, List.append_assoc, List.nil_append]
                unfold rlpDecodeItem
                rw [if_neg (by omega), if_pos (by omega)]
                have hsub : 128 + bs.length - 128 = bs.length := by omega
                rw [hsub]
                rw [if_neg (by simp)]
                rw [List.take_left, List.drop_left]
              · -- long string
                rename_i hlong
                have hplen : bs.length < 2 ^ 64 := by
                  simpa [rlpGoodLens] using hgood
                have hlb1 : 1 ≤ (natToBE bs.length).length := by
                  rcases hq : natToBE bs.length with _ | _
                  · have := (natToBE_eq_nil_iff _).mp hq
                    omega
                  · simp
                have hlb8 : (natToBE bs.length).length ≤ 8 := by
                  apply natToBE_length_le
                  calc bs.length < 2 ^ 64 := hplen
                    _ = 256 ^ 8 := by norm_num
                simp only [List.cons_append, List.append_assoc, List.nil_append]
                unfold rlpDecodeItem
                rw [if_neg (by omega), if_neg (by omega), if_pos (by omega)]
                have hsub : 128 + 55 + (natToBE bs.length).length - 183 =
                    (natToBE bs.length).length := by omega
                rw [hsub, if_neg (by simp)]
                rw [List.take_left, List.drop_left, beToNat_natToBE]
                rw [if_neg (by simp), List.take_left, List.drop_left]
        | list items =>
            have hsz : rlpSizeList items ≤ N := by
              simp only [rlpSize] at hr
              omega
            have hgoods : rlpGoodLensList items = true := by
              simp only [rlpGoodLens, Bool.and_eq_true] at hgood
              exact hgood.2
            have hplen : (rlpEncodeList items).length < 2 ^ 64 := by
              simp only [rlpGoodLens, Bool.and_eq_true, decide_eq_true_eq] at hgood
              exact hgood.1
            have hseq : rlpDecodeSeq f (rlpEncodeList items) = some items := by
              apply ihSeq items hsz hgoods
              simp only [rlpSize] at hfuel
              omega
            show rlpDecodeItem (f + 1)
              ((rlpEncodeLength (rlpEncodeList items).length 192 ++
                rlpEncodeList items) ++ rest) = some (Rlp.list items, rest)
            unfold rlpEncodeLength
            split
            · -- short list
              rename_i hshort
              simp only [List.cons_append, List.append_assoc, List.nil_append]
              unfold rlpDecodeItem
              rw [if_neg (by omega), if_neg (by omega), if_neg (by omega),
                if_pos (by omega)]
              have hsub : 192 + (rlpEncodeList items).length - 192 =
                  (rlpEncodeList items).length := by omega
              rw [hsub, if_neg (by simp), List.take_left, List.drop_left, hseq]
            · -- long list
              rename_i hlong
              have hlb1 : 1 ≤ (natToBE (rlpEncodeList items).length).length := by
                rcases hq : natToBE (rlpEncodeList items).length with _ | _
                · have := (natToBE_eq_nil_iff _).mp hq
                  omega
                · simp
              have hlb8 : (natToBE (rlpEncodeList items).length).length ≤ 8 := by
                apply natToBE_length_le
                calc (rlpEncodeList items).length < 2 ^ 64 := hplen
                  _ = 256 ^ 8 := by norm_num
              simp only [List.cons_append, List.append_assoc, List.nil_append]
              unfold rlpDecodeItem
              rw [if_neg (by omega), if_neg (by omega), if_neg (by omega),
                if_neg (by omega)]
              have hsub : 192 + 55 + (natToBE (rlpEncodeList items).length).length - 247 =
                  (natToBE (rlpEncodeList items).length).length := by omega
              rw [hsub, if_neg (by simp), List.take_left, List.drop_left,
                beToNat_natToBE, if_neg (by simp), List.take_left, List.drop_left, hseq]
      · -- sequences
        intro rs hrs hgood fuel hfuel
        cases rs with
        | nil =>
            cases fuel <;> simp [rlpDecodeSeq, rlpEncodeList]
        | cons r rest =>
            have h1 := rlpSize_pos r
            have h2 := rlpSizeList_pos rest
            simp only [rlpSizeList] at hrs hfuel
            obtain ⟨f, rfl⟩ : ∃ f, fuel = f + 1 := ⟨fuel - 1, by omega⟩
            simp only [rlpGoodLensList, Bool.and_eq_true] at hgood
            have hne : rlpEncodeList (r :: rest) ≠ [] := by
              simp only [rlpEncodeList]
              intro hc
              exact rlpEncode_ne_nil r (List.append_eq_nil.mp hc).1
            unfold rlpDecodeSeq
            rw [if_neg (by simpa [List.isEmpty_iff] using hne)]
            simp only [rlpEncodeList]
            rw [ihItem r (by omega) hgood.1 f (by omega) (rlpEncodeList rest)]
            simp only [ihSeq rest (by omega) hgood.2 f (by omega)]

/-- The fuel needed by the parser is covered by twice the encoded length. -/
theorem rlpSize_le_aux : ∀ N : Nat,
    (∀ r : Rlp, rlpSize r ≤ N → rlpSize r ≤ 2 * (rlpEncode r).length) ∧
    (∀ rs : List Rlp, rlpSizeList rs ≤ N →
      rlpSizeList rs ≤ 2 * (rlpEncodeList rs).length + 1) := by
  intro N
  induction N with
  | zero =>
      constructor
      · intro r hr
        have := rlpSize_pos r
        omega
      · intro rs hrs
        have := rlpSizeList_pos rs
        omega
  | succ N ih =>
      obtain ⟨ihItem, ihSeq⟩ := ih
      constructor
      · intro r hr
        cases r with
        | str bs =>
            have hlen := List.length_pos.mpr (rlpEncode_ne_nil (Rlp.str bs))
            simp only [rlpSize]
            omega
        | list items =>
            have hsz : rlpSizeList items ≤ N := by
              simp only [rlpSize] at hr
              omega
            have hseq := ihSeq items hsz
            have hhdr : 1 ≤ (rlpEncodeLength (rlpEncodeList items).length 192).length := by
              unfold rlpEncodeLength
              split <;> simp
            show rlpSize (.list items) ≤
              2 * (rlpEncodeLength (rlpEncodeList items).length 192 ++
                rlpEncodeList items).length
            rw [List.length_append]
            simp only [rlpSize]
            omega
      · intro rs hrs
        cases rs with
        | nil => simp [rlpSizeList, rlpEncodeList]
        | cons r rest =>
            have h1 := rlpSize_pos r
            have h2 := rlpSizeList_pos rest
            simp only [rlpSizeList] at hrs ⊢
            have hi := ihItem r (by omega)
            have hs := ihSeq rest (by omega)
            simp only [rlpEncodeList, List.length_append]
            omega

/-- `optBE` renderings never carry a leading zero. -/
theorem noLeadingZero_optBE (o : Option Nat) : noLeadingZero (optBE o) = true := by
  cases o with
  | none => rfl
  | some x => exact noLeadingZero_natToBE x

/-- Reading back an `optBE` rendering defaults an absent value to zero. -/
theorem beToNat_optBE (o : Option Nat) : beToNat (optBE o) = o.getD 0 := by
  cases o with
  | none => rfl
  | some x => exact beToNat_natToBE x

/-- A positive-or-absent signature value survives `optBE` and `sigValue`. -/
theorem sigValue_optBE {bound : Nat} {o : Option Nat}
    (h : sigFieldOk bound o = true) : sigValue (optBE o) = o := by
  cases o with
  | none => rfl
  | some x =>
      simp only [sigFieldOk, Bool.and_eq_true, decide_eq_true_eq] at h
      have hne : natToBE x ≠ [] := by
        intro hc
        have := (natToBE_eq_nil_iff x).mp hc
        omega
      simp [sigValue, optBE, List.isEmpty_iff, hne, beToNat_natToBE]

/-- The bound carried by `sigFieldOk`, with zero for an absent value. -/
theorem sigFieldOk_getD_le {bound : Nat} {o : Option Nat}
    (h : sigFieldOk bound o = true) : o.getD 0 ≤ bound := by
  cases o with
  | none => simp
  | some x =>
      simp only [sigFieldOk, Bool.and_eq_true, decide_eq_true_eq] at h
      simpa using h.2

/-- A `toFieldOk` value survives the empty-rendering/`toValue` round
trip. -/
theorem toValue_getD {o : Option (List Nat)} (h : toFieldOk o = true) :
    toValue (o.getD []) = o := by
  cases o with
  | none => rfl
  | some a =>
      simp only [toFieldOk, decide_eq_true_eq] at h
      have hne : a ≠ [] := by
        intro hc
        rw [hc] at h
        simp at h
      simp [toValue, Option.getD, List.isEmpty_iff, hne]

/-- A `vFieldOk` value (defaulted to zero) passes the y-parity check. -/
theorem yParity_getD {o : Option Nat} (h : vFieldOk o = true) :
    yParityInvalid (some (o.getD 0)) = false := by
  cases o with
  | none => decide
  | some vv =>
      simp only [vFieldOk, Bool.or_eq_true, decide_eq_true_eq] at h
      rcases h with rfl | rfl <;> decide

/-- An `sigFieldOk`-bounded `s` passes the high-s check. -/
theorem highS_of_ok {o : Option Nat}
    (h : sigFieldOk SECP256K1_ORDER_DIV_2 o = true) : highS o = false := by
  cases o with
  | none => rfl
  | some sv =>
      simp only [sigFieldOk, Bool.and_eq_true, decide_eq_true_eq] at h
      exact decide_eq_false (by omega)

/-- `rlpStrs` on mapped byte strings succeeds verbatim. -/
theorem rlpStrs_map_str (l : List (List Nat)) : rlpStrs (l.map .str) = .ok l := by
  induction l with
  | nil => rfl
  | cons bs rest ih =>
      simp only [List.map_cons]
      unfold rlpStrs
      simp only [rlpAsStr, ok_bind, ih]

/-- `rlpAccessItems` on a mapped access list succeeds verbatim. -/
theorem rlpAccessItems_map (al : List (List Nat × List (List Nat))) :
    rlpAccessItems (al.map fun p => .list [.str p.1, .list (p.2.map .str)]) =
      .ok al := by
  induction al with
  | nil => rfl
  | cons p rest ih =>
      obtain ⟨a, ks⟩ := p
      simp only [List.map_cons]
      unfold rlpAccessItems
      simp only [rlpAccessItem, rlpStrs_map_str, ok_bind, ih]

/-- 32-byte slots pass `verifySlots`. -/
theorem verifySlots_all {ks : List (List Nat)}
    (h : ks.all (fun k => decide (k.length = 32)) = true) :
    verifySlots ks = .ok () := by
  induction ks with
  | nil => rfl
  | cons k rest ih =>
      simp only [List.all_cons, Bool.and_eq_true, decide_eq_true_eq] at h
      unfold verifySlots
      rw [if_neg (by simp [h.1])]
      exact ih (by simpa using h.2)

/-- A well-shaped access list passes `verifyAccessList`. -/
theorem verifyAccessList_all {al : List (List Nat × List (List Nat))}
    (h : accessListOk al = true) : verifyAccessList al = .ok () := by
  induction al with
  | nil => rfl
  | cons p rest ih =>
      obtain ⟨a, ks⟩ := p
      unfold accessListOk at h
      simp only [List.all_cons, Bool.and_eq_true, decide_eq_true_eq] at h
      obtain ⟨⟨ha, hks⟩, hrest⟩ := h
      unfold verifyAccessList
      rw [if_neg (by simp [ha])]
      rw [verifySlots_all (by simpa using hks)]
      simp only [ok_bind]
      exact ih (by unfold accessListOk; simpa using hrest)

/-- Well-shaped versioned hashes pass the constructor's hash loop. -/
theorem validateVersionedHashes_all {version : Nat} {hs : List (List Nat)}
    (h : hashListOk version hs = true) :
    validateVersionedHashes version hs = .ok () := by
  induction hs with
  | nil => rfl
  | cons x rest ih =>
      unfold hashListOk at h
      simp only [List.all_cons, Bool.and_eq_true, decide_eq_true_eq] at h
      obtain ⟨⟨hl, hh⟩, hrest⟩ := h
      have hne : x.isEmpty = false := by
        cases x
        · simp at hl
        · rfl
      unfold validateVersionedHashes
      rw [if_neg (by simp [hl])]
      rw [if_neg (by
        rintro (hc | hc)
        · exact hc hh
        · rw [hne] at hc
          exact Bool.false_ne_true hc)]
      exact ih (by unfold hashListOk; simpa using hrest)

/-- `fromValuesArray` on an explicit 14-value list, reduced past the shape
checks and per-position reads. -/
theorem fromValuesArray_explicit (P : BlobTxParams)
    (c n mp mf g t vl d mfd vB rB sB : List Nat) (al vh : List Rlp) :
    fromValuesArray P
      [.str c, .str n, .str mp, .str mf, .str g, .str t, .str vl, .str d,
       .list al, .str mfd, .list vh, .str vB, .str rB, .str sB] =
    (rlpAccessItems al >>= fun accessList =>
     rlpStrs vh >>= fun versionedHashes =>
     eguard (!(noLeadingZero n && noLeadingZero mp && noLeadingZero mf &&
         noLeadingZero g && noLeadingZero vl && noLeadingZero mfd &&
         noLeadingZero vB && noLeadingZero rB && noLeadingZero sB) = true)
       "values provided have leading zeros" >>= fun _ =>
     blobTxConstructor P
       { chainId := beToNat c, nonce := n, maxPriorityFeePerGas := mp,
         maxFeePerGas := mf, gasLimit := g, «to» := t, value := vl, data := d,
         accessList := accessList, maxFeePerDataGas := mfd,
         versionedHashes := versionedHashes,
         v := some (beToNat vB), r := rB, s := sB,
         blobs := none, kzgCommitments := none, kzgProofs := none }) := rfl

/-- `fromValuesArray` applied to `raw()` of a round-trip-ready transaction
reconstructs it, with an absent `v` defaulted to zero. -/
theorem fromValuesArray_blobTxRaw (P : BlobTxParams) (tx : BlobTx)
    (h : txRoundTripReady P tx = true) :
    fromValuesArray P (blobTxRaw tx) = .ok { tx with v := some (tx.v.getD 0) } := by
  simp only [txRoundTripReady, Bool.and_eq_true, decide_eq_true_eq] at h
  obtain ⟨⟨⟨⟨⟨⟨⟨⟨⟨⟨⟨⟨⟨⟨⟨⟨⟨⟨⟨⟨hchain, h1559⟩, h4844⟩, hto⟩, hnonce⟩, hgasl⟩,
    hvalue⟩, hmf⟩, hmpf⟩, hprod⟩, hfeeord⟩, hv⟩, hr⟩, hs⟩, hal⟩, hhash⟩,
    hcount⟩, hblobs⟩, hcomms⟩, hproofs⟩, hgood⟩ := h
  unfold blobTxRaw
  rw [fromValuesArray_explicit]
  simp only [rlpAccessItems_map, rlpStrs_map_str, ok_bind]
  refine eguard_bind_ok.mpr ⟨?_, ?_⟩
  · simp [noLeadingZero_natToBE, noLeadingZero_optBE]
  unfold blobTxConstructor
  refine eguard_bind_ok.mpr ⟨?_, ?_⟩
  · rcases hcase : tx.«to» with _ | a
    · simp
    · rw [hcase] at hto
      simp only [toFieldOk, decide_eq_true_eq] at hto
      simp [hto]
  refine eguard_bind_ok.mpr ⟨?_, ?_⟩
  · simp only [beToNat_natToBE, sigValue_optBE hr, sigValue_optBE hs]
    push_neg
    exact ⟨hnonce, hgasl, hvalue, sigFieldOk_getD_le hr,
      le_trans (sigFieldOk_getD_le hs) (by decide)⟩
  refine eguard_bind_ok.mpr ⟨by simp [h1559], ?_⟩
  refine eguard_bind_ok.mpr ⟨by simp [h4844], ?_⟩
  rw [verifyAccessList_all hal]
  simp only [ok_bind]
  refine eguard_bind_ok.mpr ⟨?_, ?_⟩
  · simp only [beToNat_natToBE]
    push_neg
    exact ⟨hmf, hmpf⟩
  refine eguard_bind_ok.mpr ⟨?_, ?_⟩
  · simp only [beToNat_natToBE]
    exact not_lt.mpr hprod
  refine eguard_bind_ok.mpr ⟨?_, ?_⟩
  · simp only [beToNat_natToBE]
    exact not_lt.mpr hfeeord
  refine eguard_bind_ok.mpr ⟨?_, ?_⟩
  · rw [beToNat_optBE]
    simp [yParity_getD hv]
  refine eguard_bind_ok.mpr ⟨?_, ?_⟩
  · rw [sigValue_optBE hs]
    simp [highS_of_ok hs]
  rw [validateVersionedHashes_all hhash]
  simp only [ok_bind]
  refine eguard_bind_ok.mpr ⟨not_lt.mpr hcount, ?_⟩
  simp [beToNat_natToBE, beToNat_optBE, sigValue_optBE hr, sigValue_optBE hs,
    toValue_getD hto, BlobTx.mk.injEq, hchain, hblobs, hcomms, hproofs]

/-- Decoding inverts encoding for every well-sized RLP item. -/
theorem rlpDecode_rlpEncode (r : Rlp) (h : rlpGoodLens r = true) :
    rlpDecode (rlpEncode r) = some r := by
  have hsize : rlpSize r ≤ 2 * (rlpEncode r).length :=
    (rlpSize_le_aux (rlpSize r)).1 r (le_refl _)
  unfold rlpDecode
  have := (rlpDecode_roundtrip_aux (rlpSize r)).1 r (le_refl _) h
    (2 * (rlpEncode r).length + 1) (by omega) []
  rw [List.append_nil] at this
  rw [this]

set_option maxRecDepth 40000 in
/-- C6, counterexample: for the unsigned sample blob transaction (absent
`v`, `r`, `s`), `fromSerializedTx(serialize(t))` succeeds but returns a
transaction whose `v` is `0n` rather than absent (`bytesToBigInt` of the
empty rendered `v` byte string is `0`, and `fromValuesArray` stores it via
`v !== undefined`, i.e. 14-value path), so `decode(encode(t)) == t`
fails for unsigned transactions. -/
theorem c6_counterexample :
    fromSerializedTx txParamsW (blobTxSerialize txUnsignedW) =
      .ok { txUnsignedW with v := some 0 } ∧
    ({ txUnsignedW with v := some 0 } : BlobTx) ≠ txUnsignedW := by
  decide

/-- C6 (amended): for every round-trip-ready blob transaction (fields
within the constructor's bounds, `to` absent or 20 bytes, `r`/`s` absent
or positive and bounded, `v` absent or a valid y-parity, well-shaped
access list and versioned hashes, no sidecar fields, RLP payload lengths
below `2^64`), `fromSerializedTx(serialize(t))` succeeds and reconstructs
`t` field for field except that an absent `v` reads back as `0n`; for
signed transactions (`v` present) the round trip is exact. -/
theorem c6_fromSerializedTx (P : BlobTxParams) (tx : BlobTx)
    (h : txRoundTripReady P tx = true) :
    fromSerializedTx P (blobTxSerialize tx) =
      .ok { tx with v := some (tx.v.getD 0) } := by
  have hgood : rlpGoodLens (.list (blobTxRaw tx)) = true := by
    simp only [txRoundTripReady, Bool.and_eq_true] at h
    exact h.2
  unfold blobTxSerialize fromSerializedTx
  show (match rlpDecode (rlpEncode (Rlp.list (blobTxRaw tx))) with
        | none => Except.error "invalid RLP"
        | some (Rlp.str _) =>
            Except.error "Invalid serialized tx input: must be array"
        | some (Rlp.list values) => fromValuesArray P values) =
      Except.ok { tx with v := some (tx.v.getD 0) }
  rw [rlpDecode_rlpEncode _ hgood]
  exact fromValuesArray_blobTxRaw P tx h

/-- `Option.or` of a present value, by computation. -/
theorem some_or_eq {α : Type} (a : α) (o : Option α) : (some a).or o = some a := rfl

/-- The last element of a cons, as an `Option.or` of the tail's last. -/
theorem getLast?_cons_or {α : Type} (a : α) (l : List α) :
    (a :: l).getLast? = l.getLast?.or (some a) := by
  induction l generalizing a with
  | nil => rfl
  | cons b l' ih =>
      rw [List.getLast?_cons_cons, ih, Option.or_assoc, some_or_eq]

/-- A successful `paramByEIP` returns exactly the database's entry for the
parameter. -/
theorem paramByEIP_ok {table : EIPTable} {topic name : String} {e : Nat}
    {r : Option Nat} (h : paramByEIP table topic name e = .ok r) :
    r = eipValue table topic name e := by
  unfold paramByEIP at h
  split at h
  · exact Except.noConfusion h
  · rename_i sp hsp
    split at h
    · exact Except.noConfusion h
    · rename_i entries hent
      simp only [Except.ok.injEq] at h
      subst h
      simp [eipValue, hsp, hent]

/-- The EIP fold of an EIP-referencing hardfork file keeps the last value
its EIPs define, defaulting to the incoming accumulator. -/
theorem hfEips_fold_spec (table : EIPTable) (topic name : String) :
    ∀ (es : List Nat) (acc w : Option Nat),
      es.foldlM
        (fun acc e => do
          let r ← paramByEIP table topic name e
          pure (match r with | some v => some v | none => acc))
        acc = .ok w →
      w = ((es.filterMap (eipValue table topic name)).getLast?).or acc := by
  intro es
  induction es with
  | nil =>
      intro acc w h
      simp only [List.foldlM_nil, pure, Except.pure, Except.ok.injEq] at h
      simp [← h]
  | cons e rest ih =>
      intro acc w h
      rw [List.foldlM_cons, ebind_ok] at h
      obtain ⟨a, hf, hrest⟩ := h
      rw [ebind_ok] at hf
      obtain ⟨r, hpe, ha⟩ := hf
      have hr := paramByEIP_ok hpe
      cases r with
      | none =>
          have ha' : acc = a := by simpa [pure, Except.pure] using ha
          subst ha'
          have hw := ih acc w hrest
          rw [List.filterMap_cons, ← hr]
          simpa using hw
      | some x =>
          have ha' : (some x : Option Nat) = a := by
            simpa [pure, Except.pure] using ha
          subst ha'
          have hw := ih (some x) w hrest
          rw [List.filterMap_cons, ← hr]
          simpa [getLast?_cons_or, Option.or_assoc, some_or_eq] using hw

/-- One hardfork file updates the tracked value to the value it sets, when
it sets one. -/
theorem hfStepValue_spec {table : EIPTable} {topic name : String} {sp : HFSpec}
    {value w : Option Nat} (h : hfStepValue table topic name sp value = .ok w) :
    w = (hfSpecValue table topic name sp).or value := by
  cases sp with
  | eips es =>
      unfold hfStepValue at h
      have := hfEips_fold_spec table topic name es value w h
      simpa [hfSpecValue] using this
  | params topics =>
      cases hent : topics.lookup topic with
      | none =>
          have hstep : hfStepValue table topic name (.params topics) value =
              .error "Topic not defined" := by
            simp only [hfStepValue]
            rw [hent]
          rw [hstep] at h
          exact Except.noConfusion h
      | some entries =>
          have hstep : hfStepValue table topic name (.params topics) value =
              .ok (match entries.lookup name with
                   | some v => some v | none => value) := by
            simp only [hfStepValue]
            rw [hent]
          rw [hstep] at h
          simp only [Except.ok.injEq] at h
          simp only [hfSpecValue]
          rw [hent]
          show w = (entries.lookup name).or value
          cases hn : entries.lookup name with
          | none =>
              rw [hn] at h
              show w = value
              simpa using h.symm
          | some x =>
              rw [hn] at h
              show w = some x
              simpa using h.symm

/-- The hardfork walk returns the last value set by the files up to and
including the requested hardfork, over the incoming accumulator. -/
theorem paramByHardfork_go_spec (table : EIPTable) (topic name hardfork : String) :
    ∀ (changes : List (String × HFSpec)) (value : Option Nat) (v : Nat),
      paramByHardfork.go table topic name hardfork changes value = .ok v →
      v = ((((takeThrough changes hardfork).filterMap
            (fun p => hfSpecValue table topic name p.2)).getLast?).or value).getD 0 := by
  intro changes
  induction changes with
  | nil =>
      intro value v h
      simp only [paramByHardfork.go, Except.ok.injEq] at h
      simp [takeThrough, ← h]
  | cons p rest ih =>
      obtain ⟨n, sp⟩ := p
      intro value v h
      simp only [paramByHardfork.go] at h
      rw [ebind_ok] at h
      obtain ⟨value', hstep, hrest⟩ := h
      have hval := hfStepValue_spec hstep
      unfold takeThrough
      by_cases hn : n = hardfork
      · rw [if_pos hn] at hrest
        rw [if_pos hn]
        simp only [Except.ok.injEq] at hrest
        subst hrest
        rw [hval]
        cases hsv : hfSpecValue table topic name sp <;> simp [hsv]
      · rw [if_neg hn] at hrest
        rw [if_neg hn]
        have hrec := ih value' v hrest
        rw [hrec, hval]
        cases hsv : hfSpecValue table topic name sp with
        | none => simp [hsv]
        | some x =>
            simp [hsv, getLast?_cons_or, Option.or_assoc, some_or_eq]

/-- The active-EIP walk of `Common.param`: the first active EIP defining
the parameter wins, else the hardfork fallback decides. -/
theorem commonParam_go_spec (changes : List (String × HFSpec)) (table : EIPTable)
    (hardfork topic name : String) :
    ∀ (es : List Nat) (v : Nat),
      commonParam.go changes table hardfork topic name es = .ok v →
      v = (match es.findSome? (eipValue table topic name) with
           | some w => w
           | none => (((takeThrough changes hardfork).filterMap
               (fun p => hfSpecValue table topic name p.2)).getLast?).getD 0) := by
  intro es
  induction es with
  | nil =>
      intro v h
      simp only [commonParam.go] at h
      unfold paramByHardfork at h
      have := paramByHardfork_go_spec table topic name hardfork changes none v h
      simpa using this
  | cons e rest ih =>
      intro v h
      simp only [commonParam.go] at h
      rw [ebind_ok] at h
      obtain ⟨r, hpe, hbr⟩ := h
      have hr := paramByEIP_ok hpe
      subst hr
      rw [List.findSome?_cons]
      cases hre : eipValue table topic name e with
      | some w =>
          rw [hre] at hbr
          have hbr' : w = v := by simpa using hbr
          simp [hbr'.symm]
      | none =>
          rw [hre] at hbr
          have hbr' : commonParam.go changes table hardfork topic name rest = .ok v := hbr
          have := ih v hbr'
          simpa using this

/-- C3: whenever `Common.param` succeeds, its value is the one given by the
spec's resolution order — the first active EIP (in the user-supplied
order) defining the parameter; else the value set by the latest hardfork
file up to and including the current hardfork that changes the parameter;
else `0`. -/
theorem c3_param (eipsActive : List Nat) (changes : List (String × HFSpec))
    (table : EIPTable) (hardfork topic name : String) (v : Nat)
    (h : commonParam eipsActive changes table hardfork topic name = .ok v) :
    v = specParamResolution eipsActive changes table hardfork topic name := by
  unfold commonParam at h
  have := commonParam_go_spec changes table hardfork topic name eipsActive v h
  simpa [specParamResolution] using this

/-- C3, witness: on the sample chain at Berlin (no active user EIPs), the
`basefee` parameter resolves to the Chainstart file's value 2 both in the
code and in the spec-side description. -/
theorem c3_witness :
    specParamResolution [] changesW eipTableW "berlin" "gasPrices" "basefee" = 2 ∧
    commonParam [] changesW eipTableW "berlin" "gasPrices" "basefee" = .ok 2 :=
  ⟨(c3_param [] changesW eipTableW "berlin" "gasPrices" "basefee" 2 (by decide)).symm,
   by decide⟩

/-- `assocSet` stores the value at the key. -/
theorem lookup_assocSet_eq {α β : Type} [DecidableEq α] (m : List (α × β))
    (k : α) (v : β) : (assocSet m k v).lookup k = some v := by
  induction m with
  | nil => simp [assocSet, List.lookup]
  | cons p rest ih =>
      obtain ⟨k', v'⟩ := p
      by_cases h : k' = k
      · subst h
        simp [assocSet, List.lookup]
      · have hb : (k == k') = false := by
          simp only [beq_eq_false_iff_ne]
          exact Ne.symm h
        simp [assocSet, List.lookup, h, ih, hb]

/-- `assocSet` leaves other keys alone. -/
theorem lookup_assocSet_ne {α β : Type} [DecidableEq α] (m : List (α × β))
    (k k' : α) (v : β) (h : k' ≠ k) :
    (assocSet m k v).lookup k' = m.lookup k' := by
  have hb : (k' == k) = false := by
    simp only [beq_eq_false_iff_ne]
    exact h
  induction m with
  | nil => simp [assocSet, List.lookup, hb]
  | cons p rest ih =>
      obtain ⟨k0, v0⟩ := p
      by_cases h0 : k0 = k
      · subst h0
        simp [assocSet, List.lookup, hb]
      · by_cases h1 : k' = k0
        · subst h1
          simp [assocSet, List.lookup, h0]
        · have hb1 : (k' == k0) = false := by
            simp only [beq_eq_false_iff_ne]
            exact h1
          simp [assocSet, List.lookup, h0, hb1, ih]

/-- Reading back the account just written. -/
theorem getAccount_putAccount_eq (w : World) (a : Addr) (acct : Account) :
    (w.putAccount a acct).getAccount a = some acct := by
  simp [World.putAccount, World.getAccount, lookup_assocSet_eq]

/-- Writing one account leaves the others alone. -/
theorem getAccount_putAccount_ne (w : World) (a c : Addr) (acct : Account)
    (h : c ≠ a) : (w.putAccount a acct).getAccount c = w.getAccount c := by
  simp [World.putAccount, World.getAccount, lookup_assocSet_ne _ _ _ _ h]

/-- A balance-only rewrite of any account (reading the target through
`getAccount` first, as both `_reduceSenderBalance` and `_addToBalance` do)
preserves every account's nonce reading. -/
theorem nonce_after_balance_write (w : World) (a c : Addr) (b n : Nat)
    (h : (w.getAccount c).map Account.nonce = some n) :
    ((w.putAccount a { (w.getAccount a).getD {} with balance := b }).getAccount c).map
      Account.nonce = some n := by
  by_cases hac : c = a
  · subst hac
    cases hga : w.getAccount c with
    | none => rw [hga] at h; simp at h
    | some acct =>
        rw [hga] at h
        have hn : acct.nonce = n := by simpa using h
        rw [getAccount_putAccount_eq]
        simp [hga, hn]
  · rw [getAccount_putAccount_ne _ _ _ _ hac]
    exact h

/-- The world `runInterpreter` returns is the interpreter loop's world. -/
theorem runInterpreter_world (P : EvmParams) (m : Msg) (w : World) :
    (runInterpreter P m w).2 = (P.interp m w).2 := by
  unfold runInterpreter
  rcases h : P.interp m w with ⟨o, w2⟩
  simp

/-- A successful `_reduceSenderBalance` only rewrites an account: the
journal stack and transient depth are untouched. -/
theorem rsb_stacks {acct : Account} {m : Msg} {w w' : World}
    (h : reduceSenderBalance acct m w = .ok w') :
    w'.stateCps = w.stateCps ∧ w'.tDepth = w.tDepth := by
  unfold reduceSenderBalance at h
  split at h
  · exact Except.noConfusion h
  · simp only [Except.ok.injEq] at h
    subst h
    exact ⟨rfl, rfl⟩

/-- A successful `_addToBalance` only rewrites an account. -/
theorem atb_stacks {acct : Account} {ta : Addr} {m : Msg} {w w' : World}
    (h : addToBalance acct ta m w = .ok w') :
    w'.stateCps = w.stateCps ∧ w'.tDepth = w.tDepth := by
  unfold addToBalance at h
  split at h
  · exact Except.noConfusion h
  · simp only [Except.ok.injEq] at h
    subst h
    exact ⟨rfl, rfl⟩

/-- `_reduceSenderBalance`, as `_executeCall` and `_executeCreate` invoke
it (on the account just read from the sender address), preserves every
account's nonce reading. -/
theorem rsb_nonce {a c : Addr} {m : Msg} {w w' : World} {n : Nat}
    (h : reduceSenderBalance ((w.getAccount a).getD {}) m w = .ok w')
    (ha : m.authcallOrigin.getD m.caller = a)
    (hn : (w.getAccount c).map Account.nonce = some n) :
    (w'.getAccount c).map Account.nonce = some n := by
  unfold reduceSenderBalance at h
  split at h
  · exact Except.noConfusion h
  · simp only [Except.ok.injEq] at h
    subst h
    rw [ha]
    exact nonce_after_balance_write w a c _ n hn

/-- `_addToBalance`, as `_executeCall` invokes it (on the account just read
from the callee address), preserves every account's nonce reading. -/
theorem atb_nonce_self {ta c : Addr} {m : Msg} {w w' : World} {n : Nat}
    (h : addToBalance ((w.getAccount ta).getD {}) ta m w = .ok w')
    (hn : (w.getAccount c).map Account.nonce = some n) :
    (w'.getAccount c).map Account.nonce = some n := by
  unfold addToBalance at h
  split at h
  · exact Except.noConfusion h
  · simp only [Except.ok.injEq] at h
    subst h
    exact nonce_after_balance_write w ta c _ n hn

/-- `_addToBalance` at an address other than `c` preserves `c`'s nonce
reading, for any passed account value. -/
theorem atb_nonce_ne {acct : Account} {ta c : Addr} {m : Msg} {w w' : World}
    {n : Nat} (h : addToBalance acct ta m w = .ok w') (hne : c ≠ ta)
    (hn : (w.getAccount c).map Account.nonce = some n) :
    (w'.getAccount c).map Account.nonce = some n := by
  unfold addToBalance at h
  split at h
  · exact Except.noConfusion h
  · simp only [Except.ok.injEq] at h
    subst h
    rw [getAccount_putAccount_ne _ _ _ _ hne]
    exact hn

/-- The balance moves of `_executeCall` preserve the journal stack and
transient depth. -/
theorem callBalanceSteps_stacks (m : Msg) (w : World) :
    ((callBalanceSteps m w).2).stateCps = w.stateCps ∧
    ((callBalanceSteps m w).2).tDepth = w.tDepth := by
  unfold callBalanceSteps
  cases hdel : m.delegatecall with
  | true => simp [hdel]
  | false =>
      simp only [hdel, Bool.false_eq_true, not_false_eq_true, if_true, ite_true]
      cases hrsb : reduceSenderBalance
          ((w.getAccount (m.authcallOrigin.getD m.caller)).getD {}) m w with
      | error e =>
          simp only [hrsb]
          cases hatb : addToBalance ((w.getAccount (m.«to».getD 0)).getD {})
              (m.«to».getD 0) m w with
          | error e2 => simp [hatb]
          | ok w2 => simpa [hatb] using atb_stacks hatb
      | ok w1 =>
          simp only [hrsb]
          have hw1 := rsb_stacks hrsb
          cases hatb : addToBalance ((w1.getAccount (m.«to».getD 0)).getD {})
              (m.«to».getD 0) m w1 with
          | error e2 => simpa [hatb] using hw1
          | ok w2 =>
              have hw2 := atb_stacks hatb
              simp only [hatb]
              exact ⟨hw2.1.trans hw1.1, hw2.2.trans hw1.2⟩

/-- The balance moves of `_executeCall` preserve every account's nonce
reading. -/
theorem callBalanceSteps_nonce (m : Msg) (w : World) (c : Addr) (n : Nat)
    (hn : (w.getAccount c).map Account.nonce = some n) :
    (((callBalanceSteps m w).2).getAccount c).map Account.nonce = some n := by
  unfold callBalanceSteps
  cases hdel : m.delegatecall with
  | true => simpa [hdel] using hn
  | false =>
      simp only [hdel, Bool.false_eq_true, not_false_eq_true, if_true, ite_true]
      cases hrsb : reduceSenderBalance
          ((w.getAccount (m.authcallOrigin.getD m.caller)).getD {}) m w with
      | error e =>
          simp only [hrsb]
          cases hatb : addToBalance ((w.getAccount (m.«to».getD 0)).getD {})
              (m.«to».getD 0) m w with
          | error e2 => simpa [hatb] using hn
          | ok w2 => simpa [hatb] using atb_nonce_self hatb hn
      | ok w1 =>
          simp only [hrsb]
          have hn1 : (w1.getAccount c).map Account.nonce = some n :=
            rsb_nonce hrsb rfl hn
          cases hatb : addToBalance ((w1.getAccount (m.«to».getD 0)).getD {})
              (m.«to».getD 0) m w1 with
          | error e2 => simpa [hatb] using hn1
          | ok w2 => simpa [hatb] using atb_nonce_self hatb hn1

/-- `_executeCall` preserves the journal stack and transient depth whenever
the interpreter loop does. -/
theorem callExecTail_stacks (P : EvmParams) (m m1 : Msg)
    (err : Option EvmErr) (w2 : World)
    (hstack : ∀ mm ww, ((P.interp mm ww).2).stateCps = ww.stateCps ∧
      ((P.interp mm ww).2).tDepth = ww.tDepth) :
    ((callExecTail P m m1 err w2).2).stateCps = w2.stateCps ∧
    ((callExecTail P m m1 err w2).2).tDepth = w2.tDepth := by
  unfold callExecTail
  split
  · exact ⟨rfl, rfl⟩
  · split
    · exact ⟨rfl, rfl⟩
    · rw [runInterpreter_world]
      exact hstack _ _

/-- `_executeCall` preserves the journal stack and transient depth whenever
the interpreter loop does. -/
theorem executeCall_stacks (P : EvmParams) (m : Msg) (w : World)
    (hstack : ∀ mm ww, ((P.interp mm ww).2).stateCps = ww.stateCps ∧
      ((P.interp mm ww).2).tDepth = ww.tDepth) :
    ((executeCall P m w).2).stateCps = w.stateCps ∧
    ((executeCall P m w).2).tDepth = w.tDepth := by
  unfold executeCall
  split
  next err w2 heq =>
    have h1 := callExecTail_stacks P m (loadCode P m w2) err w2 hstack
    have h2 := callBalanceSteps_stacks m w
    rw [heq] at h2
    exact ⟨h1.1.trans h2.1, h1.2.trans h2.2⟩

/-- `_executeCall` preserves every account's nonce reading whenever the
interpreter loop does. -/
theorem callExecTail_nonce (P : EvmParams) (m m1 : Msg) (err : Option EvmErr)
    (w2 : World) (c : Addr) (n : Nat)
    (hnint : ∀ mm ww, (((P.interp mm ww).2).getAccount c).map Account.nonce =
      ((ww.getAccount c).map Account.nonce))
    (hn : (w2.getAccount c).map Account.nonce = some n) :
    (((callExecTail P m m1 err w2).2).getAccount c).map Account.nonce = some n := by
  unfold callExecTail
  split
  · exact hn
  · split
    · exact hn
    · rw [runInterpreter_world, hnint]
      exact hn

/-- `_executeCall` preserves every account's nonce reading whenever the
interpreter loop does. -/
theorem executeCall_nonce (P : EvmParams) (m : Msg) (w : World) (c : Addr)
    (n : Nat)
    (hnint : ∀ mm ww, (((P.interp mm ww).2).getAccount c).map Account.nonce =
      ((ww.getAccount c).map Account.nonce))
    (hn : (w.getAccount c).map Account.nonce = some n) :
    (((executeCall P m w).2).getAccount c).map Account.nonce = some n := by
  unfold executeCall
  split
  next err w2 heq =>
    have h2 := callBalanceSteps_nonce m w c n hn
    rw [heq] at h2
    exact callExecTail_nonce P m (loadCode P m w2) err w2 c n hnint h2

/-- The code-deposit stage preserves the journal stack and transient
depth. -/
theorem createFinish_stacks (P : EvmParams) (m2 : Msg) (toAddr : Addr)
    (result0 : ExecResult) (w4 : World) :
    ((createFinish P m2 toAddr result0 w4).2).stateCps = w4.stateCps ∧
    ((createFinish P m2 toAddr result0 w4).2).tDepth = w4.tDepth := by
  unfold createFinish
  split
  · exact ⟨rfl, rfl⟩
  · split
    · exact ⟨rfl, rfl⟩
    · exact ⟨rfl, rfl⟩

/-- The code-deposit stage preserves the nonce reading of addresses other
than the created one. -/
theorem createFinish_nonce (P : EvmParams) (m2 : Msg) (toAddr : Addr)
    (result0 : ExecResult) (w4 : World) (c : Addr) (n : Nat)
    (hne : c ≠ toAddr)
    (hn : (w4.getAccount c).map Account.nonce = some n) :
    (((createFinish P m2 toAddr result0 w4).2).getAccount c).map Account.nonce =
      some n := by
  unfold createFinish
  split
  · exact hn
  · split
    · rw [getAccount_putAccount_ne _ _ _ _ hne]
      exact hn
    · exact hn

/-- The create tail preserves the journal stack and transient depth
whenever the interpreter loop does. -/
theorem createTail_stacks (P : EvmParams) (m2 : Msg) (toAddr : Addr)
    (err : Option EvmErr) (w3 : World)
    (hstack : ∀ mm ww, ((P.interp mm ww).2).stateCps = ww.stateCps ∧
      ((P.interp mm ww).2).tDepth = ww.tDepth) :
    ((createTail P m2 toAddr err w3).2).stateCps = w3.stateCps ∧
    ((createTail P m2 toAddr err w3).2).tDepth = w3.tDepth := by
  unfold createTail
  split
  · exact ⟨rfl, rfl⟩
  · have h1 := createFinish_stacks P m2 toAddr (runInterpreter P m2 w3).1
      (runInterpreter P m2 w3).2
    rw [runInterpreter_world] at h1
    obtain ⟨ha, hb⟩ := hstack m2 w3
    exact ⟨h1.1.trans ha, h1.2.trans hb⟩

/-- The create tail preserves the nonce reading of addresses other than
the created one, whenever the interpreter loop does. -/
theorem createTail_nonce (P : EvmParams) (m2 : Msg) (toAddr : Addr)
    (err : Option EvmErr) (w3 : World) (c : Addr) (n : Nat)
    (hnint : ∀ mm ww, (((P.interp mm ww).2).getAccount c).map Account.nonce =
      ((ww.getAccount c).map Account.nonce))
    (hne : c ≠ toAddr)
    (hn : (w3.getAccount c).map Account.nonce = some n) :
    (((createTail P m2 toAddr err w3).2).getAccount c).map Account.nonce =
      some n := by
  unfold createTail
  split
  · exact hn
  · refine createFinish_nonce P m2 toAddr _ _ c n hne ?_
    rw [runInterpreter_world, hnint]
    exact hn

/-- `_executeCreate` preserves the journal stack and transient depth
whenever the interpreter loop does. -/
theorem executeCreate_stacks {P : EvmParams} {m : Msg} {w : World}
    {r : EVMRes} {w' : World}
    (hstack : ∀ mm ww, ((P.interp mm ww).2).stateCps = ww.stateCps ∧
      ((P.interp mm ww).2).tDepth = ww.tDepth)
    (h : executeCreate P m w = .ok (r, w')) :
    w'.stateCps = w.stateCps ∧ w'.tDepth = w.tDepth := by
  unfold executeCreate at h
  rw [ebind_ok] at h
  obtain ⟨w1, hrsb, hpure⟩ := h
  have hw1 := rsb_stacks hrsb
  have hbody : createBody P m w1 = (r, w') := by
    simpa [pure, Except.pure] using hpure
  have hcb : ((createBody P m w1).2).stateCps = w1.stateCps ∧
      ((createBody P m w1).2).tDepth = w1.tDepth := by
    unfold createBody
    split
    · exact ⟨rfl, rfl⟩
    · unfold createWithAddr
      split
      · exact ⟨rfl, rfl⟩
      · unfold createAfterCollision
        split
        next w3 hatb =>
          have h3 := atb_stacks hatb
          exact ⟨(createTail_stacks P _ _ none w3 hstack).1.trans h3.1,
            (createTail_stacks P _ _ none w3 hstack).2.trans h3.2⟩
        next e hatb =>
          exact createTail_stacks P _ _ (some e) _ hstack
  rw [hbody] at hcb
  exact ⟨hcb.1.trans hw1.1, hcb.2.trans hw1.2⟩

/-- `_executeCreate` preserves the nonce reading of any address the
address generator never returns (in particular the caller), whenever the
interpreter loop does and the message carries no authcall origin. -/
theorem executeCreate_nonce {P : EvmParams} {m : Msg} {w : World}
    {r : EVMRes} {w' : World} {c : Addr} {n : Nat}
    (hnint : ∀ mm ww, (((P.interp mm ww).2).getAccount c).map Account.nonce =
      ((ww.getAccount c).map Account.nonce))
    (hgen : ∀ aa nn ss dd, P.genAddr aa nn ss dd ≠ c)
    (hauth : m.authcallOrigin = none)
    (hn : (w.getAccount c).map Account.nonce = some n)
    (h : executeCreate P m w = .ok (r, w')) :
    (w'.getAccount c).map Account.nonce = some n := by
  unfold executeCreate at h
  rw [ebind_ok] at h
  obtain ⟨w1, hrsb, hpure⟩ := h
  have hn1 : (w1.getAccount c).map Account.nonce = some n :=
    rsb_nonce hrsb (by rw [hauth]; rfl) hn
  have hbody : createBody P m w1 = (r, w') := by
    simpa [pure, Except.pure] using hpure
  have hcb : (((createBody P m w1).2).getAccount c).map Account.nonce = some n := by
    unfold createBody
    split
    · exact hn1
    · unfold createWithAddr
      split
      · exact hn1
      · unfold createAfterCollision
        have hto : c ≠ P.genAddr m.caller
            (((w1.getAccount m.caller).getD {}).nonce - 1) m.salt m.data :=
          (hgen _ _ _ _).symm
        have hn2 : ((w1.putAccount
            (P.genAddr m.caller (((w1.getAccount m.caller).getD {}).nonce - 1)
              m.salt m.data)
            ((w1.getAccount
              (P.genAddr m.caller (((w1.getAccount m.caller).getD {}).nonce - 1)
                m.salt m.data)).getD {})).getAccount c).map Account.nonce = some n := by
          rw [getAccount_putAccount_ne _ _ _ _ hto]
          exact hn1
        split
        next w3 hatb =>
          exact createTail_nonce P _ _ none w3 c n hnint hto
            (atb_nonce_ne hatb hto hn2)
        next e hatb =>
          exact createTail_nonce P _ _ (some e) _ c n hnint hto hn2
  rw [hbody] at hcb
  exact hcb

/-- `runCallSetup` preserves the journal stack and transient depth. -/
theorem runCallSetup_stacks (P : EvmParams) (m : Msg) (w : World) :
    (((runCallSetup P m w).2).stateCps = w.stateCps) ∧
    (((runCallSetup P m w).2).tDepth = w.tDepth) := by
  unfold runCallSetup
  split
  next m1 w1 hsetup =>
    have hw1 : w1.stateCps = w.stateCps ∧ w1.tDepth = w.tDepth := by
      split at hsetup
      · injection hsetup with h1 h2
        subst h2
        exact ⟨rfl, rfl⟩
      · injection hsetup with h1 h2
        subst h2
        exact ⟨rfl, rfl⟩
    split
    · exact hw1
    · exact hw1

/-- At depth 0, `runCallSetup` increments the caller's nonce by one. -/
theorem runCallSetup_nonce (P : EvmParams) (m : Msg) (w : World)
    (hdepth : m.depth = 0) :
    (((runCallSetup P m w).2).getAccount m.caller).map Account.nonce =
      some (((w.getAccount m.caller).getD {}).nonce + 1) := by
  have hwarm : ∀ (ww : World) (a : Addr), (ww.addWarm a).getAccount = ww.getAccount :=
    fun _ _ => rfl
  unfold runCallSetup
  simp only [hdepth, if_true, ite_true, eq_self_iff_true]
  split
  · rw [hwarm, getAccount_putAccount_eq]
    rfl
  · rw [getAccount_putAccount_eq]
    rfl

/-- `runCallSetup` leaves the caller of the message unchanged. -/
theorem runCallSetup_caller (P : EvmParams) (m : Msg) (w : World) :
    ((runCallSetup P m w).1).caller = m.caller := by
  unfold runCallSetup
  split
  next m1 w1 hsetup =>
    have hm1 : m1 = m := by
      split at hsetup
      · injection hsetup with h1 h2
        exact h1.symm
      · injection hsetup with h1 h2
        exact h1.symm
    split
    · simp [hm1]
    · simp [hm1]

/-- `runCallSetup` leaves the authcall origin of the message unchanged. -/
theorem runCallSetup_authcall (P : EvmParams) (m : Msg) (w : World) :
    ((runCallSetup P m w).1).authcallOrigin = m.authcallOrigin := by
  unfold runCallSetup
  split
  next m1 w1 hsetup =>
    have hm1 : m1 = m := by
      split at hsetup
      · injection hsetup with h1 h2
        exact h1.symm
      · injection hsetup with h1 h2
        exact h1.symm
    split
    · simp [hm1]
    · simp [hm1]

/-- The checkpointed dispatch of `runCall`: its world carries one more
journal checkpoint (snapshotting the incoming state) and one more
transient bracket (with EIP-1153) than the incoming world. -/
theorem runCallExec_stacks {P : EvmParams} {m : Msg} {w : World}
    {res0 : EVMRes} {w3 : World}
    (hstack : ∀ mm ww, ((P.interp mm ww).2).stateCps = ww.stateCps ∧
      ((P.interp mm ww).2).tDepth = ww.tDepth)
    (h : runCallExec P m w = .ok (res0, w3)) :
    w3.stateCps = w.state :: w.stateCps ∧
    w3.tDepth = (if P.eip1153 then w.tDepth + 1 else w.tDepth) := by
  unfold runCallExec at h
  cases h1153 : P.eip1153 with
  | true =>
      simp only [h1153, ite_true, if_true] at h ⊢
      split at h
      · simp only [Except.ok.injEq] at h
        have := executeCall_stacks P m w.checkpoint.tCheckpoint hstack
        have h2 : (executeCall P m w.checkpoint.tCheckpoint).2 = w3 := by rw [h]
        rw [h2] at this
        exact this
      · exact executeCreate_stacks hstack h
  | false =>
      simp only [h1153, ite_false, if_false, Bool.false_eq_true] at h ⊢
      split at h
      · simp only [Except.ok.injEq] at h
        have := executeCall_stacks P m w.checkpoint hstack
        have h2 : (executeCall P m w.checkpoint).2 = w3 := by rw [h]
        rw [h2] at this
        exact this
      · exact executeCreate_stacks hstack h

/-- The checkpointed dispatch preserves the nonce reading of any address
the address generator never returns, for an authcall-free message. -/
theorem runCallExec_nonce {P : EvmParams} {m : Msg} {w : World}
    {res0 : EVMRes} {w3 : World} {c : Addr} {n : Nat}
    (hnint : ∀ mm ww, (((P.interp mm ww).2).getAccount c).map Account.nonce =
      ((ww.getAccount c).map Account.nonce))
    (hgen : ∀ aa nn ss dd, P.genAddr aa nn ss dd ≠ c)
    (hauth : m.authcallOrigin = none)
    (hn : (w.getAccount c).map Account.nonce = some n)
    (h : runCallExec P m w = .ok (res0, w3)) :
    (w3.getAccount c).map Account.nonce = some n := by
  unfold runCallExec at h
  have hcp : ∀ ww : World, ww.checkpoint.getAccount c = ww.getAccount c :=
    fun _ => rfl
  have htcp : ∀ ww : World, ww.tCheckpoint.getAccount c = ww.getAccount c :=
    fun _ => rfl
  cases h1153 : P.eip1153 with
  | true =>
      simp only [h1153, ite_true, if_true] at h
      split at h
      · simp only [Except.ok.injEq] at h
        have := executeCall_nonce P m w.checkpoint.tCheckpoint c n hnint
          (by rw [htcp, hcp]; exact hn)
        have h2 : (executeCall P m w.checkpoint.tCheckpoint).2 = w3 := by rw [h]
        rw [h2] at this
        exact this
      · exact executeCreate_nonce hnint hgen hauth (by rw [htcp, hcp]; exact hn) h
  | false =>
      simp only [h1153, ite_false, if_false, Bool.false_eq_true] at h
      split at h
      · simp only [Except.ok.injEq] at h
        have := executeCall_nonce P m w.checkpoint c n hnint (by rw [hcp]; exact hn)
        have h2 : (executeCall P m w.checkpoint).2 = w3 := by rw [h]
        rw [h2] at this
        exact this
      · exact executeCreate_nonce hnint hgen hauth (by rw [hcp]; exact hn) h

/-- The epilogue of `runCall` on a non-`CODESTORE_OUT_OF_GAS` exception:
refunds, selfdestructs and created addresses are forfeited, logs cleared,
and the journal (and transient) checkpoints are reverted. -/
theorem runCallEpilogue_revert (P : EvmParams) (res0 : EVMRes) (w3 : World)
    (e : EvmErr) (herr : res0.execResult.exceptionError = some e)
    (hne : e ≠ EvmErr.CODESTORE_OUT_OF_GAS) :
    runCallEpilogue P res0 w3 =
      ({ res0 with execResult :=
          { res0.execResult with
              selfdestruct := []
              createdAddresses := []
              gasRefund := 0
              logs := [] } },
       if P.eip1153 then w3.revert.tPop else w3.revert) := by
  have hrev : ¬(P.hardfork = "chainstart" ∧ e = EvmErr.CODESTORE_OUT_OF_GAS) := by
    tauto
  unfold runCallEpilogue
  simp [herr, hne, hrev]

/-- The epilogue on a `CODESTORE_OUT_OF_GAS` exception outside Chainstart:
refunds kept, logs cleared, checkpoints reverted. -/
theorem runCallEpilogue_coog_revert (P : EvmParams) (res0 : EVMRes) (w3 : World)
    (herr : res0.execResult.exceptionError = some EvmErr.CODESTORE_OUT_OF_GAS)
    (hcs : P.hardfork ≠ "chainstart") :
    runCallEpilogue P res0 w3 =
      ({ res0 with execResult := { res0.execResult with logs := [] } },
       if P.eip1153 then w3.revert.tPop else w3.revert) := by
  have hrev : ¬(P.hardfork = "chainstart" ∧
      EvmErr.CODESTORE_OUT_OF_GAS = EvmErr.CODESTORE_OUT_OF_GAS) := by
    tauto
  unfold runCallEpilogue
  simp [herr, hrev]
  intro h
  exact absurd h hcs

/-- The epilogue on the dismissed Chainstart `CODESTORE_OUT_OF_GAS` error:
the result passes through untouched and the checkpoints are committed. -/
theorem runCallEpilogue_coog_commit (P : EvmParams) (res0 : EVMRes) (w3 : World)
    (herr : res0.execResult.exceptionError = some EvmErr.CODESTORE_OUT_OF_GAS)
    (hcs : P.hardfork = "chainstart") :
    runCallEpilogue P res0 w3 =
      (res0, if P.eip1153 then w3.commit.tPop else w3.commit) := by
  unfold runCallEpilogue
  simp [herr, hcs]

/-- The epilogue without an exception: the result passes through and the
checkpoints are committed. -/
theorem runCallEpilogue_ok (P : EvmParams) (res0 : EVMRes) (w3 : World)
    (herr : res0.execResult.exceptionError = none) :
    runCallEpilogue P res0 w3 =
      (res0, if P.eip1153 then w3.commit.tPop else w3.commit) := by
  unfold runCallEpilogue
  simp [herr]

/-- C1, counterexample: a depth-0 CALL whose sender cannot afford the
value ends in an `INSUFFICIENT_BALANCE` exception (not `REVERT`), yet the
gas used is `0`, not the full message gas limit of 100: the `_executeCall`
early-exit result carries `executionGasUsed: BigInt(0)`, so the claim's
"gas used equals the full message gas limit" is false for errors thrown
outside the interpreter. -/
theorem c1_counterexample :
    Except.map
        (fun p : EVMRes × World =>
          (p.1.execResult.exceptionError, p.1.execResult.executionGasUsed))
        (runCall evmParamsW msgInsW worldInsW) =
      .ok (some EvmErr.INSUFFICIENT_BALANCE, 0) ∧
    msgInsW.gasLimit = 100 := by
  decide

/-- C1 (amended): for every message run through `runCall` (with an
interpreter loop that preserves the journal/transient bracket structure):
(i) on any exception other than `CODESTORE_OUT_OF_GAS` the result's
selfdestruct set, created-addresses set, gas refund and logs are cleared;
(ii) on any exception except a Chainstart `CODESTORE_OUT_OF_GAS` the
journal and transient checkpoints taken at message start are reverted, so
the final world carries exactly the post-setup state, checkpoint stack and
bracket depth; (iii) without an exception the checkpoints are committed;
(iv) the epilogue never alters the return data, the gas used, the
remaining gas or the exception of the dispatched execution — in
particular, on `REVERT` the return data and remaining gas survive.  (The
claim's "gas used equals the full message gas limit" holds only for
interpreter-thrown exceptions, not for pre-execution errors, which carry
gas used `0` — see the counterexample.) -/
theorem c1_runCall (P : EvmParams) (m : Msg) (w : World) (res : EVMRes)
    (w' : World)
    (hstack : ∀ mm ww, ((P.interp mm ww).2).stateCps = ww.stateCps ∧
      ((P.interp mm ww).2).tDepth = ww.tDepth)
    (hrun : runCall P m w = .ok (res, w')) :
    (∀ e, res.execResult.exceptionError = some e →
      e ≠ EvmErr.CODESTORE_OUT_OF_GAS →
      res.execResult.selfdestruct = [] ∧ res.execResult.createdAddresses = [] ∧
      res.execResult.gasRefund = 0 ∧ res.execResult.logs = []) ∧
    (∀ e, res.execResult.exceptionError = some e →
      ¬(P.hardfork = "chainstart" ∧ e = EvmErr.CODESTORE_OUT_OF_GAS) →
      w'.state = ((runCallSetup P m w).2).state ∧
      w'.stateCps = ((runCallSetup P m w).2).stateCps ∧
      w'.tDepth = ((runCallSetup P m w).2).tDepth) ∧
    (res.execResult.exceptionError = none →
      w'.stateCps = ((runCallSetup P m w).2).stateCps ∧
      w'.tDepth = ((runCallSetup P m w).2).tDepth) ∧
    (∃ res0 w3,
      runCallExec P ((runCallSetup P m w).1) ((runCallSetup P m w).2) =
        .ok (res0, w3) ∧
      res.execResult.returnValue = res0.execResult.returnValue ∧
      res.execResult.executionGasUsed = res0.execResult.executionGasUsed ∧
      res.execResult.gas = res0.execResult.gas ∧
      res.execResult.exceptionError = res0.execResult.exceptionError) := by
  unfold runCall at hrun
  split at hrun
  next m1 w1 hsetup =>
    rw [ebind_ok] at hrun
    obtain ⟨p, hexec, hpure⟩ := hrun
    obtain ⟨res0, w3⟩ := p
    have hep : runCallEpilogue P res0 w3 = (res, w') := by
      simpa [pure, Except.pure, Except.ok.injEq] using hpure
    have hs1 : (runCallSetup P m w).1 = m1 := by rw [hsetup]
    have hs2 : (runCallSetup P m w).2 = w1 := by rw [hsetup]
    have hframe := runCallExec_stacks hstack hexec
    have hcases :
        (res0.execResult.exceptionError = none ∧ res = res0 ∧
          w' = (if P.eip1153 then w3.commit.tPop else w3.commit)) ∨
        (res0.execResult.exceptionError = some EvmErr.CODESTORE_OUT_OF_GAS ∧
          P.hardfork = "chainstart" ∧ res = res0 ∧
          w' = (if P.eip1153 then w3.commit.tPop else w3.commit)) ∨
        (res0.execResult.exceptionError = some EvmErr.CODESTORE_OUT_OF_GAS ∧
          P.hardfork ≠ "chainstart" ∧
          res = { res0 with execResult := { res0.execResult with logs := [] } } ∧
          w' = (if P.eip1153 then w3.revert.tPop else w3.revert)) ∨
        (∃ e, res0.execResult.exceptionError = some e ∧
          e ≠ EvmErr.CODESTORE_OUT_OF_GAS ∧
          res = { res0 with execResult :=
              { res0.execResult with
                  selfdestruct := []
                  createdAddresses := []
                  gasRefund := 0
                  logs := [] } } ∧
          w' = (if P.eip1153 then w3.revert.tPop else w3.revert)) := by
      cases herr : res0.execResult.exceptionError with
      | none =>
          rw [runCallEpilogue_ok P res0 w3 herr] at hep
          injection hep with h1 h2
          exact Or.inl ⟨rfl, h1.symm, h2.symm⟩
      | some e0 =>
          by_cases hco : e0 = EvmErr.CODESTORE_OUT_OF_GAS
          · subst hco
            by_cases hcs : P.hardfork = "chainstart"
            · rw [runCallEpilogue_coog_commit P res0 w3 herr hcs] at hep
              injection hep with h1 h2
              exact Or.inr (Or.inl ⟨rfl, hcs, h1.symm, h2.symm⟩)
            · rw [runCallEpilogue_coog_revert P res0 w3 herr hcs] at hep
              injection hep with h1 h2
              exact Or.inr (Or.inr (Or.inl ⟨rfl, hcs, h1.symm, h2.symm⟩))
          · rw [runCallEpilogue_revert P res0 w3 e0 herr hco] at hep
            injection hep with h1 h2
            exact Or.inr (Or.inr (Or.inr ⟨e0, rfl, hco, h1.symm, h2.symm⟩))
    have hcommit :
        (if P.eip1153 then w3.commit.tPop else w3.commit).stateCps = w1.stateCps ∧
        (if P.eip1153 then w3.commit.tPop else w3.commit).tDepth = w1.tDepth := by
      cases h1153 : P.eip1153 with
      | true =>
          simp only [h1153, ite_true, if_true]
          refine ⟨?_, ?_⟩
          · show w3.stateCps.tail = w1.stateCps
            rw [hframe.1]
            rfl
          · show w3.tDepth - 1 = w1.tDepth
            rw [hframe.2]
            simp [h1153]
      | false =>
          simp only [h1153, ite_false, if_false, Bool.false_eq_true]
          refine ⟨?_, ?_⟩
          · show w3.stateCps.tail = w1.stateCps
            rw [hframe.1]
            rfl
          · show w3.tDepth = w1.tDepth
            simpa [h1153] using hframe.2
    have hrevert :
        (if P.eip1153 then w3.revert.tPop else w3.revert).state = w1.state ∧
        (if P.eip1153 then w3.revert.tPop else w3.revert).stateCps = w1.stateCps ∧
        (if P.eip1153 then w3.revert.tPop else w3.revert).tDepth = w1.tDepth := by
      cases h1153 : P.eip1153 with
      | true =>
          simp only [h1153, ite_true, if_true]
          refine ⟨?_, ?_, ?_⟩
          · show w3.stateCps.headD w3.state = w1.state
            rw [hframe.1]
            rfl
          · show w3.stateCps.tail = w1.stateCps
            rw [hframe.1]
            rfl
          · show w3.tDepth - 1 = w1.tDepth
            rw [hframe.2]
            simp [h1153]
      | false =>
          simp only [h1153, ite_false, if_false, Bool.false_eq_true]
          refine ⟨?_, ?_, ?_⟩
          · show w3.stateCps.headD w3.state = w1.state
            rw [hframe.1]
            rfl
          · show w3.stateCps.tail = w1.stateCps
            rw [hframe.1]
            rfl
          · show w3.tDepth = w1.tDepth
            simpa [h1153] using hframe.2
    refine ⟨?_, ?_, ?_, ?_⟩
    · intro e he hne
      rcases hcases with ⟨h0, hres, hw⟩ | ⟨h0, hcs, hres, hw⟩ |
        ⟨h0, hcs, hres, hw⟩ | ⟨e0, h0, hco, hres, hw⟩
      · rw [hres] at he
        rw [h0] at he
        exact Option.noConfusion he
      · rw [hres] at he
        have hcomb : some EvmErr.CODESTORE_OUT_OF_GAS = some e := h0.symm.trans he
        injection hcomb with he2
        exact absurd he2.symm hne
      · rw [hres] at he
        have he3 : res0.execResult.exceptionError = some e := he
        have hcomb : some EvmErr.CODESTORE_OUT_OF_GAS = some e := h0.symm.trans he3
        injection hcomb with he2
        exact absurd he2.symm hne
      · rw [hres]
        exact ⟨rfl, rfl, rfl, rfl⟩
    · intro e he hrev
      rcases hcases with ⟨h0, hres, hw⟩ | ⟨h0, hcs, hres, hw⟩ |
        ⟨h0, hcs, hres, hw⟩ | ⟨e0, h0, hco, hres, hw⟩
      · rw [hres] at he
        rw [h0] at he
        exact Option.noConfusion he
      · rw [hres] at he
        have hcomb : some EvmErr.CODESTORE_OUT_OF_GAS = some e := h0.symm.trans he
        injection hcomb with he2
        exact absurd ⟨hcs, he2.symm⟩ hrev
      · rw [hw, hs2]
        exact ⟨hrevert.1, hrevert.2.1, hrevert.2.2⟩
      · rw [hw, hs2]
        exact ⟨hrevert.1, hrevert.2.1, hrevert.2.2⟩
    · intro hnone
      rcases hcases with ⟨h0, hres, hw⟩ | ⟨h0, hcs, hres, hw⟩ |
        ⟨h0, hcs, hres, hw⟩ | ⟨e0, h0, hco, hres, hw⟩
      · rw [hw, hs2]
        exact hcommit
      · rw [hres] at hnone
        rw [h0] at hnone
        exact Option.noConfusion hnone
      · rw [hres] at hnone
        have h3 : res0.execResult.exceptionError = none := hnone
        rw [h0] at h3
        exact Option.noConfusion h3
      · rw [hres] at hnone
        have h3 : res0.execResult.exceptionError = none := hnone
        rw [h0] at h3
        exact Option.noConfusion h3
    · refine ⟨res0, w3, ?_, ?_⟩
      · rw [hs1, hs2]
        exact hexec
      · rcases hcases with ⟨-, hres, -⟩ | ⟨-, -, hres, -⟩ |
          ⟨-, -, hres, -⟩ | ⟨-, -, -, hres, -⟩ <;>
          rw [hres] <;> exact ⟨rfl, rfl, rfl, rfl⟩

/-- C1, witness: the amended theorem's commit clause at a successful
depth-0 call of an empty account, with the concrete result checked by
evaluation. -/
theorem c1_witness :
    runCall evmParamsW msgCallW worldCallW = .ok (resCallW, worldCallW') ∧
    (resCallW.execResult.exceptionError = none →
      worldCallW'.stateCps =
        ((runCallSetup evmParamsW msgCallW worldCallW).2).stateCps ∧
      worldCallW'.tDepth =
        ((runCallSetup evmParamsW msgCallW worldCallW).2).tDepth) :=
  ⟨by decide,
   (c1_runCall evmParamsW msgCallW worldCallW resCallW worldCallW'
     (fun mm ww => ⟨rfl, rfl⟩) (by decide)).2.2.1⟩

/-- C10: for every depth-0, authcall-free message run through `runCall`
(with an interpreter loop that preserves the journal/transient bracket
structure and the caller's nonce reading, and an address generator that
never returns the caller), the caller's nonce after the call equals its
prior value plus one — on the commit path because no later write touches
it, on the revert path because the increment happened before the message
checkpoint was taken. -/
theorem c10_runCall_nonce (P : EvmParams) (m : Msg) (w : World) (res : EVMRes)
    (w' : World)
    (hdepth : m.depth = 0)
    (hstack : ∀ mm ww, ((P.interp mm ww).2).stateCps = ww.stateCps ∧
      ((P.interp mm ww).2).tDepth = ww.tDepth)
    (hnint : ∀ mm ww, (((P.interp mm ww).2).getAccount m.caller).map Account.nonce =
      ((ww.getAccount m.caller).map Account.nonce))
    (hgen : ∀ aa nn ss dd, P.genAddr aa nn ss dd ≠ m.caller)
    (hauth : m.authcallOrigin = none)
    (hrun : runCall P m w = .ok (res, w')) :
    (w'.getAccount m.caller).map Account.nonce =
      some (((w.getAccount m.caller).getD {}).nonce + 1) := by
  unfold runCall at hrun
  split at hrun
  next m1 w1 hsetup =>
    rw [ebind_ok] at hrun
    obtain ⟨p, hexec, hpure⟩ := hrun
    obtain ⟨res0, w3⟩ := p
    have hep : runCallEpilogue P res0 w3 = (res, w') := by
      simpa [pure, Except.pure, Except.ok.injEq] using hpure
    have hs1 : (runCallSetup P m w).1 = m1 := by rw [hsetup]
    have hs2 : (runCallSetup P m w).2 = w1 := by rw [hsetup]
    have hn1 : (w1.getAccount m.caller).map Account.nonce =
        some (((w.getAccount m.caller).getD {}).nonce + 1) := by
      have h := runCallSetup_nonce P m w hdepth
      rw [hs2] at h
      exact h
    have hauth1 : m1.authcallOrigin = none := by
      have h := runCallSetup_authcall P m w
      rw [hs1] at h
      rw [h]
      exact hauth
    have hn3 : (w3.getAccount m.caller).map Account.nonce =
        some (((w.getAccount m.caller).getD {}).nonce + 1) :=
      runCallExec_nonce hnint hgen hauth1 hn1 hexec
    have hframe := runCallExec_stacks hstack hexec
    have hexit : ∀ ww2 : World,
        (ww2 = (if P.eip1153 then w3.commit.tPop else w3.commit) ∨
         ww2 = (if P.eip1153 then w3.revert.tPop else w3.revert)) →
        (ww2.getAccount m.caller).map Account.nonce =
          some (((w.getAccount m.caller).getD {}).nonce + 1) := by
      intro ww2 hcase
      rcases hcase with rfl | rfl
      · cases h1153 : P.eip1153 with
        | true =>
            simp only [h1153, ite_true, if_true]
            exact hn3
        | false =>
            simp only [h1153, ite_false, if_false, Bool.false_eq_true]
            exact hn3
      · cases h1153 : P.eip1153 with
        | true =>
            simp only [h1153, ite_true, if_true]
            show (((w3.stateCps.headD w3.state).accounts.lookup m.caller).map
              Account.nonce) = _
            rw [hframe.1]
            exact hn1
        | false =>
            simp only [h1153, ite_false, if_false, Bool.false_eq_true]
            show (((w3.stateCps.headD w3.state).accounts.lookup m.caller).map
              Account.nonce) = _
            rw [hframe.1]
            exact hn1
    cases herr : res0.execResult.exceptionError with
    | none =>
        rw [runCallEpilogue_ok P res0 w3 herr] at hep
        injection hep with h1 h2
        rw [← h2]
        exact hexit _ (Or.inl rfl)
    | some e0 =>
        by_cases hco : e0 = EvmErr.CODESTORE_OUT_OF_GAS
        · subst hco
          by_cases hcs : P.hardfork = "chainstart"
          · rw [runCallEpilogue_coog_commit P res0 w3 herr hcs] at hep
            injection hep with h1 h2
            rw [← h2]
            exact hexit _ (Or.inl rfl)
          · rw [runCallEpilogue_coog_revert P res0 w3 herr hcs] at hep
            injection hep with h1 h2
            rw [← h2]
            exact hexit _ (Or.inr rfl)
        · rw [runCallEpilogue_revert P res0 w3 e0 herr hco] at hep
          injection hep with h1 h2
          rw [← h2]
          exact hexit _ (Or.inr rfl)

/-- C10, witness: on the sample call, the caller's nonce goes from 4 to 5,
with the run itself checked by evaluation. -/
theorem c10_witness :
    runCall evmParamsW msgCallW worldCallW = .ok (resCallW, worldCallW') ∧
    (worldCallW'.getAccount msgCallW.caller).map Account.nonce =
      some (((worldCallW.getAccount msgCallW.caller).getD {}).nonce + 1) :=
  ⟨by decide,
   c10_runCall_nonce evmParamsW msgCallW worldCallW resCallW worldCallW'
     rfl (fun mm ww => ⟨rfl, rfl⟩) (fun mm ww => rfl)
     (fun aa nn ss dd => by
       show ¬((1000 + aa + nn : Nat) = (5 : Nat))
       omega)
     rfl (by decide)⟩

/-- The activation walk of `Common._calcForkHash` equals the spec-side
description: take the scheduled hardforks through the requested one, drop
the merge hardfork, keep each known activation that is non-zero and
different from the previously kept one, and render each kept activation as
8 big-endian bytes. -/
theorem calcForkHashActivations_spec (hardfork : String) :
    ∀ (hfs : List HardforkConfig) (prev : Nat),
      calcForkHashActivations.go hardfork hfs prev =
      (dedupActivations
        (((hardforksThrough hfs hardfork).filter
            (fun hf => hf.name ≠ "paris")).filterMap blockOrTime) prev).flatMap
        (natToBEPad 8) := by
  intro hfs
  induction hfs with
  | nil => intro prev; rfl
  | cons hf rest ih =>
      intro prev
      simp only [calcForkHashActivations.go]
      unfold hardforksThrough
      by_cases hname : hf.name = hardfork
      · rw [if_pos hname]
        subst hname
        by_cases hparis : hf.name = "paris"
        · have hp : decide (hf.name ≠ "paris") = false := by simp [hparis]
          cases hbt : blockOrTime hf with
          | none => simp [hbt, List.filter_cons, hp, hparis, dedupActivations]
          | some a =>
              have hcond : ¬(a ≠ 0 ∧ a ≠ prev ∧ hf.name ≠ "paris") := by tauto
              simp [hbt, List.filter_cons, hp, hcond, hparis, dedupActivations]
        · have hp : decide (hf.name ≠ "paris") = true := by simp [hparis]
          cases hbt : blockOrTime hf with
          | none => simp [hbt, List.filter_cons, hp, List.filterMap_cons, hparis,
              dedupActivations]
          | some a =>
              by_cases h0 : a = 0 ∨ a = prev
              · have hcond : ¬(a ≠ 0 ∧ a ≠ prev ∧ hf.name ≠ "paris") := by tauto
                simp [hbt, List.filter_cons, hp, hcond, List.filterMap_cons,
                  dedupActivations, h0, hparis]
                intro h1 h2
                rcases h0 with h | h <;> contradiction
              · have hcond : a ≠ 0 ∧ a ≠ prev ∧ hf.name ≠ "paris" := by tauto
                simp [hbt, List.filter_cons, hp, hcond, List.filterMap_cons,
                  dedupActivations, h0, hparis]
      · rw [if_neg hname]
        cases hbt : blockOrTime hf with
        | none =>
            simp only [hbt, if_neg hname]
            rw [ih prev]
            by_cases hparis : hf.name = "paris"
            · have hp : decide (hf.name ≠ "paris") = false := by simp [hparis]
              simp [List.filter_cons, hp, hparis]
            · have hp : decide (hf.name ≠ "paris") = true := by simp [hparis]
              simp [List.filter_cons, hp, List.filterMap_cons, hbt, hparis]
        | some a =>
            simp only [hbt, if_neg hname]
            by_cases hparis : hf.name = "paris"
            · have hcond : ¬(a ≠ 0 ∧ a ≠ prev ∧ hf.name ≠ "paris") := by tauto
              have hp : decide (hf.name ≠ "paris") = false := by simp [hparis]
              rw [if_neg hcond, ih prev]
              simp [List.filter_cons, hp, hparis]
            · have hp : decide (hf.name ≠ "paris") = true := by simp [hparis]
              by_cases h0 : a = 0 ∨ a = prev
              · have hcond : ¬(a ≠ 0 ∧ a ≠ prev ∧ hf.name ≠ "paris") := by tauto
                rw [if_neg hcond, ih prev]
                simp [List.filter_cons, hp, List.filterMap_cons, hbt,
                  dedupActivations, h0, hparis]
              · have hcond : a ≠ 0 ∧ a ≠ prev ∧ hf.name ≠ "paris" := by tauto
                rw [if_pos hcond, ih a]
                simp [List.filter_cons, hp, List.filterMap_cons, hbt,
                  dedupActivations, h0, hparis]

set_option maxRecDepth 40000 in
/-- C5, counterexample: on a two-hardfork chain (Chainstart at block 0,
Homestead at block 6) with a 32-zero-byte genesis hash, the fork-hash CRC
at Homestead is `0x008f9884`, whose `intToBytes` rendering is the 3-byte
string `8f9884` — not a 4-byte hex rendering as claimed (the source
renders through minimal-hex `intToBytes`, dropping leading zero bytes). -/
theorem c5_counterexample :
    forkHash hfsC5W "homestead" (some (List.replicate 32 0)) =
      .ok [0x8f, 0x98, 0x84] ∧
    ([0x8f, 0x98, 0x84] : List Nat).length ≠ 4 ∧
    crc32 (specForkHashInput hfsC5W "homestead" (List.replicate 32 0)) =
      0x008f9884 := by
  decide

/-- C5 (amended): for every scheduled hardfork without a cached
configuration fork hash and every genesis hash, `forkHash` returns the
unsigned CRC-32 of the genesis hash concatenated with the 8-byte
big-endian activation point (timestamp if present, else block) of every
scheduled hardfork up to the requested one, skipping the merge hardfork
and activations that are zero or equal to the previously included one —
rendered through minimal-hex `intToBytes` (4 bytes only when the CRC's top
byte is non-zero). -/
theorem c5_forkHash (hfs : List HardforkConfig) (hardfork : String)
    (g : List Nat) (data : HardforkConfig)
    (hdata : getHardforkData hfs hardfork = some data)
    (hsched : ¬(data.block = none ∧ data.timestamp = none ∧ data.ttd = none))
    (hnocache : data.forkHash = none) :
    forkHash hfs hardfork (some g) =
      .ok (intToBytesModel (crc32 (specForkHashInput hfs hardfork g))) := by
  unfold forkHash
  simp only [hdata]
  rw [if_neg hsched]
  simp only [hnocache]
  unfold calcForkHash specForkHashInput calcForkHashActivations
  rw [calcForkHashActivations_spec]

/-- C5, witness: the amended theorem at the sample configuration, with
each hypothesis checked by evaluation. -/
theorem c5_witness :
    forkHash hfsC5W "homestead" (some (List.replicate 32 0)) =
      .ok (intToBytesModel
        (crc32 (specForkHashInput hfsC5W "homestead" (List.replicate 32 0)))) :=
  c5_forkHash hfsC5W "homestead" (List.replicate 32 0)
    ⟨"homestead", some 6, none, none, none⟩ (by decide) (by decide) (by decide)

set_option maxRecDepth 40000 in
/-- C6, witness: the signed sample transaction is round-trip ready and
decodes back to itself (its `v` is present, so the `getD` default is the
identity). -/
theorem c6_witness :
    txRoundTripReady txParamsW txSignedW = true ∧
    fromSerializedTx txParamsW (blobTxSerialize txSignedW) =
      .ok { txSignedW with v := some (txSignedW.v.getD 0) } :=
  ⟨by decide, c6_fromSerializedTx txParamsW txSignedW (by decide)⟩

/- ----------------------------------------------------------------
## C4: monotonicity of getHardforkBy in the block number
----------------------------------------------------------------- -/

/-- `findIndexI` returns `-1` exactly when no element matches. -/
theorem findIndexI_eq_neg_one_iff {α : Type} {l : List α} {p : α → Bool} :
    findIndexI l p = -1 ↔ ∀ x ∈ l, p x = false := by
  unfold findIndexI
  cases hf : l.findIdx? p with
  | none =>
      simp only [true_iff]
      exact fun x hx => List.findIdx?_eq_none_iff.mp hf x hx
  | some i =>
      constructor
      · intro h
        have h' : (i : Int) = -1 := h
        omega
      · intro hall
        have : l.findIdx? p = none := List.findIdx?_eq_none_iff.mpr hall
        rw [hf] at this
        exact Option.noConfusion this

/-- A non-`-1` `findIndexI` is the first matching position. -/
theorem findIndexI_spec {α : Type} {l : List α} {p : α → Bool}
    (h : findIndexI l p ≠ -1) :
    ∃ (k : Nat) (hk : k < l.length), findIndexI l p = (k : Int) ∧
      p (l.get ⟨k, hk⟩) = true ∧
      ∀ (j : Nat) (hj : j < l.length), j < k → p (l.get ⟨j, hj⟩) = false := by
  unfold findIndexI at h ⊢
  cases hf : l.findIdx? p with
  | none => rw [hf] at h; exact absurd rfl h
  | some i =>
      obtain ⟨hlt, hp, hprev⟩ := List.findIdx?_eq_some_iff_getElem.mp hf
      refine ⟨i, hlt, rfl, ?_, ?_⟩
      · simpa [List.get_eq_getElem] using hp
      · intro j hj hji
        have := hprev j hji
        simpa [List.get_eq_getElem] using this

/-- `findIndexI` is at least `-1`. -/
theorem findIndexI_ge_neg_one {α : Type} (l : List α) (p : α → Bool) :
    -1 ≤ findIndexI l p := by
  unfold findIndexI
  split <;> omega

/-- A non-`-1` `findIndexI` lies below the length. -/
theorem findIndexI_lt_length {α : Type} {l : List α} {p : α → Bool}
    (h : findIndexI l p ≠ -1) : findIndexI l p < (l.length : Int) := by
  obtain ⟨k, hk, heq, _, _⟩ := findIndexI_spec h
  rw [heq]
  omega

/-- Cons equation for `findIndexI`. -/
theorem findIndexI_cons {α : Type} (a : α) (l : List α) (p : α → Bool) :
    findIndexI (a :: l) p =
      if p a = true then 0
      else if findIndexI l p = -1 then -1 else findIndexI l p + 1 := by
  unfold findIndexI
  rw [List.findIdx?_cons]
  by_cases hp : p a = true
  · rw [if_pos hp, if_pos hp]
    rfl
  · rw [if_neg hp, if_neg hp, List.findIdx?_succ]
    cases hf : l.findIdx? p
    · simp
    · rename_i i
      show ((i + 1 : Nat) : Int) = if (i : Int) = -1 then -1 else (i : Int) + 1
      rw [if_neg (by omega : ¬((i : Int) = -1))]
      omega

/-- Weakening the predicate cannot move the mapped first-match index
later (`length` standing in for "no match"). -/
theorem findIndexI_mapped_mono {α : Type} {l : List α} {p q : α → Bool}
    (himp : ∀ a, q a = true → p a = true) :
    (if findIndexI l p = -1 then (l.length : Int) else findIndexI l p) ≤
      (if findIndexI l q = -1 then (l.length : Int) else findIndexI l q) := by
  by_cases hq : findIndexI l q = -1
  · rw [if_pos hq]
    by_cases hp : findIndexI l p = -1
    · rw [if_pos hp]
    · rw [if_neg hp]
      exact le_of_lt (findIndexI_lt_length hp)
  · rw [if_neg hq]
    obtain ⟨kq, hkq, heq, hpq, hprevq⟩ := findIndexI_spec hq
    by_cases hp : findIndexI l p = -1
    · exfalso
      have hall := findIndexI_eq_neg_one_iff.mp hp
      have := hall (l.get ⟨kq, hkq⟩) (List.get_mem l kq hkq)
      rw [himp _ hpq] at this
      exact Bool.noConfusion this
    · rw [if_neg hp]
      obtain ⟨kp, hkp, hep, hpp, hprevp⟩ := findIndexI_spec hp
      rw [hep, heq]
      by_contra hlt
      push_neg at hlt
      have hklt : kq < kp := by omega
      have := hprevp kq hkq hklt
      rw [himp _ hpq] at this
      exact Bool.noConfusion this

/-- Characterization of a successful JS index read. -/
theorem listGetI_eq_some {α : Type} {l : List α} {i : Int} {a : α} :
    listGetI l i = some a ↔
      ∃ (h : 0 ≤ i ∧ i.toNat < l.length), l.get ⟨i.toNat, h.2⟩ = a := by
  unfold listGetI
  split
  next h =>
    constructor
    · intro he
      exact ⟨h, Option.some.inj he⟩
    · rintro ⟨h', he⟩
      exact congrArg some he
  next h =>
    constructor
    · intro he; exact Option.noConfusion he
    · rintro ⟨h', _⟩; exact absurd h' h

/-- `getElemE` succeeds exactly when the index read does. -/
theorem getElemE_ok {α : Type} {l : List α} {i : Int} {a : α} :
    getElemE l i = .ok a ↔ listGetI l i = some a := by
  unfold getElemE
  cases h : listGetI l i <;> simp

/-- Without a timestamp input, `ghbIndex2` is the step-back difference. -/
theorem ghbIndex2_none (hfs : List HardforkConfig) (x : Int) :
    ghbIndex2 hfs none x =
      x - findIndexI ((hfs.take x.toNat).reverse)
        (fun hf => hf.block.isSome || hf.ttd.isSome) := rfl

/-- Without a td input, `ghbIndex4` succeeds with the candidate moved one
back exactly when the candidate has neither block nor timestamp. -/
theorem ghbIndex4_none_eq (hfs : List HardforkConfig) (mi i3 : Int)
    (hf3 : HardforkConfig) :
    ghbIndex4 hfs none mi i3 hf3 =
      .ok (if hf3.block = none ∧ hf3.timestamp = none then i3 - 1 else i3) := by
  unfold ghbIndex4
  split
  next h => rfl
  next h =>
    rw [if_neg (by simp : ¬(mi ≥ 0 ∧ (none : Option Nat) ≠ none))]
    rfl

/-- Facts from a successful `ghbIndex1`: the result is the mapped
first-match index, and it lies within `[0, length]`. -/
theorem ghbIndex1_ok {hfs : List HardforkConfig} {bn ts : Option Nat} {i1 : Int}
    (h : ghbIndex1 hfs bn ts = .ok i1) :
    i1 = (if findIndexI hfs (ghbPredicate bn ts) = -1 then (hfs.length : Int)
          else findIndexI hfs (ghbPredicate bn ts)) ∧
      0 ≤ i1 ∧ i1 ≤ (hfs.length : Int) := by
  unfold ghbIndex1 at h
  split at h
  next hm =>
    injection h with h
    rw [if_pos hm]
    refine ⟨h.symm, ?_, ?_⟩ <;> omega
  next hm =>
    split at h
    next => exact Except.noConfusion h
    next hm0 =>
      injection h with h
      rw [if_neg hm]
      obtain ⟨k, hk, heq, _, _⟩ := findIndexI_spec hm
      refine ⟨h.symm, ?_, ?_⟩ <;> omega

/-- The block-search predicate for block `n + 1` implies the one for
block `n`. -/
theorem ghbPredicate_mono (n : Nat) (hf : HardforkConfig) :
    ghbPredicate (some (n + 1)) none hf = true →
      ghbPredicate (some n) none hf = true := by
  intro hq
  unfold ghbPredicate at hq ⊢
  revert hq
  cases hb : hf.block <;> cases ht : hf.timestamp <;> intro hq
  · exact Bool.noConfusion hq
  · exact Bool.noConfusion hq
  · rename_i b
    have hq' : (decide (b > n + 1) || false) = true := hq
    show (decide (b > n) || false) = true
    simp only [Bool.or_false, decide_eq_true_eq] at hq' ⊢
    omega
  · rename_i b t
    have hq' : (decide (b > n + 1) || false) = true := hq
    show (decide (b > n) || false) = true
    simp only [Bool.or_false, decide_eq_true_eq] at hq' ⊢
    omega

/-- `ghbIndex1` is monotone in the block number. -/
theorem ghbIndex1_mono {hfs : List HardforkConfig} {n : Nat} {i1 i1' : Int}
    (h : ghbIndex1 hfs (some n) none = .ok i1)
    (h' : ghbIndex1 hfs (some (n + 1)) none = .ok i1') :
    i1 ≤ i1' := by
  obtain ⟨he, _, _⟩ := ghbIndex1_ok h
  obtain ⟨he', _, _⟩ := ghbIndex1_ok h'
  rw [he, he']
  exact findIndexI_mapped_mono (ghbPredicate_mono n)

/-- One step of the step-back quantity `I - stepBack(take I)`: growing the
prefix by one element cannot shrink it. -/
theorem stepF_le_succ (hfs : List HardforkConfig) (g : HardforkConfig → Bool)
    (B : Nat) (hB : B < hfs.length) :
    (B : Int) - findIndexI ((hfs.take B).reverse) g ≤
      ((B + 1 : Nat) : Int) - findIndexI ((hfs.take (B + 1)).reverse) g := by
  have htake : hfs.take (B + 1) = hfs.take B ++ [hfs.get ⟨B, hB⟩] := by
    rw [List.take_succ]
    congr 1
    rw [List.getElem?_eq_getElem hB]
    rfl
  rw [htake, List.reverse_append]
  have hrev : ([hfs.get ⟨B, hB⟩].reverse ++ (hfs.take B).reverse) =
      hfs.get ⟨B, hB⟩ :: (hfs.take B).reverse := rfl
  rw [hrev, findIndexI_cons]
  have hKge := findIndexI_ge_neg_one ((hfs.take B).reverse) g
  by_cases hg : g (hfs.get ⟨B, hB⟩) = true
  · rw [if_pos hg]
    omega
  · rw [if_neg hg]
    by_cases hK1 : findIndexI ((hfs.take B).reverse) g = -1
    · rw [if_pos hK1]
      omega
    · rw [if_neg hK1]
      omega

/-- The step-back quantity is monotone in the prefix length. -/
theorem stepF_mono (hfs : List HardforkConfig) (g : HardforkConfig → Bool)
    (A B : Nat) (hAB : A ≤ B) :
    B ≤ hfs.length →
      (A : Int) - findIndexI ((hfs.take A).reverse) g ≤
        (B : Int) - findIndexI ((hfs.take B).reverse) g := by
  induction B, hAB using Nat.le_induction with
  | base => intro _; exact le_refl _
  | succ B hAB ih =>
      intro hBlen
      exact le_trans (ih (by omega)) (stepF_le_succ hfs g B (by omega))

/-- The tie-advancing loop never moves backwards. -/
theorem advanceTies_ge (hfs : List HardforkConfig) :
    ∀ (fuel : Nat) (i r : Int), advanceTies hfs fuel i = .ok r → i ≤ r := by
  intro fuel
  induction fuel with
  | zero =>
      intro i r h
      injection h with h
      omega
  | succ fuel ih =>
      intro i r h
      simp only [advanceTies] at h
      split at h
      · split at h
        · split at h
          · have := ih _ _ h
            omega
          · injection h with h
            omega
        · exact Except.noConfusion h
      · injection h with h
        omega

/-- The tie-advancing loop stops at the last index or earlier. -/
theorem advanceTies_le_max (hfs : List HardforkConfig) :
    ∀ (fuel : Nat) (i r : Int), advanceTies hfs fuel i = .ok r →
      r ≤ i ∨ r ≤ (hfs.length : Int) - 1 := by
  intro fuel
  induction fuel with
  | zero =>
      intro i r h
      injection h with h
      omega
  | succ fuel ih =>
      intro i r h
      simp only [advanceTies] at h
      split at h
      next hlt =>
        split at h
        · split at h
          · rcases ih _ _ h with hm | hm
            · right; omega
            · right; exact hm
          · injection h with h
            left; omega
        · exact Except.noConfusion h
      next hlt =>
        injection h with h
        left; omega

/-- Every index passed over by the tie-advancing loop is a tie: the next
hardfork exists and shares block and timestamp. -/
theorem advanceTies_chain (hfs : List HardforkConfig) :
    ∀ (fuel : Nat) (i r : Int), advanceTies hfs fuel i = .ok r →
      ∀ j : Int, i ≤ j → j < r →
        ∃ a b, listGetI hfs j = some a ∧ listGetI hfs (j + 1) = some b ∧
          a.block = b.block ∧ a.timestamp = b.timestamp := by
  intro fuel
  induction fuel with
  | zero =>
      intro i r h j hij hjr
      injection h with h
      omega
  | succ fuel ih =>
      intro i r h j hij hjr
      simp only [advanceTies] at h
      split at h
      next hlt =>
        split at h
        next a b ha hb =>
          split at h
          next htie =>
            by_cases hji : j = i
            · subst hji
              exact ⟨a, b, ha, hb, htie.1, htie.2⟩
            · exact ih _ _ h j (by omega) hjr
          next htie =>
            injection h with h
            omega
        next => exact Except.noConfusion h
      next hlt =>
        injection h with h
        omega

/-- When the tie-advancing loop stops with fuel to spare, the stop is
genuine: the next index is out of range or differs in block or
timestamp. -/
theorem advanceTies_stop (hfs : List HardforkConfig) :
    ∀ (fuel : Nat) (i r : Int), advanceTies hfs fuel i = .ok r →
      r < i + (fuel : Int) →
      ¬(r < (hfs.length : Int) - 1) ∨
        ∃ a b, listGetI hfs r = some a ∧ listGetI hfs (r + 1) = some b ∧
          ¬(a.block = b.block ∧ a.timestamp = b.timestamp) := by
  intro fuel
  induction fuel with
  | zero =>
      intro i r h hbound
      injection h with h
      omega
  | succ fuel ih =>
      intro i r h hbound
      simp only [advanceTies] at h
      split at h
      next hlt =>
        split at h
        next a b ha hb =>
          split at h
          next htie =>
            exact ih _ _ h (by omega)
          next htie =>
            injection h with h
            subst h
            exact Or.inr ⟨a, b, ha, hb, htie⟩
        next => exact Except.noConfusion h
      next hlt =>
        injection h with h
        subst h
        exact Or.inl hlt

/-- Monotonicity of the tie-advancing loop with the fuel used by
`getHardforkBy`. -/
theorem advanceTies_mono (hfs : List HardforkConfig) {i i' r r' : Int}
    (hge : -1 ≤ i) (hii : i ≤ i')
    (h : advanceTies hfs (hfs.length + 1) i = .ok r)
    (h' : advanceTies hfs (hfs.length + 1) i' = .ok r') :
    r ≤ r' := by
  by_contra hlt
  push_neg at hlt
  have hge1 := advanceTies_ge hfs _ _ _ h
  have hge2 := advanceTies_ge hfs _ _ _ h'
  obtain ⟨a, b, ha, hb, hab1, hab2⟩ :=
    advanceTies_chain hfs _ _ _ h r' (by omega) hlt
  have hmax := advanceTies_le_max hfs _ _ _ h'
  have hbound : r' < i' + ((hfs.length + 1 : Nat) : Int) := by
    rcases hmax with hm | hm <;> omega
  rcases advanceTies_stop hfs _ _ _ h' hbound with hstop | ⟨a', b', ha', hb', hne⟩
  · obtain ⟨hbb, _⟩ := listGetI_eq_some.mp hb
    exact hstop (by omega)
  · rw [ha] at ha'
    rw [hb] at hb'
    injection ha' with ha'
    injection hb' with hb'
    subst ha'
    subst hb'
    exact hne ⟨hab1, hab2⟩

/-- A fold looking for an absent name keeps its accumulator. -/
theorem lastPos_foldl_none (nm : String) :
    ∀ (l : List HardforkConfig) (s : Nat) (acc : Int),
      (∀ hf ∈ l, hf.name ≠ nm) →
      (l.enumFrom s).foldl
        (fun acc p => if p.2.name = nm then (p.1 : Int) else acc) acc = acc := by
  intro l
  induction l with
  | nil => intro s acc _; rfl
  | cons x xs ih =>
      intro s acc hall
      simp only [List.enumFrom_cons, List.foldl_cons]
      rw [if_neg (hall x (List.mem_cons_self x xs))]
      exact ih (s + 1) acc (fun hf hm => hall hf (List.mem_cons_of_mem x hm))

/-- The fold of `lastPosI` finds the unique position of a name. -/
theorem lastPos_foldl (nm : String) :
    ∀ (l : List HardforkConfig) (k s : Nat) (acc : Int) (hk : k < l.length),
      (l.get ⟨k, hk⟩).name = nm →
      (∀ (j : Nat) (hj : j < l.length), j ≠ k → (l.get ⟨j, hj⟩).name ≠ nm) →
      (l.enumFrom s).foldl
        (fun acc p => if p.2.name = nm then (p.1 : Int) else acc) acc =
        ((s + k : Nat) : Int) := by
  intro l
  induction l with
  | nil =>
      intro k s acc hk
      exact absurd hk (by simp)
  | cons x xs ih =>
      intro k s acc hk hname huniq
      simp only [List.enumFrom_cons, List.foldl_cons]
      cases k with
      | zero =>
          have hx : x.name = nm := hname
          rw [if_pos hx]
          have hnone : ∀ hf ∈ xs, hf.name ≠ nm := by
            intro hf hm
            obtain ⟨⟨j, hj⟩, hget⟩ := List.mem_iff_get.mp hm
            have hju := huniq (j + 1) (by simp only [List.length_cons]; omega)
              (by omega)
            rw [← hget]
            exact hju
          rw [lastPos_foldl_none nm xs (s + 1) _ hnone]
          omega
      | succ k' =>
          have hx : x.name ≠ nm := huniq 0 (by simp only [List.length_cons]; omega) (by omega)
          rw [if_neg hx]
          have hk' : k' < xs.length := by
            simp only [List.length_cons] at hk
            omega
          have hname' : (xs.get ⟨k', hk'⟩).name = nm := hname
          have huniq' : ∀ (j : Nat) (hj : j < xs.length), j ≠ k' →
              (xs.get ⟨j, hj⟩).name ≠ nm := by
            intro j hj hne
            exact huniq (j + 1) (by simp only [List.length_cons]; omega) (by omega)
          rw [ih k' (s + 1) acc hk' hname' huniq']
          omega

/-- Under distinct hardfork names, `lastPosI` of the name at a position is
that position. -/
theorem lastPosI_get (l : List HardforkConfig)
    (hnod : (l.map fun hf => hf.name).Nodup) (k : Fin l.length) :
    lastPosI l (l.get k).name = ((k : Nat) : Int) := by
  unfold lastPosI
  have huniq : ∀ (j : Nat) (hj : j < l.length), j ≠ k.1 →
      (l.get ⟨j, hj⟩).name ≠ (l.get k).name := by
    intro j hj hne hc
    have hmj : j < (l.map fun hf => hf.name).length := by simpa using hj
    have hmk : k.1 < (l.map fun hf => hf.name).length := by simpa using k.2
    have hmap : (l.map fun hf => hf.name).get ⟨j, hmj⟩ =
        (l.map fun hf => hf.name).get ⟨k.1, hmk⟩ := by
      rw [List.get_map, List.get_map]
      exact hc
    have hjk := (List.Nodup.get_inj_iff hnod).mp hmap
    exact hne (congrArg Fin.val hjk)
  have hfold := lastPos_foldl (l.get k).name l k.1 0 (-1) k.2 rfl huniq
  have henum : l.enum = l.enumFrom 0 := rfl
  rw [henum, hfold]
  omega

/-- Integer-level form of `stepF_mono`. -/
theorem stepF_mono_int (hfs : List HardforkConfig) (g : HardforkConfig → Bool)
    {a b : Int} (h0 : 0 ≤ a) (hab : a ≤ b) (hblen : b ≤ (hfs.length : Int)) :
    a - findIndexI ((hfs.take a.toNat).reverse) g ≤
      b - findIndexI ((hfs.take b.toNat).reverse) g := by
  have hm := stepF_mono hfs g a.toNat b.toNat (by omega) (by omega)
  have hca : ((a.toNat : Nat) : Int) = a := Int.toNat_of_nonneg h0
  have hcb : ((b.toNat : Nat) : Int) = b := Int.toNat_of_nonneg (by omega)
  rw [hca, hcb] at hm
  exact hm

/-- C4: for every chain configuration with distinct hardfork names and
every block number `n` such that both calls succeed,
`getHardforkBy` with block number `n + 1` returns a hardfork greater than
or equal to the one returned for block number `n` in the chain's hardfork
ordering (`hardforkGteHardfork`). -/
theorem c4_getHardforkBy (hfs0 : List HardforkConfig) (n : Nat) (nm1 nm2 : String)
    (hnodup : (hfs0.map fun hf => hf.name).Nodup)
    (h1 : getHardforkBy hfs0 (some n) none none = .ok nm1)
    (h2 : getHardforkBy hfs0 (some (n + 1)) none none = .ok nm2) :
    hardforkGteHardfork hfs0 nm2 nm1 = true := by
  unfold getHardforkBy at h1 h2
  set hfs := schedHardforks hfs0 with hhfs
  simp only [eguard_bind_ok, ebind_ok, Except.ok.injEq] at h1 h2
  obtain ⟨-, -, i1, hI1, hf3, hHf3, i4, hI4, i5, hI5, -, -, hfF, hF, h1⟩ := h1
  obtain ⟨-, -, i1', hI1', hf3', hHf3', i4', hI4', i5', hI5', -, -, hfF', hF', h2⟩ := h2
  obtain ⟨he1, h0i1, hleni1⟩ := ghbIndex1_ok hI1
  obtain ⟨he1', h0i1', hleni1'⟩ := ghbIndex1_ok hI1'
  have hi1mono : i1 ≤ i1' := ghbIndex1_mono hI1 hI1'
  have hi2mono : ghbIndex2 hfs none i1 ≤ ghbIndex2 hfs none i1' := by
    rw [ghbIndex2_none, ghbIndex2_none]
    exact stepF_mono_int hfs _ h0i1 hi1mono hleni1'
  obtain ⟨hb3, hget3⟩ := listGetI_eq_some.mp (getElemE_ok.mp hHf3)
  obtain ⟨hb3', hget3'⟩ := listGetI_eq_some.mp (getElemE_ok.mp hHf3')
  rw [ghbIndex4_none_eq] at hI4 hI4'
  injection hI4 with hI4
  injection hI4' with hI4'
  have hi4b : (ghbIndex2 hfs none i1 - 1) - 1 ≤ i4 ∧ i4 ≤ ghbIndex2 hfs none i1 - 1 := by
    rw [← hI4]
    split <;> omega
  have hi4b' : (ghbIndex2 hfs none i1' - 1) - 1 ≤ i4' ∧
      i4' ≤ ghbIndex2 hfs none i1' - 1 := by
    rw [← hI4']
    split <;> omega
  have hi4mono : i4 ≤ i4' := by
    by_cases he : ghbIndex2 hfs none i1 - 1 = ghbIndex2 hfs none i1' - 1
    · rw [he] at hHf3
      rw [hHf3] at hHf3'
      injection hHf3' with heq3
      rw [← hI4, ← hI4', he, heq3]
    · omega
  have hi5mono : i5 ≤ i5' := advanceTies_mono hfs (by omega) hi4mono hI5 hI5'
  obtain ⟨hb5, hget5⟩ := listGetI_eq_some.mp (getElemE_ok.mp hF)
  obtain ⟨hb5', hget5'⟩ := listGetI_eq_some.mp (getElemE_ok.mp hF')
  subst h1 h2
  have hsub : List.Sublist hfs hfs0 := by
    rw [hhfs]
    unfold schedHardforks
    exact List.filter_sublist hfs0
  obtain ⟨f, hfemb⟩ := List.sublist_iff_exists_fin_orderEmbedding_get_eq.mp hsub
  have hname1 : hfF.name = (hfs0.get (f ⟨i5.toNat, hb5.2⟩)).name := by
    rw [← hfemb ⟨i5.toNat, hb5.2⟩, hget5]
  have hname2 : hfF'.name = (hfs0.get (f ⟨i5'.toNat, hb5'.2⟩)).name := by
    rw [← hfemb ⟨i5'.toNat, hb5'.2⟩, hget5']
  have hl1 := lastPosI_get hfs0 hnodup (f ⟨i5.toNat, hb5.2⟩)
  have hl2 := lastPosI_get hfs0 hnodup (f ⟨i5'.toNat, hb5'.2⟩)
  have hfle : f ⟨i5.toNat, hb5.2⟩ ≤ f ⟨i5'.toNat, hb5'.2⟩ :=
    f.le_iff_le.mpr (Fin.mk_le_mk.mpr (by omega))
  have hfleN := Fin.le_def.mp hfle
  unfold hardforkGteHardfork
  rw [hname1, hname2, hl1, hl2]
  simp only [Bool.and_eq_true, decide_eq_true_eq, ge_iff_le, ne_eq]
  refine ⟨?_, ?_⟩ <;> omega

/-- C4, witness: at the sample two-hardfork chain, block 5 resolves to
chainstart, block 6 to homestead, and homestead is gte chainstart. -/
theorem c4_witness :
    hardforkGteHardfork hfsC5W "homestead" "chainstart" = true :=
  c4_getHardforkBy hfsC5W 5 "chainstart" "homestead" (by decide) (by rfl) (by rfl)

end EthJS
